import Mathlib

/-!
# intset: a sorted-unique integer-set value type

Shallow embedding of `src/intset.c` and proofs of its specified properties.

Conventions of the embedding
* A C `int32` array is a `List Int`; C `int`/`int32` scalars (sizes, indices,
  loop counters) are `Int`.  The arithmetic on sizes and indices never leaves
  the `int32` range for arrays that fit in memory (`m = l + (r - l) / 2` is the
  overflow-free midpoint), so no wrap-around is modelled there; the one
  conversion that can overflow, `atoi`, wraps explicitly (`to_int32`).
* An array read `data[i]` is `rd data i`, a write `data[i] = v` is
  `wr data i v`.  A read outside the array is undefined in C and yields `0`
  here, a write outside the array is dropped; a fresh `malloc`/`realloc` cell
  holds `0` until it is written.
* A function that returns an array and sets `*size` returns the pair of both.
* A C string is the `List Char` of its characters before the terminating NUL;
  reading the string at the index of its length yields the NUL (`cget`).
  `isspace` and `isdigit` are those of the C locale.
* Scanning loops over a string are written with `takeWhile`/`dropWhile`; loops
  over indices whose trip count is bounded by a size run on a fuel argument that
  the caller sets from that size (the fuel lemmas show it is enough).
* `to_string` builds its text with `sprintf(str, "%s%d,", str, v)`, a call whose
  destination is also its `%s` argument.  ISO C leaves such a call undefined, so
  what it leaves in `str` is a parameter of `to_string`.  Two C libraries are
  given: `sprintf_append` (the argument is read before it is overwritten, so the
  numeral and a comma are appended) and `sprintf_fortified` (the destination is
  emptied first, so only the numeral and a comma remain).

Layout: the definitions come first (the code, then the grammar and the
invariants of the specification); the lemmas follow, each group before the
specified properties that rest on it.
-/

namespace IntSet

/-! ## Array primitives -/

/-- Array read `data[i]`. -/
def rd (data : List Int) (i : Int) : Int :=
  if 0 ≤ i then data.getD i.toNat 0 else 0

/-- Array write `data[i] = v`. -/
def wr (data : List Int) (i : Int) (v : Int) : List Int :=
  if 0 ≤ i then data.set i.toNat v else data

/-- Storage returned by `malloc`/`realloc(data, sizeof(int32) * n)`: the first `n`
cells of `data`, followed by fresh cells when the block grows. -/
def realloc (data : List Int) (n : Int) : List Int :=
  data.take n.toNat ++ List.replicate (n.toNat - data.length) 0

/-! ## Ordered-sequence engine -/

/-- The `while (l <= r)` loop of `num_exist`. -/
def num_exist_loop (data : List Int) (target : Int) : Nat → Int → Int → Bool
  | 0, _, _ => false
  | fuel + 1, l, r =>
    if l ≤ r then
      let m := l + (r - l) / 2
      if rd data m = target then true
      else if rd data m < target then num_exist_loop data target fuel (m + 1) r
      else num_exist_loop data target fuel l (m - 1)
    else false

/-- Source function `num_exist(data, target, size)`: binary search for `target`. -/
def num_exist (data : List Int) (target : Int) (size : Int) : Bool :=
  num_exist_loop data target (size.toNat + 1) 0 (size - 1)

/-- The `while (l <= r)` loop of `find_insert_pos`. -/
def find_insert_pos_loop (data : List Int) (target : Int) : Nat → Int → Int → Int
  | 0, l, _ => l
  | fuel + 1, l, r =>
    if l ≤ r then
      let m := l + (r - l) / 2
      if rd data m < target then find_insert_pos_loop data target fuel (m + 1) r
      else find_insert_pos_loop data target fuel l (m - 1)
    else l

/-- Source function `find_insert_pos(data, target, size)`. -/
def find_insert_pos (data : List Int) (target : Int) (size : Int) : Int :=
  find_insert_pos_loop data target (size.toNat + 1) 0 (size - 1)

/-- The loop `for (i = size - 1; i > pos; i--) data[i] = data[i - 1];` of `insert_num`. -/
def insert_num_loop (pos : Int) : Nat → Int → List Int → List Int
  | 0, _, data => data
  | fuel + 1, i, data =>
    if i > pos then insert_num_loop pos fuel (i - 1) (wr data i (rd data (i - 1)))
    else data

/-- Source function `insert_num(data, size, num, pos)`: grow the block to `size` cells,
shift the cells from `pos` on one slot to the right, write `num` at `pos`. -/
def insert_num (data : List Int) (size : Int) (num : Int) (pos : Int) : List Int :=
  wr (insert_num_loop pos size.toNat (size - 1) (realloc data size)) pos num

/-! ## Set algebra -/

/-- Source function `is_subset(dataA, sizeA, dataB, sizeB)`; the loop runs over the
indices `i = 0 .. sizeB - 1`. -/
def is_subset (dataA : List Int) (sizeA : Int) (dataB : List Int) (sizeB : Int) : Bool :=
  (List.range sizeB.toNat).all fun (i : Nat) => num_exist dataA (rd dataB i) sizeA

/-- Source function `is_equal(dataA, sizeA, dataB, sizeB)`. -/
def is_equal (dataA : List Int) (sizeA : Int) (dataB : List Int) (sizeB : Int) : Bool :=
  if sizeA ≠ sizeB then false
  else (List.range sizeA.toNat).all fun (i : Nat) => rd dataA i == rd dataB i

/-- One step of the append pattern shared by `get_intersection`, `get_difference`
and `get_disjunction`: `malloc` a one-cell block for the first element, else
`size++` and `insert_num(set, size, v, size - 1)`. -/
def append_num (st : List Int × Int) (v : Int) : List Int × Int :=
  if st.2 = 0 then (wr (realloc [] 1) 0 v, 1)
  else (insert_num st.1 (st.2 + 1) v (st.2 + 1 - 1), st.2 + 1)

/-- Source function `get_intersection`; returns the array and `*newSize`
(a `NULL` result array is the empty list). -/
def get_intersection (dataA : List Int) (sizeA : Int) (dataB : List Int) (sizeB : Int) :
    List Int × Int :=
  (List.range sizeA.toNat).foldl
    (fun st (i : Nat) =>
      if !num_exist dataB (rd dataA i) sizeB then st else append_num st (rd dataA i))
    ([], 0)

/-- The insert-if-absent step written inline in `get_data` and `get_union`, on the
pair of the array and its size: `if (num_exist(data, num, size)) continue;`
`pos = find_insert_pos(data, num, size); data = insert_num(data, ++size, num, pos);` -/
def insert_if_absent (st : List Int × Int) (num : Int) : List Int × Int :=
  if num_exist st.1 num st.2 then st
  else
    let pos := find_insert_pos st.1 num st.2
    (insert_num st.1 (st.2 + 1) num pos, st.2 + 1)

/-- Source function `get_union`: copy `dataB`, then insert every element of `dataA`
that is not yet present. -/
def get_union (dataA : List Int) (sizeA : Int) (dataB : List Int) (sizeB : Int) :
    List Int × Int :=
  let unionSet :=
    (List.range sizeB.toNat).foldl (fun u (j : Nat) => wr u j (rd dataB j)) (realloc [] sizeB)
  (List.range sizeA.toNat).foldl
    (fun st (i : Nat) => insert_if_absent st (rd dataA i)) (unionSet, sizeB)

/-- Source function `get_difference`. -/
def get_difference (dataA : List Int) (sizeA : Int) (dataB : List Int) (sizeB : Int) :
    List Int × Int :=
  (List.range sizeA.toNat).foldl
    (fun st (i : Nat) =>
      if num_exist dataB (rd dataA i) sizeB then st else append_num st (rd dataA i))
    ([], 0)

/-- Source function `get_disjunction`: the union minus the intersection. -/
def get_disjunction (dataA : List Int) (sizeA : Int) (dataB : List Int) (sizeB : Int) :
    List Int × Int :=
  let inter := get_intersection dataA sizeA dataB sizeB
  let uni := get_union dataA sizeA dataB sizeB
  (List.range uni.2.toNat).foldl
    (fun st (i : Nat) =>
      if num_exist inter.1 (rd uni.1 i) inter.2 then st else append_num st (rd uni.1 i))
    ([], 0)

/-! ## C strings -/

/-- The terminating NUL character. -/
def NUL : Char := Char.ofNat 0

/-- The libc classifier `isspace` in the C locale: space, `\t`, `\n`, `\v`, `\f`, `\r`. -/
def isspace (c : Char) : Bool := c.toNat = 32 || (9 ≤ c.toNat && c.toNat ≤ 13)

/-- The libc classifier `isdigit`. -/
def isdigit (c : Char) : Bool := 48 ≤ c.toNat && c.toNat ≤ 57

/-- String read `str[i]`; the cell after the last character holds the NUL. -/
def cget (str : List Char) (i : Int) : Char :=
  if 0 ≤ i then str.getD i.toNat NUL else NUL

/-- Buffer write `buf[i] = c`; cells past the modelled buffer are filled up with NUL. -/
def cwr (buf : List Char) (i : Int) (c : Char) : List Char :=
  if i.toNat < buf.length then buf.set i.toNat c
  else buf ++ List.replicate (i.toNat - buf.length) NUL ++ [c]

/-- The C string held by a buffer: its characters before the first NUL. -/
def cstr (buf : List Char) : List Char := buf.takeWhile (· ≠ NUL)

/-- The copy `memcpy(dst, &str[i], n); dst[n] = 0` of `n` characters of `str` from index `i`. -/
def substr (str : List Char) (i n : Int) : List Char := (str.drop i.toNat).take n.toNat

/-- Index reached by `i = 0; while (i < strlen(str) && isspace(str[i])) i++;`. -/
def skip_leading (str : List Char) : Int := ((str.takeWhile isspace).length : Int)

/-- Index reached by `j = strlen(str) - 1; while (j >= 0 && isspace(str[j])) j--;`. -/
def skip_trailing (str : List Char) : Int :=
  (str.length : Int) - 1 - ((str.reverse.takeWhile isspace).length : Int)

/-- The tokens returned by `strtok(s, ",")` and the following `strtok(NULL, ",")` calls
until `NULL`: the non-empty pieces of `s` between commas. -/
def strtok (s : List Char) : List (List Char) := (s.splitOn ',').filter (· ≠ [])

/-- The result of `strstr(str, ",,")` as a truth value. -/
def has_double_comma : List Char → Bool
  | c :: d :: s => (c = ',' && d = ',') || has_double_comma (d :: s)
  | _ => false

/-- The first token loop of `is_valid_input`: `false` when it hits a `return false`. -/
def check_tokens : Bool → List (List Char) → Bool
  | _, [] => true
  | onlySpace, token :: rest =>
    let i := skip_leading token
    let j := skip_trailing token
    if onlySpace then false
    else if (substr token i (j - i)).all isdigit then check_tokens (onlySpace || j == -1) rest
    else false

/-- The second half of `is_valid_input`, on the buffer once its space characters are
removed: the `strstr` test, the `"{}"` case, the two end tests on `numList` and the
second token loop. -/
def check_stripped (str2 : List Char) : Bool :=
  let s : Int := (str2.length : Int)
  if has_double_comma str2 then false
  else if str2 = ['{', '}'] then true
  else
    let numList := substr str2 1 (s - 2)
    if !isdigit (cget numList 0) || !isdigit (cget numList (s - 3)) then false
    else (strtok numList).all (fun token => token.all isdigit)

/-- Source function `is_valid_input(str)`, with the content of the caller's buffer `str`
at the return as second component: the function removes the space characters of
`str` in place before its second half. -/
def is_valid_input_run (str : List Char) : Bool × List Char :=
  let i := skip_leading str
  let j := skip_trailing str
  if cget str i ≠ '{' ∨ cget str j ≠ '}' then (false, str)
  else
    let listWithSpace := substr str (i + 1) ((j - 1) - (i + 1) + 1)
    if !check_tokens false (strtok listWithSpace) then (false, str)
    else (check_stripped (str.filter (· ≠ ' ')), str.filter (· ≠ ' '))

/-- Source function `is_valid_input(str)`: the returned truth value. -/
def is_valid_input (str : List Char) : Bool := (is_valid_input_run str).1

/-- The number denoted by a string of decimal digits. -/
def decimal_value (ds : List Char) : Nat :=
  ds.foldl (fun acc c => 10 * acc + (c.toNat - 48)) 0

/-- The libc function `strtol(s, NULL, 10)` as implemented by glibc on LP64: leading
white space, an optional sign, the longest run of digits, saturating at the `long` range. -/
def strtol (s : List Char) : Int :=
  let s := s.dropWhile isspace
  let neg := s.head? = some '-'
  let s := if s.head? = some '-' ∨ s.head? = some '+' then s.drop 1 else s
  let v : Nat := decimal_value (s.takeWhile isdigit)
  if neg then max (-(v : Int)) (-(2 : Int) ^ 63) else min (v : Int) ((2 : Int) ^ 63 - 1)

/-- The conversion of a `long` to `int32` (two's complement wrap-around). -/
def to_int32 (v : Int) : Int := (v + 2 ^ 31) % 2 ^ 32 - 2 ^ 31

/-- The libc function `atoi`, which glibc defines as `(int) strtol(s, NULL, 10)`. -/
def atoi (s : List Char) : Int := to_int32 (strtol s)

/-- The body of the token loop of `get_data` up to `num = atoi(subToken)`, with the
conversion function as a parameter: skip the leading `'0'` characters, copy the rest
(one cell, the terminator, when nothing is left), convert. -/
def parse_token (conv : List Char → Int) (token : List Char) : Int :=
  let i := (token.takeWhile (· = '0')).length
  let subTokenLen := if i ≥ token.length then 1 else token.length - i
  let subToken := cstr (((token ++ [NUL]).drop i).take subTokenLen)
  conv subToken

/-- The rest of the token loop of `get_data`: the first number goes into a fresh
one-cell block, every later one through the insert-if-absent step. -/
def get_data_step (st : List Int × Int) (num : Int) : List Int × Int :=
  if st.2 = 0 then (wr (realloc [] 1) 0 num, 1)
  else insert_if_absent st num

/-- Source function `get_data(str, &size)` with the integer conversion as a parameter;
returns the array and `*size`. -/
def get_data_with (conv : List Char → Int) (str : List Char) : List Int × Int :=
  let i := skip_leading str
  let j := skip_trailing str
  let subLen := (j - 1) - (i + 1) + 1
  let subStr := substr str (i + 1) subLen
  let numsWithZero := subStr.filter (· ≠ ' ')
  (strtok numsWithZero).foldl (fun st token => get_data_step st (parse_token conv token)) ([], 0)

/-- Source function `get_data(str, &size)`. -/
def get_data (str : List Char) : List Int × Int := get_data_with atoi str

/-- Source function `intset_in`: `none` is the `ereport(ERROR, ...)` exit, otherwise the
stored array and size; `get_data` runs on the buffer as `is_valid_input` left it. -/
def intset_in (str : List Char) : Option (List Int × Int) :=
  if !(is_valid_input_run str).1 then none
  else some (get_data (is_valid_input_run str).2)

/-- The `while (num != 0)` loop of `get_num_length`; `/` of C truncates toward zero. -/
def get_num_length_loop : Nat → Int → Int → Int
  | 0, _, count => count
  | fuel + 1, num, count =>
    if num ≠ 0 then get_num_length_loop fuel (Int.tdiv num 10) (count + 1) else count

/-- Source function `get_num_length(num)`. -/
def get_num_length (num : Int) : Int :=
  if num = 0 then 1 else get_num_length_loop num.natAbs num 0

/-- The decimal digits of a natural number, most significant first. -/
def decimal_loop : Nat → Nat → List Char
  | 0, _ => []
  | fuel + 1, n =>
    if n < 10 then [Char.ofNat (48 + n)]
    else decimal_loop fuel (n / 10) ++ [Char.ofNat (48 + n % 10)]

/-- The decimal numeral of a natural number; the loop needs at most `n + 1` rounds. -/
def decimal (n : Nat) : List Char := decimal_loop (n + 1) n

/-- The text printed by the `%d` conversion of `sprintf`. -/
def sprintf_d (n : Int) : List Char :=
  if n < 0 then '-' :: decimal n.natAbs else decimal n.natAbs

/-- The call `sprintf(str, "%s%d,", str, v)` on a C library that reads the `%s`
argument before it overwrites it (glibc built without `_FORTIFY_SOURCE`): `str` then
holds its old text, the numeral of `v` and a comma. -/
def sprintf_append (str : List Char) (v : Int) : List Char :=
  str ++ sprintf_d v ++ [',']

/-- The call `sprintf(str, "%s%d,", str, v)` on glibc built with `_FORTIFY_SOURCE`: the
checked `sprintf` empties the destination before it formats, so `%s` prints the empty
string and `str` then holds the numeral of `v` and a comma only. -/
def sprintf_fortified (_str : List Char) (v : Int) : List Char :=
  sprintf_d v ++ [',']

/-- Source function `to_string(data, size)`: the length from `get_num_length`, the text
from the `sprintf(str, "%s%d,", str, data[i])` loop, then `str[len - 1] = '}'` and
`str[len] = 0` written into the buffer.  The destination of that `sprintf` call is also
its `%s` argument, which ISO C leaves undefined: `sprintf str v` is the text the C
library leaves in `str`. -/
def to_string (sprintf : List Char → Int → List Char) (data : List Int) (size : Int) :
    List Char :=
  let len0 : Int := if size = 0 then 2 else size + 1
  let len := (List.range size.toNat).foldl
    (fun len (i : Nat) => len + get_num_length (rd data i)) len0
  let str := (List.range size.toNat).foldl
    (fun str (i : Nat) => sprintf str (rd data i)) ['{']
  cstr (cwr (cwr (str ++ [NUL]) (len - 1) '}') len NUL)

/-- Source function `intset_out`. -/
def intset_out (sprintf : List Char → Int → List Char) (s : List Int × Int) : List Char :=
  to_string sprintf s.1 s.2

/-! ## The literal grammar of the specification -/

/-- A run of `n` space characters. -/
def spaces (n : Nat) : List Char := List.replicate n ' '

/-- Grammar rule `element := ws* digit+ ws*`. -/
def IsElement (e : List Char) : Prop :=
  ∃ (a b : Nat) (ds : List Char),
    ds ≠ [] ∧ (∀ c ∈ ds, isdigit c = true) ∧ e = spaces a ++ ds ++ spaces b

/-- Grammar rule `set := '{' ws* '}' | '{' element (',' element)* '}'`. -/
def IsSetLiteral (s : List Char) : Prop :=
  (∃ n : Nat, s = '{' :: spaces n ++ ['}']) ∨
  (∃ es : List (List Char), es ≠ [] ∧ (∀ e ∈ es, IsElement e) ∧
    s = '{' :: [','].intercalate es ++ ['}'])

/-- Removal of the leading and trailing space characters of a string. -/
def trim_spaces (s : List Char) : List Char :=
  ((s.dropWhile (· = ' ')).reverse.dropWhile (· = ' ')).reverse

/-- The digit tokens of a literal in the words of the specification: the text between
the outer braces, split at the commas, each piece without its space characters; a
piece with no character left is no token. -/
def literal_tokens (lit : List Char) : List (List Char) :=
  ((((trim_spaces lit).drop 1).dropLast.splitOn ',').map
    (List.filter (· ≠ ' '))).filter (· ≠ [])

/-- The values denoted by the digit tokens of a literal. -/
def literal_values (lit : List Char) : List Int :=
  (literal_tokens lit).map (fun t => (decimal_value t : Int))

/-- The state invariant of every array under construction: strictly ascending (I1) and
`size` equal to the number of cells (I2). -/
def Inv (st : List Int × Int) : Prop :=
  st.1.Sorted (· < ·) ∧ st.2 = st.1.length

/-- Invariant I1 in the indexed form of the specification: `data[i] < data[i+1]` for
every `i` with `0 <= i` and `i + 1 < size`. -/
def StrictlyAscending (data : List Int) (size : Int) : Prop :=
  ∀ i : Int, 0 ≤ i → i + 1 < size → rd data i < rd data (i + 1)

/-! ## The entry points called by the database

A stored `IntSet` value is the pair of its `data` array and its `size` field; an entry
point that builds a set copies the `size` cells of the array its helper returned. -/

/-- Source function `intset_contains(num, intSet)`. -/
def intset_contains (num : Int) (intSet : List Int × Int) : Bool :=
  num_exist intSet.1 num intSet.2

/-- Source function `get_cardinality(intSet)`. -/
def get_cardinality (intSet : List Int × Int) : Int := intSet.2

/-- Source function `contains_all(setA, setB)`. -/
def contains_all (setA setB : List Int × Int) : Bool :=
  is_subset setA.1 setA.2 setB.1 setB.2

/-- Source function `contains_only(setA, setB)`: the same helper, operands swapped. -/
def contains_only (setA setB : List Int × Int) : Bool :=
  is_subset setB.1 setB.2 setA.1 setA.2

/-- Source function `equal(setA, setB)`; the helper is called on `setB`, `setA`. -/
def equal (setA setB : List Int × Int) : Bool :=
  is_equal setB.1 setB.2 setA.1 setA.2

/-- Source function `not_equal(setA, setB)`. -/
def not_equal (setA setB : List Int × Int) : Bool :=
  !is_equal setB.1 setB.2 setA.1 setA.2

/-- Source function `intersection(setA, setB)`; the helper is called on `setB`, `setA`. -/
def intersection (setA setB : List Int × Int) : List Int × Int :=
  get_intersection setB.1 setB.2 setA.1 setA.2

/-- Source function `union_set(setA, setB)`. -/
def union_set (setA setB : List Int × Int) : List Int × Int :=
  get_union setA.1 setA.2 setB.1 setB.2

/-- Source function `disjunction(setA, setB)`. -/
def disjunction (setA setB : List Int × Int) : List Int × Int :=
  get_disjunction setA.1 setA.2 setB.1 setB.2

/-- Source function `difference(setA, setB)`. -/
def difference (setA setB : List Int × Int) : List Int × Int :=
  get_difference setA.1 setA.2 setB.1 setB.2

/-- The body of a literal in the words of the specification: the text between the
outer braces of the literal without its leading and trailing space characters. -/
def literal_body (lit : List Char) : List Char := ((trim_spaces lit).drop 1).dropLast

/-! ## The search loops with a record of their reads -/

/-- The `while (l <= r)` loop of `num_exist`, returning with its result the indices `m`
of the cells `data[m]` it reads, in order; `none` when the fuel is used up before the
loop exits. -/
def num_exist_trace (data : List Int) (target : Int) : Nat → Int → Int → Option (Bool × List Int)
  | 0, l, r => if l ≤ r then none else some (false, [])
  | fuel + 1, l, r =>
    if l ≤ r then
      let m := l + (r - l) / 2
      if rd data m = target then some (true, [m])
      else if rd data m < target then
        (num_exist_trace data target fuel (m + 1) r).map (fun p => (p.1, m :: p.2))
      else (num_exist_trace data target fuel l (m - 1)).map (fun p => (p.1, m :: p.2))
    else some (false, [])

/-- The `while (l <= r)` loop of `find_insert_pos`, returning with its result the indices
`m` of the cells it reads; `none` when the fuel is used up before the loop exits. -/
def find_insert_pos_trace (data : List Int) (target : Int) :
    Nat → Int → Int → Option (Int × List Int)
  | 0, l, r => if l ≤ r then none else some (l, [])
  | fuel + 1, l, r =>
    if l ≤ r then
      let m := l + (r - l) / 2
      if rd data m < target then
        (find_insert_pos_trace data target fuel (m + 1) r).map (fun p => (p.1, m :: p.2))
      else (find_insert_pos_trace data target fuel l (m - 1)).map (fun p => (p.1, m :: p.2))
    else some (l, [])

/-! ## Tokens with added zeros -/

/-- An element of a literal together with a number of `'0'` characters to put before
its digits: the spaces before, the added zeros, the digits, the spaces after. -/
structure PaddedToken where
  lead : Nat
  zeros : Nat
  digits : List Char
  trail : Nat

/-- The element as written in the literal. -/
def token_text (t : PaddedToken) : List Char :=
  spaces t.lead ++ t.digits ++ spaces t.trail

/-- The element with the zeros added before its digits. -/
def padded_text (t : PaddedToken) : List Char :=
  spaces t.lead ++ (List.replicate t.zeros '0' ++ t.digits) ++ spaces t.trail

/-- The literal with `a` spaces, `{`, the elements joined by commas, `}`, `b` spaces. -/
def literal_of (a b : Nat) (es : List (List Char)) : List Char :=
  spaces a ++ '{' :: [','].intercalate es ++ '}' :: spaces b

/-! ## Facts about the array primitives -/

theorem rd_natCast (data : List Int) (k : Nat) (h : k < data.length) :
    rd data (k : Int) = data[k] := by
  unfold rd
  rw [if_pos (by omega), Int.toNat_natCast, List.getD_eq_getElem _ _ h]

theorem rd_mem (data : List Int) (i : Int) (h0 : 0 ≤ i) (h1 : i < data.length) :
    rd data i ∈ data := by
  obtain ⟨k, rfl⟩ : ∃ k : Nat, i = k := ⟨i.toNat, by omega⟩
  rw [rd_natCast data k (by omega)]
  exact List.getElem_mem _

theorem exists_rd_of_mem {data : List Int} {x : Int} (h : x ∈ data) :
    ∃ k : Int, 0 ≤ k ∧ k < data.length ∧ rd data k = x := by
  obtain ⟨n, hn, rfl⟩ := List.getElem_of_mem h
  exact ⟨n, by omega, by omega, rd_natCast data n hn⟩

theorem rd_lt_rd {data : List Int} (hs : data.Sorted (· < ·)) {i j : Int}
    (hi : 0 ≤ i) (hij : i < j) (hj : j < data.length) : rd data i < rd data j := by
  obtain ⟨a, rfl⟩ : ∃ a : Nat, i = a := ⟨i.toNat, by omega⟩
  obtain ⟨b, rfl⟩ : ∃ b : Nat, j = b := ⟨j.toNat, by omega⟩
  rw [rd_natCast data a (by omega), rd_natCast data b (by omega)]
  exact (List.pairwise_iff_getElem.mp hs) _ _ _ _ (by omega)

theorem rd_le_rd {data : List Int} (hs : data.Sorted (· < ·)) {i j : Int}
    (hi : 0 ≤ i) (hij : i ≤ j) (hj : j < data.length) : rd data i ≤ rd data j := by
  rcases eq_or_lt_of_le hij with h | h
  · rw [h]
  · exact le_of_lt (rd_lt_rd hs hi h hj)

/-! ## Binary search -/

theorem num_exist_loop_iff {data : List Int} (hs : data.Sorted (· < ·)) (target : Int) :
    ∀ (fuel : Nat) (l r : Int), 0 ≤ l → r < data.length → r - l + 1 ≤ fuel →
      (num_exist_loop data target fuel l r = true ↔
        ∃ k : Int, l ≤ k ∧ k ≤ r ∧ rd data k = target) := by
  intro fuel
  induction fuel with
  | zero =>
    intro l r _ _ hf
    simp only [num_exist_loop, Bool.false_eq_true, false_iff]
    rintro ⟨k, h1, h2, _⟩
    omega
  | succ fuel ih =>
    intro l r hl hr hf
    unfold num_exist_loop
    by_cases hlr : l ≤ r
    · rw [if_pos hlr]
      have hm1 : l ≤ l + (r - l) / 2 := by omega
      have hm2 : l + (r - l) / 2 ≤ r := by omega
      simp only []
      by_cases heq : rd data (l + (r - l) / 2) = target
      · rw [if_pos heq]
        simp only [true_iff]
        exact ⟨_, hm1, hm2, heq⟩
      · rw [if_neg heq]
        by_cases hlt : rd data (l + (r - l) / 2) < target
        · rw [if_pos hlt, ih _ _ (by omega) hr (by omega)]
          constructor
          · rintro ⟨k, h1, h2, h3⟩
            exact ⟨k, by omega, h2, h3⟩
          · rintro ⟨k, h1, h2, h3⟩
            refine ⟨k, ?_, h2, h3⟩
            by_contra hk
            have := rd_le_rd hs (i := k) (j := l + (r - l) / 2) (by omega) (by omega) (by omega)
            omega
        · rw [if_neg hlt, ih _ _ hl (by omega) (by omega)]
          constructor
          · rintro ⟨k, h1, h2, h3⟩
            exact ⟨k, h1, by omega, h3⟩
          · rintro ⟨k, h1, h2, h3⟩
            refine ⟨k, h1, ?_, h3⟩
            by_contra hk
            have := rd_le_rd hs (i := l + (r - l) / 2) (j := k) (by omega) (by omega) (by omega)
            omega
    · rw [if_neg hlr]
      simp only [Bool.false_eq_true, false_iff]
      rintro ⟨k, h1, h2, _⟩
      omega

theorem num_exist_iff_mem {data : List Int} (hs : data.Sorted (· < ·)) (target : Int) :
    num_exist data target data.length = true ↔ target ∈ data := by
  unfold num_exist
  rw [num_exist_loop_iff hs target _ _ _ (le_refl 0) (by omega) (by omega)]
  constructor
  · rintro ⟨k, h1, h2, rfl⟩
    exact rd_mem data k h1 (by omega)
  · intro h
    obtain ⟨k, h0, h1, h2⟩ := exists_rd_of_mem h
    exact ⟨k, h0, by omega, h2⟩

theorem find_insert_pos_loop_spec {data : List Int} (hs : data.Sorted (· < ·)) (target : Int) :
    ∀ (fuel : Nat) (l r : Int), 0 ≤ l → r < data.length → l ≤ r + 1 → r - l + 1 ≤ fuel →
      l ≤ find_insert_pos_loop data target fuel l r ∧
      find_insert_pos_loop data target fuel l r ≤ r + 1 ∧
      (∀ k : Int, l ≤ k → k < find_insert_pos_loop data target fuel l r → rd data k < target) ∧
      (∀ k : Int, find_insert_pos_loop data target fuel l r ≤ k → k ≤ r → target ≤ rd data k) := by
  intro fuel
  induction fuel with
  | zero =>
    intro l r _ _ hlr hf
    simp only [find_insert_pos_loop]
    exact ⟨le_refl _, hlr, fun k h1 h2 => by omega, fun k h1 h2 => by omega⟩
  | succ fuel ih =>
    intro l r hl hr hlr1 hf
    unfold find_insert_pos_loop
    by_cases hlr : l ≤ r
    · rw [if_pos hlr]
      simp only []
      by_cases hlt : rd data (l + (r - l) / 2) < target
      · rw [if_pos hlt]
        obtain ⟨h1, h2, h3, h4⟩ := ih (l + (r - l) / 2 + 1) r (by omega) hr (by omega) (by omega)
        refine ⟨by omega, h2, ?_, h4⟩
        intro k hk1 hk2
        by_cases hk : l + (r - l) / 2 + 1 ≤ k
        · exact h3 k hk hk2
        · have := rd_le_rd hs (i := k) (j := l + (r - l) / 2) (by omega) (by omega) (by omega)
          omega
      · rw [if_neg hlt]
        obtain ⟨h1, h2, h3, h4⟩ := ih l (l + (r - l) / 2 - 1) hl (by omega) (by omega) (by omega)
        refine ⟨h1, by omega, h3, ?_⟩
        intro k hk1 hk2
        by_cases hk : k ≤ l + (r - l) / 2 - 1
        · exact h4 k hk1 hk
        · have := rd_le_rd hs (i := l + (r - l) / 2) (j := k) (by omega) (by omega) (by omega)
          omega
    · rw [if_neg hlr]
      exact ⟨le_refl _, hlr1, fun k h1 h2 => by omega, fun k h1 h2 => by omega⟩

theorem find_insert_pos_spec {data : List Int} (hs : data.Sorted (· < ·)) (target : Int) :
    0 ≤ find_insert_pos data target data.length ∧
    find_insert_pos data target data.length ≤ data.length ∧
    (∀ k : Int, 0 ≤ k → k < find_insert_pos data target data.length → rd data k < target) ∧
    (∀ k : Int, find_insert_pos data target data.length ≤ k → k < data.length →
      target ≤ rd data k) := by
  unfold find_insert_pos
  obtain ⟨h1, h2, h3, h4⟩ := find_insert_pos_loop_spec hs target ((data.length : Int).toNat + 1) 0
    ((data.length : Int) - 1) (le_refl 0) (by omega) (by omega) (by omega)
  exact ⟨h1, by omega, h3, fun k hk1 hk2 => h4 k hk1 (by omega)⟩

/-! ## Fuel of the search loops -/

theorem num_exist_loop_fuel (data : List Int) (target : Int) :
    ∀ (f1 f2 : Nat) (l r : Int), r - l + 1 ≤ f1 → r - l + 1 ≤ f2 →
      num_exist_loop data target f1 l r = num_exist_loop data target f2 l r := by
  intro f1
  induction f1 with
  | zero =>
    intro f2 l r h1 _
    have hlr : ¬ l ≤ r := by omega
    cases f2 with
    | zero => rfl
    | succ f2 => simp [num_exist_loop, hlr]
  | succ f1 ih =>
    intro f2 l r h1 h2
    by_cases hlr : l ≤ r
    · obtain ⟨g, rfl⟩ : ∃ g, f2 = g + 1 := ⟨f2 - 1, by omega⟩
      unfold num_exist_loop
      simp only [hlr, if_true]
      rw [ih g (l + (r - l) / 2 + 1) r (by omega) (by omega),
        ih g l (l + (r - l) / 2 - 1) (by omega) (by omega)]
    · cases f2 with
      | zero => simp [num_exist_loop, hlr]
      | succ f2 => simp [num_exist_loop, hlr]

theorem find_insert_pos_loop_fuel (data : List Int) (target : Int) :
    ∀ (f1 f2 : Nat) (l r : Int), r - l + 1 ≤ f1 → r - l + 1 ≤ f2 →
      find_insert_pos_loop data target f1 l r = find_insert_pos_loop data target f2 l r := by
  intro f1
  induction f1 with
  | zero =>
    intro f2 l r h1 _
    have hlr : ¬ l ≤ r := by omega
    cases f2 with
    | zero => rfl
    | succ f2 => simp [find_insert_pos_loop, hlr]
  | succ f1 ih =>
    intro f2 l r h1 h2
    by_cases hlr : l ≤ r
    · obtain ⟨g, rfl⟩ : ∃ g, f2 = g + 1 := ⟨f2 - 1, by omega⟩
      unfold find_insert_pos_loop
      simp only [hlr, if_true]
      rw [ih g (l + (r - l) / 2 + 1) r (by omega) (by omega),
        ih g l (l + (r - l) / 2 - 1) (by omega) (by omega)]
    · cases f2 with
      | zero => simp [find_insert_pos_loop, hlr]
      | succ f2 => simp [find_insert_pos_loop, hlr]

/-! ## Ordered insertion -/

theorem wr_append_cons (l1 l2 : List Int) (x v : Int) (i : Int) (hi : i = l1.length) :
    wr (l1 ++ x :: l2) i v = l1 ++ v :: l2 := by
  subst hi
  unfold wr
  simp

theorem rd_append_left (l1 l2 : List Int) (i : Int) (h0 : 0 ≤ i) (hi : i < l1.length) :
    rd (l1 ++ l2) i = rd l1 i := by
  unfold rd
  rw [if_pos h0, if_pos h0, List.getD_append _ _ _ _ (by omega)]

theorem take_succ_drop (data : List Int) (j : Nat) (hj : j + 1 ≤ data.length) (y : Int) :
    data.take (j + 1) ++ y :: data.drop (j + 1) =
      data.take j ++ data[j] :: y :: data.drop (j + 1) := by
  have h : j < data.length := by omega
  rw [List.take_succ, List.getElem?_eq_getElem h]
  simp only [Option.toList, List.append_assoc, List.singleton_append]

theorem insert_num_loop_shape (data : List Int) (p : Nat) :
    ∀ (fuel j : Nat) (x : Int), p ≤ j → j ≤ data.length → j - p ≤ fuel →
      ∃ y, insert_num_loop p fuel j (data.take j ++ x :: data.drop j) =
        data.take p ++ y :: data.drop p := by
  intro fuel
  induction fuel with
  | zero =>
    intro j x hpj _ hf
    have : j = p := by omega
    subst this
    exact ⟨x, rfl⟩
  | succ fuel ih =>
    intro j x hpj hj hf
    unfold insert_num_loop
    by_cases hgt : (j : Int) > p
    · rw [if_pos hgt]
      obtain ⟨i, rfl⟩ : ∃ i, j = i + 1 := ⟨j - 1, by omega⟩
      have hlen : (data.take (i + 1)).length = i + 1 := by simp; omega
      rw [wr_append_cons _ _ _ _ _ (by rw [hlen])]
      have hrd : rd (data.take (i + 1) ++ x :: data.drop (i + 1)) (((i + 1 : Nat) : Int) - 1)
          = data[i] := by
        rw [rd_append_left _ _ _ (by omega) (by omega)]
        have : (((i + 1 : Nat) : Int) - 1) = (i : Int) := by omega
        rw [this, rd_natCast _ _ (by omega)]
        simp
      rw [hrd]
      have hsh : data.take (i + 1) ++ data[i] :: data.drop (i + 1) =
          data.take i ++ data[i] :: data.drop i := by
        rw [take_succ_drop data i hj]
        congr 2
        exact (List.drop_eq_getElem_cons (by omega)).symm
      rw [hsh]
      have hi : (((i + 1 : Nat) : Int) - 1) = (i : Int) := by omega
      rw [hi]
      exact ih i data[i] (by omega) (by omega) (by omega)
    · rw [if_neg hgt]
      have : j = p := by omega
      subst this
      exact ⟨x, rfl⟩

theorem insert_num_eq (data : List Int) (v : Int) (pos : Int) (h0 : 0 ≤ pos)
    (h1 : pos ≤ data.length) :
    insert_num data (data.length + 1) v pos =
      data.take pos.toNat ++ v :: data.drop pos.toNat := by
  obtain ⟨p, rfl⟩ : ∃ p : Nat, pos = p := ⟨pos.toNat, by omega⟩
  unfold insert_num
  have hre : realloc data ((data.length : Int) + 1) =
      data.take data.length ++ 0 :: data.drop data.length := by
    unfold realloc
    have : ((data.length : Int) + 1).toNat = data.length + 1 := by omega
    rw [this]
    simp [List.take_of_length_le]
  have hsz : ((data.length : Int) + 1).toNat = data.length + 1 := by omega
  have hj : ((data.length : Int) + 1 - 1) = (data.length : Int) := by omega
  rw [hre, hsz, hj]
  obtain ⟨y, hy⟩ := insert_num_loop_shape data p (data.length + 1) data.length 0
    (by omega) (le_refl _) (by omega)
  rw [hy]
  rw [wr_append_cons _ _ _ _ _ (by simp; omega)]
  simp

theorem sorted_insert_at {data : List Int} (hs : data.Sorted (· < ·)) (v : Int) (p : Nat)
    (hlo : ∀ k : Int, 0 ≤ k → k < p → rd data k < v)
    (hhi : ∀ k : Int, (p : Int) ≤ k → k < data.length → v ≤ rd data k)
    (hv : v ∉ data) :
    (data.take p ++ v :: data.drop p).Sorted (· < ·) := by
  have hlt : ∀ a ∈ data.take p, a < v := by
    intro a ha
    obtain ⟨i, hi, rfl⟩ := List.mem_take_iff_getElem.mp ha
    have hi2 : i < p ∧ i < data.length := by simpa using hi
    rw [← rd_natCast data i hi2.2]
    exact hlo i (by omega) (by omega)
  have hgt : ∀ b ∈ data.drop p, v < b := by
    intro b hb
    obtain ⟨i, hi, rfl⟩ := List.mem_drop_iff_getElem.mp hb
    have h1 := hhi ((p + i : Nat) : Int) (by omega) (by omega)
    rw [rd_natCast data (p + i) (by omega)] at h1
    rcases eq_or_lt_of_le h1 with h | h
    · exact absurd (h ▸ List.getElem_mem _) hv
    · exact h
  have hsplit : (data.take p ++ data.drop p).Sorted (· < ·) := by
    rw [List.take_append_drop]; exact hs
  obtain ⟨h1, h2, h3⟩ := List.pairwise_append.mp hsplit
  refine List.pairwise_append.mpr ⟨h1, List.pairwise_cons.mpr ⟨hgt, h2⟩, ?_⟩
  intro a ha b hb
  rcases List.mem_cons.mp hb with rfl | hb
  · exact hlt a ha
  · exact h3 a ha b hb

theorem mem_insert_at (data : List Int) (v x : Int) (p : Nat) :
    x ∈ data.take p ++ v :: data.drop p ↔ x ∈ data ∨ x = v := by
  have h : x ∈ data ↔ x ∈ data.take p ∨ x ∈ data.drop p := by
    rw [← List.mem_append, List.take_append_drop]
  rw [List.mem_append, List.mem_cons, h]
  tauto

theorem insert_if_absent_spec {st : List Int × Int} (h : Inv st) (v : Int) :
    Inv (insert_if_absent st v) ∧ ∀ x, x ∈ (insert_if_absent st v).1 ↔ x ∈ st.1 ∨ x = v := by
  obtain ⟨data, size⟩ := st
  obtain ⟨hs, hsz⟩ := h
  simp only at hs hsz
  subst hsz
  unfold insert_if_absent
  by_cases hex : num_exist data v data.length = true
  · rw [if_pos hex]
    have hm := (num_exist_iff_mem hs v).mp hex
    refine ⟨⟨hs, rfl⟩, fun x => ?_⟩
    constructor
    · exact Or.inl
    · rintro (h | rfl)
      · exact h
      · exact hm
  · rw [if_neg hex]
    have hm : v ∉ data := fun h => hex ((num_exist_iff_mem hs v).mpr h)
    obtain ⟨h0, h1, h2, h3⟩ := find_insert_pos_spec hs v
    simp only []
    rw [insert_num_eq data v _ h0 h1]
    obtain ⟨p, hp⟩ : ∃ p : Nat, find_insert_pos data v data.length = p :=
      ⟨(find_insert_pos data v data.length).toNat, by omega⟩
    rw [hp] at h0 h1 h2 h3 ⊢
    simp only [Int.toNat_natCast]
    refine ⟨⟨sorted_insert_at hs v p h2 h3 hm, ?_⟩, fun x => mem_insert_at data v x p⟩
    simp only [List.length_append, List.length_cons, List.length_take, List.length_drop]
    have : p ≤ data.length := by omega
    omega

theorem append_num_eq (l : List Int) (v : Int) :
    append_num (l, (l.length : Int)) v = (l ++ [v], ((l ++ [v]).length : Int)) := by
  unfold append_num
  by_cases h : (l.length : Int) = 0
  · have hl : l = [] := List.length_eq_zero.mp (by omega)
    subst hl
    simp [realloc, wr]
  · simp only [h, if_false]
    rw [insert_num_eq l v _ (by omega) (by omega)]
    have : ((l.length : Int) + 1 - 1).toNat = l.length := by omega
    rw [this]
    simp

/-! ## Loops over an input array -/

theorem map_rd_range (A : List Int) :
    (List.range A.length).map (fun i : Nat => rd A i) = A := by
  apply List.ext_getElem
  · simp
  · intro n h1 h2
    simp only [List.getElem_map, List.getElem_range]
    exact rd_natCast A n (by simpa using h1)

theorem foldl_range_rd {β : Type} (f : β → Int → β) (A : List Int) (init : β) :
    (List.range A.length).foldl (fun st (i : Nat) => f st (rd A i)) init = A.foldl f init := by
  conv_rhs => rw [← map_rd_range A]
  rw [List.foldl_map]

theorem foldl_filter_append (p : Int → Bool) (A : List Int) :
    ∀ l : List Int,
      A.foldl (fun st v => if p v then append_num st v else st) (l, (l.length : Int)) =
        (l ++ A.filter p, ((l ++ A.filter p).length : Int)) := by
  induction A with
  | nil => intro l; simp
  | cons a A ih =>
    intro l
    rw [List.foldl_cons]
    by_cases hp : p a = true
    · rw [if_pos hp, append_num_eq, ih, List.filter_cons_of_pos hp]
      simp
    · rw [if_neg hp, ih, List.filter_cons_of_neg hp]

theorem copy_loop_eq (B : List Int) :
    (List.range (B.length : Int).toNat).foldl (fun u (j : Nat) => wr u j (rd B j))
      (realloc [] (B.length : Int)) = B := by
  have key : ∀ k : Nat, k ≤ B.length →
      (List.range k).foldl (fun u (j : Nat) => wr u j (rd B j)) (List.replicate B.length 0) =
        B.take k ++ List.replicate (B.length - k) 0 := by
    intro k
    induction k with
    | zero => intro _; simp
    | succ k ih =>
      intro hk
      rw [List.range_succ, List.foldl_append, ih (by omega)]
      simp only [List.foldl_cons, List.foldl_nil]
      have hrep : List.replicate (B.length - k) (0 : Int) =
          0 :: List.replicate (B.length - (k + 1)) 0 := by
        have : B.length - k = (B.length - (k + 1)) + 1 := by omega
        rw [this, List.replicate_succ]
      rw [hrep, wr_append_cons _ _ _ _ _ (by simp; omega), rd_natCast B k (by omega)]
      have h : k < B.length := by omega
      rw [List.take_succ, List.getElem?_eq_getElem h]
      simp only [Option.toList, List.append_assoc, List.singleton_append]
  have hre : realloc [] (B.length : Int) = List.replicate B.length 0 := by
    simp [realloc]
  rw [hre, Int.toNat_natCast, key B.length (le_refl _)]
  simp

/-! ## The algebra operations as list functions -/

theorem insert_if_absent_size_le (st : List Int × Int) (v : Int) :
    (insert_if_absent st v).2 ≤ st.2 + 1 := by
  unfold insert_if_absent
  split
  · omega
  · simp

theorem foldl_insert_if_absent_spec (A : List Int) :
    ∀ st : List Int × Int, Inv st →
      Inv (A.foldl insert_if_absent st) ∧
      (∀ x, x ∈ (A.foldl insert_if_absent st).1 ↔ x ∈ st.1 ∨ x ∈ A) ∧
      (A.foldl insert_if_absent st).2 ≤ st.2 + A.length := by
  induction A with
  | nil => intro st h; simp [h]
  | cons a A ih =>
    intro st h
    obtain ⟨h1, h2⟩ := insert_if_absent_spec h a
    obtain ⟨i1, i2, i3⟩ := ih _ h1
    rw [List.foldl_cons]
    refine ⟨i1, fun x => ?_, ?_⟩
    · rw [i2, h2, List.mem_cons]
      tauto
    · have := insert_if_absent_size_le st a
      simp only [List.length_cons, Nat.cast_add, Nat.cast_one]
      omega

theorem get_union_eq (A B : List Int) :
    get_union A A.length B B.length = A.foldl insert_if_absent (B, (B.length : Int)) := by
  unfold get_union
  simp only []
  rw [copy_loop_eq, Int.toNat_natCast]
  exact foldl_range_rd insert_if_absent A _

theorem get_intersection_eq (A B : List Int) :
    get_intersection A A.length B B.length =
      (A.filter (fun v => num_exist B v B.length),
        ((A.filter (fun v => num_exist B v B.length)).length : Int)) := by
  unfold get_intersection
  rw [Int.toNat_natCast]
  have h := foldl_range_rd
    (fun st v => if (!num_exist B v B.length) = true then st else append_num st v) A ([], 0)
  rw [h]
  have h2 := foldl_filter_append (fun v => num_exist B v B.length) A []
  simp only [List.nil_append, List.length_nil, Nat.cast_zero] at h2
  rw [← h2]
  congr 1
  funext st v
  cases num_exist B v B.length <;> simp

theorem get_difference_eq (A B : List Int) :
    get_difference A A.length B B.length =
      (A.filter (fun v => !num_exist B v B.length),
        ((A.filter (fun v => !num_exist B v B.length)).length : Int)) := by
  unfold get_difference
  rw [Int.toNat_natCast]
  have h := foldl_range_rd
    (fun st v => if num_exist B v B.length = true then st else append_num st v) A ([], 0)
  rw [h]
  have h2 := foldl_filter_append (fun v => !num_exist B v B.length) A []
  simp only [List.nil_append, List.length_nil, Nat.cast_zero] at h2
  rw [← h2]
  congr 1
  funext st v
  cases num_exist B v B.length <;> simp

theorem get_disjunction_eq (A B : List Int) (U I : List Int)
    (hU : get_union A A.length B B.length = (U, (U.length : Int)))
    (hI : get_intersection A A.length B B.length = (I, (I.length : Int))) :
    get_disjunction A A.length B B.length =
      (U.filter (fun v => !num_exist I v I.length),
        ((U.filter (fun v => !num_exist I v I.length)).length : Int)) := by
  unfold get_disjunction
  simp only []
  rw [hU, hI]
  simp only [Int.toNat_natCast]
  have h := foldl_range_rd
    (fun st v => if num_exist I v I.length = true then st else append_num st v) U ([], 0)
  rw [h]
  have h2 := foldl_filter_append (fun v => !num_exist I v I.length) U []
  simp only [List.nil_append, List.length_nil, Nat.cast_zero] at h2
  rw [← h2]
  congr 1
  funext st v
  cases num_exist I v I.length <;> simp

theorem get_union_spec (A B : List Int) (hB : B.Sorted (· < ·)) :
    Inv (get_union A A.length B B.length) ∧
    (∀ x, x ∈ (get_union A A.length B B.length).1 ↔ x ∈ A ∨ x ∈ B) ∧
    (get_union A A.length B B.length).2 ≤ A.length + B.length := by
  rw [get_union_eq]
  obtain ⟨h1, h2, h3⟩ := foldl_insert_if_absent_spec A (B, (B.length : Int)) ⟨hB, rfl⟩
  refine ⟨h1, fun x => ?_, ?_⟩
  · rw [h2]; tauto
  · simp only at h3; omega

theorem filter_num_exist_eq (A : List Int) {B : List Int} (hB : B.Sorted (· < ·)) :
    A.filter (fun v => num_exist B v B.length) = A.filter (fun v => decide (v ∈ B)) := by
  apply List.filter_congr
  intro x _
  by_cases h : x ∈ B
  · simp [h, (num_exist_iff_mem hB x).mpr h]
  · have : num_exist B x B.length = false := by
      rw [← Bool.not_eq_true]; exact fun h2 => h ((num_exist_iff_mem hB x).mp h2)
    simp [h, this]

theorem filter_not_num_exist_eq (A : List Int) {B : List Int} (hB : B.Sorted (· < ·)) :
    A.filter (fun v => !num_exist B v B.length) = A.filter (fun v => decide (v ∉ B)) := by
  apply List.filter_congr
  intro x _
  by_cases h : x ∈ B
  · simp [h, (num_exist_iff_mem hB x).mpr h]
  · have : num_exist B x B.length = false := by
      rw [← Bool.not_eq_true]; exact fun h2 => h ((num_exist_iff_mem hB x).mp h2)
    simp [h, this]

theorem inv_filter (p : Int → Bool) {A : List Int} (hA : A.Sorted (· < ·)) :
    Inv (A.filter p, ((A.filter p).length : Int)) :=
  ⟨List.Pairwise.filter p hA, rfl⟩

/-! ## Decimal numerals -/

theorem digit_toNat (d : Nat) (h : d < 10) : (Char.ofNat (48 + d)).toNat = 48 + d := by
  interval_cases d <;> rfl

theorem decimal_loop_fuel : ∀ (f1 f2 n : Nat), n < f1 → n < f2 →
    decimal_loop f1 n = decimal_loop f2 n := by
  intro f1
  induction f1 with
  | zero => intro f2 n h; omega
  | succ f1 ih =>
    intro f2 n h1 h2
    obtain ⟨g, rfl⟩ : ∃ g, f2 = g + 1 := ⟨f2 - 1, by omega⟩
    unfold decimal_loop
    by_cases hn : n < 10
    · simp [hn]
    · simp only [hn, if_false]
      rw [ih g (n / 10) (by omega) (by omega)]

theorem decimal_eq (n : Nat) :
    decimal n = if n < 10 then [Char.ofNat (48 + n)]
      else decimal (n / 10) ++ [Char.ofNat (48 + n % 10)] := by
  unfold decimal
  conv_lhs => unfold decimal_loop
  by_cases hn : n < 10
  · simp [hn]
  · simp only [hn, if_false]
    rw [decimal_loop_fuel n (n / 10 + 1) (n / 10) (by omega) (by omega)]

theorem decimal_lt_ten (n : Nat) (h : n < 10) : decimal n = [Char.ofNat (48 + n)] := by
  rw [decimal_eq, if_pos h]

theorem decimal_ge_ten (n : Nat) (h : ¬ n < 10) :
    decimal n = decimal (n / 10) ++ [Char.ofNat (48 + n % 10)] := by
  rw [decimal_eq, if_neg h]

theorem isdigit_digit (d : Nat) (h : d < 10) : isdigit (Char.ofNat (48 + d)) = true := by
  unfold isdigit
  rw [digit_toNat d h]
  simp
  omega

theorem decimal_all_digits (n : Nat) : ∀ c ∈ decimal n, isdigit c = true := by
  induction n using Nat.strong_induction_on with
  | _ n ih =>
    by_cases hn : n < 10
    · rw [decimal_lt_ten n hn]
      intro c hc
      rw [List.mem_singleton.mp hc]
      exact isdigit_digit n hn
    · rw [decimal_ge_ten n hn]
      intro c hc
      rcases List.mem_append.mp hc with h | h
      · exact ih (n / 10) (by omega) c h
      · rw [List.mem_singleton.mp h]
        exact isdigit_digit _ (by omega)

theorem decimal_ne_nil (n : Nat) : decimal n ≠ [] := by
  rw [decimal_eq]
  split <;> simp

theorem decimal_value_append (l : List Char) (c : Char) :
    decimal_value (l ++ [c]) = 10 * decimal_value l + (c.toNat - 48) := by
  simp [decimal_value, List.foldl_append]

theorem decimal_value_decimal (n : Nat) : decimal_value (decimal n) = n := by
  induction n using Nat.strong_induction_on with
  | _ n ih =>
    by_cases hn : n < 10
    · rw [decimal_lt_ten n hn]
      simp only [decimal_value, List.foldl_cons, List.foldl_nil]
      rw [digit_toNat n hn]
      omega
    · rw [decimal_ge_ten n hn, decimal_value_append, ih (n / 10) (by omega),
        digit_toNat _ (by omega)]
      omega

theorem decimal_head (n : Nat) (h : 0 < n) :
    ∃ c rest, decimal n = c :: rest ∧ c ≠ '0' := by
  induction n using Nat.strong_induction_on with
  | _ n ih =>
    by_cases hn : n < 10
    · rw [decimal_lt_ten n hn]
      refine ⟨_, [], rfl, ?_⟩
      intro hc
      have := congrArg Char.toNat hc
      rw [digit_toNat n hn] at this
      have h0 : ('0' : Char).toNat = 48 := rfl
      omega
    · obtain ⟨c, rest, h1, h2⟩ := ih (n / 10) (by omega) (by omega)
      rw [decimal_ge_ten n hn, h1]
      exact ⟨c, rest ++ [Char.ofNat (48 + n % 10)], rfl, h2⟩

theorem get_num_length_loop_eq : ∀ (fuel n : Nat) (count : Int), 0 < n → n ≤ fuel →
    get_num_length_loop fuel (n : Int) count = count + ((decimal n).length : Int) := by
  intro fuel
  induction fuel with
  | zero => intro n count h1 h2; omega
  | succ fuel ih =>
    intro n count h1 h2
    unfold get_num_length_loop
    have hne : (n : Int) ≠ 0 := by omega
    rw [if_pos hne]
    have hdiv : Int.tdiv (n : Int) 10 = ((n / 10 : Nat) : Int) := rfl
    rw [hdiv]
    by_cases hn : n < 10
    · have h0 : n / 10 = 0 := by omega
      rw [h0, decimal_lt_ten n hn]
      cases fuel <;> simp [get_num_length_loop]
    · rw [ih (n / 10) (count + 1) (by omega) (by omega), decimal_ge_ten n hn]
      simp only [List.length_append, List.length_singleton, Nat.cast_add, Nat.cast_one]
      omega

theorem get_num_length_eq (v : Int) (hv : 0 ≤ v) :
    get_num_length v = ((sprintf_d v).length : Int) := by
  obtain ⟨n, rfl⟩ : ∃ n : Nat, v = n := ⟨v.toNat, by omega⟩
  unfold get_num_length sprintf_d
  have hneg : ¬ ((n : Int) < 0) := by omega
  rw [if_neg hneg, Int.natAbs_ofNat]
  by_cases h0 : (n : Int) = 0
  · rw [if_pos h0]
    have : n = 0 := by omega
    subst this
    rfl
  · rw [if_neg h0, get_num_length_loop_eq n n 0 (by omega) (le_refl _)]
    simp

theorem sprintf_d_nonneg (v : Int) (hv : 0 ≤ v) : sprintf_d v = decimal v.toNat := by
  unfold sprintf_d
  have hneg : ¬ (v < 0) := by omega
  rw [if_neg hneg]
  congr 1
  omega

/-! ## Joining with commas -/

theorem intercalate_cons_cons (x y : List Char) (l : List (List Char)) :
    [','].intercalate (x :: y :: l) = x ++ ',' :: [','].intercalate (y :: l) := by
  simp [List.intercalate, List.intersperse]

theorem intercalate_single (x : List Char) : [','].intercalate [x] = x := by
  simp [List.intercalate, List.intersperse]

theorem mem_intercalate {c : Char} : ∀ {items : List (List Char)},
    c ∈ [','].intercalate items → c = ',' ∨ ∃ item ∈ items, c ∈ item
  | [], h => by simp [List.intercalate] at h
  | [x], h => by
    rw [intercalate_single] at h
    exact Or.inr ⟨x, List.mem_singleton.mpr rfl, h⟩
  | x :: y :: l, h => by
    rw [intercalate_cons_cons] at h
    rcases List.mem_append.mp h with h | h
    · exact Or.inr ⟨x, List.mem_cons_self _ _, h⟩
    · rcases List.mem_cons.mp h with h | h
      · exact Or.inl h
      · rcases mem_intercalate h with h | ⟨item, hi, hc⟩
        · exact Or.inl h
        · exact Or.inr ⟨item, List.mem_cons_of_mem _ hi, hc⟩

theorem flatten_map_comma : ∀ (items : List (List Char)), items ≠ [] →
    (items.map (fun t => t ++ [','])).flatten = [','].intercalate items ++ [',']
  | [], h => absurd rfl h
  | [x], _ => by simp [intercalate_single]
  | x :: y :: l, _ => by
    rw [intercalate_cons_cons, List.map_cons, List.flatten_cons,
      flatten_map_comma (y :: l) (List.cons_ne_nil _ _)]
    simp

/-! ## The formatter -/

theorem cwr_append_cons (l1 l2 : List Char) (x c : Char) (i : Int) (hi : i = l1.length) :
    cwr (l1 ++ x :: l2) i c = l1 ++ c :: l2 := by
  subst hi
  unfold cwr
  simp

theorem cstr_append_nul (X rest : List Char) (h : ∀ c ∈ X, c ≠ NUL) :
    cstr (X ++ NUL :: rest) = X := by
  unfold cstr
  rw [List.takeWhile_append_of_pos (by simpa using h)]
  simp

theorem foldl_len_eq (g : Int → Int) (A : List Int) : ∀ a : Int,
    A.foldl (fun len v => len + g v) a = a + (A.map g).sum := by
  induction A with
  | nil => intro a; simp
  | cons x A ih => intro a; rw [List.foldl_cons, ih]; simp; omega

theorem foldl_str_eq (g : Int → List Char) (A : List Int) : ∀ s : List Char,
    A.foldl (fun str v => str ++ g v ++ [',']) s = s ++ (A.map (fun v => g v ++ [','])).flatten := by
  induction A with
  | nil => intro s; simp
  | cons x A ih => intro s; rw [List.foldl_cons, ih]; simp

theorem sum_length_eq (A : List Int) (hA : ∀ v ∈ A, 0 ≤ v) :
    (A.map get_num_length).sum + (A.length : Int) =
      (((A.map (fun v => sprintf_d v ++ [','])).flatten.length : Nat) : Int) := by
  induction A with
  | nil => simp
  | cons x A ih =>
    have hx := get_num_length_eq x (hA x (List.mem_cons_self _ _))
    have := ih (fun v hv => hA v (List.mem_cons_of_mem _ hv))
    simp only [List.map_cons, List.sum_cons, List.length_cons, List.flatten_cons,
      List.length_append, List.length_singleton, Nat.cast_add, Nat.cast_one, List.length_nil,
      Nat.cast_zero] at this ⊢
    omega

theorem sprintf_d_ne_nul (v : Int) (hv : 0 ≤ v) : ∀ c ∈ sprintf_d v, c ≠ NUL := by
  intro c hc hn
  rw [sprintf_d_nonneg v hv] at hc
  have := decimal_all_digits _ c hc
  rw [hn] at this
  exact absurd this (by decide)

/-- At size 0 the `sprintf` call is not reached: the text is `{}` on every C library. -/
theorem to_string_nil (sprintf : List Char → Int → List Char) :
    to_string sprintf [] 0 = ['{', '}'] := by
  unfold to_string
  simp only [Int.toNat_zero, List.range_zero, List.foldl_nil, if_true]
  decide

/-- Where `sprintf` appends, `to_string` of non-negative elements is the joined text. -/
theorem to_string_eq (sprintf : List Char → Int → List Char)
    (happ : ∀ str v, sprintf str v = sprintf_append str v)
    (A : List Int) (hA : ∀ v ∈ A, 0 ≤ v) :
    to_string sprintf A A.length = '{' :: [','].intercalate (A.map sprintf_d) ++ ['}'] := by
  have hspr : sprintf = fun str v => str ++ sprintf_d v ++ [','] :=
    funext fun str => funext fun v => happ str v
  subst hspr
  unfold to_string
  simp only [Int.toNat_natCast]
  rw [foldl_range_rd (fun len v => len + get_num_length v) A,
    foldl_range_rd (fun str v => str ++ sprintf_d v ++ [',']) A,
    foldl_len_eq, foldl_str_eq]
  by_cases hnil : A = []
  · subst hnil
    decide
  · have hlen : (A.length : Int) ≠ 0 := by
      intro h
      exact hnil (List.length_eq_zero.mp (by omega))
    rw [if_neg hlen]
    have hsum := sum_length_eq A hA
    have hmap : A.map (fun v => sprintf_d v ++ [',']) =
        (A.map sprintf_d).map (fun t => t ++ [',']) := by
      rw [List.map_map]; rfl
    rw [hmap] at hsum ⊢
    have hne : A.map sprintf_d ≠ [] := by simpa using hnil
    rw [flatten_map_comma _ hne] at hsum ⊢
    simp only [List.length_append, List.length_singleton, Nat.cast_add, Nat.cast_one] at hsum
    have e1 : ['{'] ++ ([','].intercalate (A.map sprintf_d) ++ [',']) ++ [NUL] =
        ('{' :: [','].intercalate (A.map sprintf_d)) ++ ',' :: [NUL] := by simp
    rw [e1, cwr_append_cons _ _ _ _ _ (by simp only [List.length_cons, Nat.cast_add, Nat.cast_one]; omega)]
    have e2 : ('{' :: [','].intercalate (A.map sprintf_d)) ++ '}' :: [NUL] =
        ('{' :: [','].intercalate (A.map sprintf_d) ++ ['}']) ++ NUL :: [] := by simp
    rw [e2, cwr_append_cons _ _ _ _ _ (by
      simp only [List.length_cons, List.length_append, List.length_singleton, List.cons_append,
        List.length_nil, Nat.cast_add, Nat.cast_one, Nat.cast_zero]; omega)]
    apply cstr_append_nul
    intro c hc
    simp only [List.cons_append, List.mem_cons, List.mem_append, List.mem_singleton,
      List.not_mem_nil, or_false] at hc
    rcases hc with rfl | hc | rfl
    · decide
    · rcases mem_intercalate hc with rfl | ⟨item, hi, hc⟩
      · decide
      · obtain ⟨v, hv, rfl⟩ := List.mem_map.mp hi
        exact sprintf_d_ne_nul v (hA v hv) c hc
    · decide

/-! ## Scanning a C string -/

theorem lead_decomp (p : Char → Bool) (s : List Char) :
    (∀ c ∈ s, p c = true) ∨
      ∃ w c rest, s = w ++ c :: rest ∧ (∀ x ∈ w, p x = true) ∧ p c = false := by
  induction s with
  | nil => left; simp
  | cons a s ih =>
    by_cases ha : p a = true
    · rcases ih with h | ⟨w, c, rest, h1, h2, h3⟩
      · left
        intro c hc
        rcases List.mem_cons.mp hc with rfl | hc
        · exact ha
        · exact h c hc
      · right
        refine ⟨a :: w, c, rest, by rw [h1]; rfl, ?_, h3⟩
        intro x hx
        rcases List.mem_cons.mp hx with rfl | hx
        · exact ha
        · exact h2 x hx
    · right
      exact ⟨[], a, s, rfl, by simp, by simpa using ha⟩

theorem trail_decomp (p : Char → Bool) (s : List Char) :
    (∀ c ∈ s, p c = true) ∨
      ∃ pre d w, s = pre ++ d :: w ∧ (∀ x ∈ w, p x = true) ∧ p d = false := by
  rcases lead_decomp p s.reverse with h | ⟨w, c, rest, h1, h2, h3⟩
  · left
    intro c hc
    exact h c (List.mem_reverse.mpr hc)
  · right
    refine ⟨rest.reverse, c, w.reverse, ?_, ?_, h3⟩
    · have := congrArg List.reverse h1
      simpa using this
    · intro x hx
      exact h2 x (List.mem_reverse.mp hx)

theorem skip_leading_all (w : List Char) (hw : ∀ x ∈ w, isspace x = true) :
    skip_leading w = (w.length : Int) := by
  unfold skip_leading
  rw [List.takeWhile_eq_self_iff.mpr hw]

theorem skip_leading_eq (w : List Char) (c : Char) (rest : List Char)
    (hw : ∀ x ∈ w, isspace x = true) (hc : isspace c = false) :
    skip_leading (w ++ c :: rest) = (w.length : Int) := by
  unfold skip_leading
  rw [List.takeWhile_append_of_pos hw, List.takeWhile_cons_of_neg (by simp [hc])]
  simp

theorem skip_trailing_all (w : List Char) (hw : ∀ x ∈ w, isspace x = true) :
    skip_trailing w = -1 := by
  unfold skip_trailing
  have : ∀ x ∈ w.reverse, isspace x = true := fun x hx => hw x (List.mem_reverse.mp hx)
  rw [List.takeWhile_eq_self_iff.mpr this]
  simp

theorem skip_trailing_eq (pre : List Char) (d : Char) (w : List Char)
    (hw : ∀ x ∈ w, isspace x = true) (hd : isspace d = false) :
    skip_trailing (pre ++ d :: w) = (pre.length : Int) := by
  unfold skip_trailing
  have hr : (pre ++ d :: w).reverse = w.reverse ++ d :: pre.reverse := by simp
  have : ∀ x ∈ w.reverse, isspace x = true := fun x hx => hw x (List.mem_reverse.mp hx)
  rw [hr, List.takeWhile_append_of_pos this, List.takeWhile_cons_of_neg (by simp [hd])]
  simp only [List.length_append, List.length_cons, List.append_nil, List.length_reverse,
    Nat.cast_add, Nat.cast_one]
  omega

theorem cget_append_cons (pre : List Char) (d : Char) (x : List Char) (i : Int)
    (hi : i = pre.length) : cget (pre ++ d :: x) i = d := by
  subst hi
  unfold cget
  rw [if_pos (by omega), Int.toNat_natCast, List.getD_eq_getElem?_getD,
    List.getElem?_append_right (le_refl _)]
  simp

theorem cget_length (s : List Char) (i : Int) (hi : i = s.length) : cget s i = NUL := by
  subst hi
  unfold cget
  simp

theorem cget_neg (s : List Char) (i : Int) (hi : i < 0) : cget s i = NUL := by
  unfold cget
  rw [if_neg (by omega)]

theorem substr_mid (pre mid post : List Char) (i n : Int) (hi : i = pre.length)
    (hn : n = mid.length) : substr (pre ++ mid ++ post) i n = mid := by
  subst hi hn
  unfold substr
  simp

theorem isspace_space : isspace ' ' = true := by decide
theorem isspace_lbrace : isspace '{' = false := by decide
theorem isspace_rbrace : isspace '}' = false := by decide

theorem isdigit_not_isspace {c : Char} (h : isdigit c = true) : isspace c = false := by
  unfold isdigit at h
  unfold isspace
  simp at h ⊢
  omega

theorem isdigit_ne_space {c : Char} (h : isdigit c = true) : c ≠ ' ' := by
  rintro rfl
  exact absurd h (by decide)

theorem isdigit_ne_comma {c : Char} (h : isdigit c = true) : c ≠ ',' := by
  rintro rfl
  exact absurd h (by decide)

theorem isdigit_ne_nul {c : Char} (h : isdigit c = true) : c ≠ NUL := by
  rintro rfl
  exact absurd h (by decide)

/-- The frame of a literal: leading white space, `{`, a body, `}`, trailing white space. -/
theorem frame_scan (w1 body w2 : List Char) (h1 : ∀ x ∈ w1, isspace x = true)
    (h2 : ∀ x ∈ w2, isspace x = true) :
    skip_leading (w1 ++ '{' :: body ++ '}' :: w2) = (w1.length : Int) ∧
    skip_trailing (w1 ++ '{' :: body ++ '}' :: w2) = (w1.length : Int) + 1 + body.length ∧
    cget (w1 ++ '{' :: body ++ '}' :: w2) (w1.length : Int) = '{' ∧
    cget (w1 ++ '{' :: body ++ '}' :: w2) ((w1.length : Int) + 1 + body.length) = '}' ∧
    substr (w1 ++ '{' :: body ++ '}' :: w2) ((w1.length : Int) + 1)
      (((w1.length : Int) + 1 + body.length - 1) - ((w1.length : Int) + 1) + 1) = body := by
  have e1 : w1 ++ '{' :: body ++ '}' :: w2 = w1 ++ '{' :: (body ++ '}' :: w2) := by simp
  have e2 : w1 ++ '{' :: body ++ '}' :: w2 = (w1 ++ '{' :: body) ++ '}' :: w2 := by simp
  have e3 : w1 ++ '{' :: body ++ '}' :: w2 = (w1 ++ ['{']) ++ body ++ ('}' :: w2) := by simp
  refine ⟨?_, ?_, ?_, ?_, ?_⟩
  · rw [e1]; exact skip_leading_eq w1 '{' _ h1 isspace_lbrace
  · rw [e2, skip_trailing_eq _ '}' w2 h2 isspace_rbrace]
    simp only [List.length_append, List.length_cons, Nat.cast_add, Nat.cast_one]
    omega
  · rw [e1]; exact cget_append_cons _ _ _ _ rfl
  · rw [e2]; exact cget_append_cons _ _ _ _ (by
      simp only [List.length_append, List.length_cons, Nat.cast_add, Nat.cast_one]; omega)
  · rw [e3]; exact substr_mid _ _ _ _ _ (by simp) (by omega)

/-- A string whose first non-space character is `{` and whose last one is `}` has
the frame shape. -/
theorem frame_of_scan (str : List Char) (hi : cget str (skip_leading str) = '{')
    (hj : cget str (skip_trailing str) = '}') :
    ∃ w1 body w2, str = w1 ++ '{' :: body ++ '}' :: w2 ∧
      (∀ x ∈ w1, isspace x = true) ∧ (∀ x ∈ w2, isspace x = true) := by
  rcases lead_decomp isspace str with hall | ⟨w1, c, rest, rfl, hw1, hc⟩
  · rw [skip_leading_all str hall, cget_length str _ rfl] at hi
    exact absurd hi (by decide)
  · rw [skip_leading_eq w1 c rest hw1 hc, cget_append_cons _ _ _ _ rfl] at hi
    subst hi
    rcases trail_decomp isspace rest with hall | ⟨pre, d, w2, rfl, hw2, hd⟩
    · have e : w1 ++ '{' :: rest = w1 ++ '{' :: rest := rfl
      rw [skip_trailing_eq w1 '{' rest hall isspace_lbrace,
        cget_append_cons _ _ _ _ rfl] at hj
      exact absurd hj (by decide)
    · have e : w1 ++ '{' :: (pre ++ d :: w2) = (w1 ++ '{' :: pre) ++ d :: w2 := by simp
      rw [e, skip_trailing_eq _ d w2 hw2 hd, cget_append_cons _ _ _ _ rfl] at hj
      subst hj
      exact ⟨w1, pre, w2, by simp, hw1, hw2⟩

/-! ## Comma-separated pieces -/

theorem intercalate_nil_cons (y : List Char) (l : List (List Char)) :
    [','].intercalate ([] :: y :: l) = ',' :: [','].intercalate (y :: l) := by
  rw [intercalate_cons_cons]; rfl

theorem intercalate_append : ∀ (R1 R2 : List (List Char)), R1 ≠ [] → R2 ≠ [] →
    [','].intercalate (R1 ++ R2) = [','].intercalate R1 ++ ',' :: [','].intercalate R2
  | [], _, h, _ => absurd rfl h
  | [x], [], _, h => absurd rfl h
  | [x], y :: l, _, _ => by
    rw [intercalate_single]
    exact intercalate_cons_cons x y l
  | x :: x2 :: R1, R2, _, h2 => by
    have ih := intercalate_append (x2 :: R1) R2 (List.cons_ne_nil _ _) h2
    rw [intercalate_cons_cons]
    have : x :: x2 :: R1 ++ R2 = x :: x2 :: (R1 ++ R2) := rfl
    rw [this, intercalate_cons_cons]
    have e : x2 :: (R1 ++ R2) = (x2 :: R1) ++ R2 := rfl
    rw [e, ih]
    simp

theorem pieces_exist (s : List Char) :
    ∃ Q : List (List Char), Q ≠ [] ∧ (∀ q ∈ Q, ',' ∉ q) ∧ s = [','].intercalate Q := by
  induction s with
  | nil => exact ⟨[[]], by simp, by simp, by simp [List.intercalate]⟩
  | cons c s ih =>
    obtain ⟨Q, hne, hq, rfl⟩ := ih
    obtain ⟨q, Q, rfl⟩ : ∃ q Q', Q = q :: Q' := List.exists_cons_of_ne_nil hne
    by_cases hc : c = ','
    · subst hc
      refine ⟨[] :: q :: Q, by simp, ?_, (intercalate_nil_cons q Q).symm⟩
      intro x hx
      rcases List.mem_cons.mp hx with rfl | hx
      · simp
      · exact hq x hx
    · refine ⟨(c :: q) :: Q, by simp, ?_, ?_⟩
      · intro x hx
        rcases List.mem_cons.mp hx with rfl | hx
        · intro h
          rcases List.mem_cons.mp h with h | h
          · exact hc h.symm
          · exact hq q (List.mem_cons_self _ _) h
        · exact hq x (List.mem_cons_of_mem _ hx)
      · cases Q with
        | nil => simp [intercalate_single]
        | cons q2 Q => rw [intercalate_cons_cons, intercalate_cons_cons]; rfl

theorem strtok_intercalate (Q : List (List Char)) (hne : Q ≠ []) (hq : ∀ q ∈ Q, ',' ∉ q) :
    strtok ([','].intercalate Q) = Q.filter (· ≠ []) := by
  unfold strtok
  rw [List.splitOn_intercalate Q ',' hq hne]

theorem filter_intercalate (p : Char → Bool) (hp : p ',' = true) :
    ∀ Q : List (List Char),
      ([','].intercalate Q).filter p = [','].intercalate (Q.map (List.filter p))
  | [] => by simp [List.intercalate]
  | [x] => by simp [intercalate_single]
  | x :: y :: l => by
    rw [intercalate_cons_cons, List.map_cons, List.map_cons, intercalate_cons_cons,
      List.filter_append, List.filter_cons_of_pos hp, filter_intercalate p hp (y :: l)]
    rfl

/-! ## The double-comma test -/

theorem hdc_cons_ne (c : Char) (s : List Char) (hc : c ≠ ',') :
    has_double_comma (c :: s) = has_double_comma s := by
  cases s with
  | nil => rfl
  | cons d s => simp [has_double_comma, hc]

theorem hdc_append_clean (x s : List Char) (hx : ',' ∉ x) :
    has_double_comma (x ++ s) = has_double_comma s := by
  induction x with
  | nil => rfl
  | cons c x ih =>
    have hc : c ≠ ',' := fun h => hx (h ▸ List.mem_cons_self _ _)
    rw [List.cons_append, hdc_cons_ne _ _ hc]
    exact ih (fun h => hx (List.mem_cons_of_mem _ h))

theorem hdc_comma_comma (s : List Char) : has_double_comma (',' :: ',' :: s) = true := by
  simp [has_double_comma]

theorem hdc_append_right (x y : List Char) (h : has_double_comma y = true) :
    has_double_comma (x ++ y) = true := by
  induction x with
  | nil => exact h
  | cons c x ih =>
    cases hxy : x ++ y with
    | nil => rw [hxy] at ih; exact absurd ih (by simp [has_double_comma])
    | cons d t =>
      rw [List.cons_append, hxy]
      rw [hxy] at ih
      simp [has_double_comma, ih]

theorem hdc_intercalate_digits : ∀ (dss : List (List Char)), dss ≠ [] →
    (∀ ds ∈ dss, ds ≠ [] ∧ ',' ∉ ds) →
    has_double_comma ([','].intercalate dss ++ ['}']) = false
  | [], h, _ => absurd rfl h
  | [x], _, hd => by
    rw [intercalate_single, hdc_append_clean x _ (hd x (List.mem_singleton.mpr rfl)).2]
    rfl
  | x :: y :: l, _, hd => by
    have ih := hdc_intercalate_digits (y :: l) (List.cons_ne_nil _ _)
      (fun ds h => hd ds (List.mem_cons_of_mem _ h))
    have hx := (hd x (List.mem_cons_self _ _)).2
    have hy := hd y (List.mem_cons_of_mem _ (List.mem_cons_self _ _))
    rw [intercalate_cons_cons, List.append_assoc, hdc_append_clean x _ hx]
    obtain ⟨d, y2, rfl⟩ := List.exists_cons_of_ne_nil hy.1
    have hdne : d ≠ ',' := fun h => hy.2 (h ▸ List.mem_cons_self _ _)
    cases l with
    | nil =>
      rw [intercalate_single] at ih ⊢
      rw [List.cons_append, List.cons_append] at *
      simp only [has_double_comma, hdne, decide_False, Bool.and_false, Bool.false_or]
      exact ih
    | cons z l =>
      rw [intercalate_cons_cons] at ih ⊢
      rw [List.cons_append, List.cons_append] at *
      simp only [has_double_comma, hdne, decide_False, Bool.and_false, Bool.false_or]
      exact ih

/-! ## Tokens of the grammar -/

theorem eq_spaces (w : List Char) (h : ∀ x ∈ w, x = ' ') : w = spaces w.length := by
  unfold spaces
  exact List.eq_replicate_iff.mpr ⟨rfl, h⟩

theorem mem_spaces {n : Nat} {x : Char} (h : x ∈ spaces n) : x = ' ' :=
  (List.mem_replicate.mp h).2

theorem isspace_of_mem_spaces {n : Nat} : ∀ x ∈ spaces n, isspace x = true := by
  intro x hx
  rw [mem_spaces hx]
  exact isspace_space

theorem filter_spaces (n : Nat) : (spaces n).filter (· ≠ ' ') = [] := by
  rw [List.filter_eq_nil_iff]
  intro x hx
  simp [mem_spaces hx]

theorem filter_digits (ds : List Char) (h : ∀ c ∈ ds, isdigit c = true) :
    ds.filter (· ≠ ' ') = ds := by
  rw [List.filter_eq_self]
  intro c hc
  simpa using isdigit_ne_space (h c hc)

theorem comma_not_mem_digits (ds : List Char) (h : ∀ c ∈ ds, isdigit c = true) :
    ',' ∉ ds := fun hc => isdigit_ne_comma (h _ hc) rfl

theorem element_scan (a b : Nat) (m : List Char) (d : Char) (hd : isspace d = false)
    (hm : ∀ c ∈ m, isspace c = false) :
    skip_leading (spaces a ++ (m ++ [d]) ++ spaces b) = (a : Int) ∧
    skip_trailing (spaces a ++ (m ++ [d]) ++ spaces b) = (a : Int) + m.length ∧
    substr (spaces a ++ (m ++ [d]) ++ spaces b) a (((a : Int) + m.length) - a) = m := by
  have hla : (spaces a).length = a := by simp [spaces]
  refine ⟨?_, ?_, ?_⟩
  · cases m with
    | nil =>
      have e : spaces a ++ ([] ++ [d]) ++ spaces b = spaces a ++ d :: spaces b := by simp
      rw [e, skip_leading_eq _ d _ isspace_of_mem_spaces hd, hla]
    | cons c m =>
      have e : spaces a ++ (c :: m ++ [d]) ++ spaces b =
          spaces a ++ c :: (m ++ [d] ++ spaces b) := by simp
      rw [e, skip_leading_eq _ c _ isspace_of_mem_spaces (hm c (List.mem_cons_self _ _)), hla]
  · have e : spaces a ++ (m ++ [d]) ++ spaces b = (spaces a ++ m) ++ d :: spaces b := by simp
    rw [e, skip_trailing_eq _ d _ isspace_of_mem_spaces hd]
    simp [hla]
  · have e : spaces a ++ (m ++ [d]) ++ spaces b = spaces a ++ m ++ ([d] ++ spaces b) := by simp
    rw [e]
    exact substr_mid _ _ _ _ _ (by rw [hla]) (by omega)

theorem digits_snoc (ds : List Char) (hne : ds ≠ []) (hd : ∀ c ∈ ds, isdigit c = true) :
    ∃ m d, ds = m ++ [d] ∧ isdigit d = true ∧ ∀ c ∈ m, isdigit c = true := by
  obtain ⟨m, d, rfl⟩ : ∃ m d, ds = m ++ [d] :=
    ⟨ds.dropLast, ds.getLast hne, (List.dropLast_append_getLast hne).symm⟩
  exact ⟨m, d, rfl, hd d (by simp), fun c hc => hd c (by simp [hc])⟩

theorem check_tokens_elements : ∀ (es : List (List Char)), (∀ e ∈ es, IsElement e) →
    check_tokens false es = true
  | [], _ => rfl
  | e :: es, h => by
    obtain ⟨a, b, ds, hne, hd, rfl⟩ := h e (List.mem_cons_self _ _)
    obtain ⟨m, d, rfl, hdd, hm⟩ := digits_snoc ds hne hd
    obtain ⟨h1, h2, h3⟩ := element_scan a b m d (isdigit_not_isspace hdd)
      (fun c hc => isdigit_not_isspace (hm c hc))
    unfold check_tokens
    simp only [h1, h2, h3]
    have hall : m.all isdigit = true := List.all_eq_true.mpr hm
    have hj : ((a : Int) + (m.length : Int) == -1) = false := by
      rw [beq_eq_false_iff_ne]; omega
    simp only [hall, hj, Bool.false_eq_true, if_false, if_true, Bool.or_false]
    exact check_tokens_elements es (fun e he => h e (List.mem_cons_of_mem _ he))

theorem element_ne_nil {e : List Char} (h : IsElement e) : e ≠ [] := by
  obtain ⟨a, b, ds, hne, _, rfl⟩ := h
  simp [hne]

theorem element_no_comma {e : List Char} (h : IsElement e) : ',' ∉ e := by
  obtain ⟨a, b, ds, _, hd, rfl⟩ := h
  intro hc
  simp only [List.mem_append] at hc
  rcases hc with (hc | hc) | hc
  · exact absurd (mem_spaces hc) (by decide)
  · exact comma_not_mem_digits ds hd hc
  · exact absurd (mem_spaces hc) (by decide)

theorem element_filter {e : List Char} (h : IsElement e) :
    e.filter (· ≠ ' ') ≠ [] ∧ ∀ c ∈ e.filter (· ≠ ' '), isdigit c = true := by
  obtain ⟨a, b, ds, hne, hd, rfl⟩ := h
  rw [List.filter_append, List.filter_append, filter_spaces, filter_spaces, filter_digits ds hd]
  simp only [List.nil_append, List.append_nil]
  exact ⟨hne, hd⟩

theorem strtok_elements (es : List (List Char)) (hne : es ≠ []) (h : ∀ e ∈ es, IsElement e) :
    strtok ([','].intercalate es) = es := by
  rw [strtok_intercalate es hne (fun e he => element_no_comma (h e he)), List.filter_eq_self]
  intro e he
  simpa using element_ne_nil (h e he)

theorem strtok_spaces (n : Nat) : strtok (spaces n) = if n = 0 then [] else [spaces n] := by
  unfold strtok
  have h : (spaces n).splitOn ',' = [spaces n] := by
    have := List.splitOn_intercalate [spaces n] ','
      (by intro l hl; rw [List.mem_singleton.mp hl]; intro hc; exact absurd (mem_spaces hc) (by decide))
      (by simp)
    rwa [intercalate_single] at this
  rw [h]
  by_cases hn : n = 0
  · subst hn; rfl
  · rw [if_neg hn]
    have : spaces n ≠ [] := by
      intro h0
      have := congrArg List.length h0
      simp [spaces] at this
      exact hn this
    simp [this]

theorem check_tokens_spaces (n : Nat) : check_tokens false (strtok (spaces n)) = true := by
  rw [strtok_spaces]
  by_cases hn : n = 0
  · rw [if_pos hn]; rfl
  · rw [if_neg hn]
    unfold check_tokens
    rw [skip_leading_all _ isspace_of_mem_spaces, skip_trailing_all _ isspace_of_mem_spaces]
    have : substr (spaces n) ((spaces n).length : Int) (-1 - ((spaces n).length : Int)) = [] := by
      unfold substr
      have : (-1 - ((spaces n).length : Int)).toNat = 0 := by omega
      rw [this]; rfl
    simp only [this]
    rfl

/-! ## Validation of a framed literal -/

theorem run_frame (w1 body w2 : List Char) (h1 : ∀ x ∈ w1, isspace x = true)
    (h2 : ∀ x ∈ w2, isspace x = true) :
    is_valid_input_run (w1 ++ '{' :: body ++ '}' :: w2) =
      if (!check_tokens false (strtok body)) = true then (false, w1 ++ '{' :: body ++ '}' :: w2)
      else (check_stripped ((w1 ++ '{' :: body ++ '}' :: w2).filter (· ≠ ' ')),
        (w1 ++ '{' :: body ++ '}' :: w2).filter (· ≠ ' ')) := by
  obtain ⟨e1, e2, e3, e4, e5⟩ := frame_scan w1 body w2 h1 h2
  unfold is_valid_input_run
  simp only [e1, e2, e3, e4, e5, ne_eq, not_true_eq_false, or_self, if_false]

theorem filter_frame (w1 body w2 : List Char) :
    (w1 ++ '{' :: body ++ '}' :: w2).filter (· ≠ ' ') =
      w1.filter (· ≠ ' ') ++ '{' :: body.filter (· ≠ ' ') ++ '}' :: w2.filter (· ≠ ' ') := by
  simp [List.filter_append, List.filter_cons]

theorem intercalate_head_digit : ∀ (dss : List (List Char)), dss ≠ [] →
    (∀ ds ∈ dss, ds ≠ [] ∧ ∀ c ∈ ds, isdigit c = true) →
    ∃ d X, isdigit d = true ∧ [','].intercalate dss = d :: X
  | [], h, _ => absurd rfl h
  | [x], _, hd => by
    obtain ⟨h1, h2⟩ := hd x (List.mem_singleton.mpr rfl)
    obtain ⟨d, X, rfl⟩ := List.exists_cons_of_ne_nil h1
    exact ⟨d, X, h2 d (List.mem_cons_self _ _), intercalate_single _⟩
  | x :: y :: l, _, hd => by
    obtain ⟨h1, h2⟩ := hd x (List.mem_cons_self _ _)
    obtain ⟨d, X, rfl⟩ := List.exists_cons_of_ne_nil h1
    exact ⟨d, _, h2 d (List.mem_cons_self _ _), by rw [intercalate_cons_cons]; rfl⟩

theorem intercalate_last_digit : ∀ (dss : List (List Char)), dss ≠ [] →
    (∀ ds ∈ dss, ds ≠ [] ∧ ∀ c ∈ ds, isdigit c = true) →
    ∃ X d, isdigit d = true ∧ [','].intercalate dss = X ++ [d]
  | [], h, _ => absurd rfl h
  | [x], _, hd => by
    obtain ⟨h1, h2⟩ := hd x (List.mem_singleton.mpr rfl)
    obtain ⟨m, d, rfl, hdd, _⟩ := digits_snoc x h1 h2
    exact ⟨m, d, hdd, intercalate_single _⟩
  | x :: y :: l, _, hd => by
    obtain ⟨X, d, hdd, hX⟩ := intercalate_last_digit (y :: l) (List.cons_ne_nil _ _)
      (fun ds h => hd ds (List.mem_cons_of_mem _ h))
    exact ⟨x ++ ',' :: X, d, hdd, by rw [intercalate_cons_cons, hX]; simp⟩

theorem strtok_digits (dss : List (List Char))  (hne : dss ≠ [])
    (hd : ∀ ds ∈ dss, ds ≠ [] ∧ ∀ c ∈ ds, isdigit c = true) :
    strtok ([','].intercalate dss) = dss := by
  rw [strtok_intercalate dss hne (fun ds h => comma_not_mem_digits ds (hd ds h).2),
    List.filter_eq_self]
  intro ds h
  simpa using (hd ds h).1

theorem cget_zero_cons (d : Char) (X : List Char) : cget (d :: X) 0 = d := rfl

theorem check_stripped_digits (dss : List (List Char)) (hne : dss ≠ [])
    (hd : ∀ ds ∈ dss, ds ≠ [] ∧ ∀ c ∈ ds, isdigit c = true) :
    check_stripped ('{' :: [','].intercalate dss ++ ['}']) = true := by
  have hclean : ∀ ds ∈ dss, ds ≠ [] ∧ ',' ∉ ds :=
    fun ds h => ⟨(hd ds h).1, comma_not_mem_digits ds (hd ds h).2⟩
  obtain ⟨d0, X0, hd0, hX0⟩ := intercalate_head_digit dss hne hd
  obtain ⟨X1, d1, hd1, hX1⟩ := intercalate_last_digit dss hne hd
  unfold check_stripped
  have hdc : has_double_comma ('{' :: [','].intercalate dss ++ ['}']) = false := by
    rw [List.cons_append, hdc_cons_ne _ _ (by decide)]
    exact hdc_intercalate_digits dss hne hclean
  have hne2 : ('{' :: [','].intercalate dss ++ ['}']) ≠ ['{', '}'] := by
    rw [hX0]
    intro h
    have := congrArg List.length h
    simp at this
  have hsub : substr ('{' :: [','].intercalate dss ++ ['}']) 1
      ((('{' :: [','].intercalate dss ++ ['}']).length : Int) - 2) = [','].intercalate dss := by
    have e : '{' :: [','].intercalate dss ++ ['}'] = ['{'] ++ [','].intercalate dss ++ ['}'] := rfl
    rw [e]
    exact substr_mid _ _ _ _ _ (by simp) (by simp; omega)
  simp only [hdc, hne2, hsub, Bool.false_eq_true, if_false]
  have hc0 : cget ([','].intercalate dss) 0 = d0 := by rw [hX0]; rfl
  have hc1 : cget ([','].intercalate dss)
      ((('{' :: [','].intercalate dss ++ ['}']).length : Int) - 3) = d1 := by
    rw [hX1]
    exact cget_append_cons X1 d1 [] _ (by simp; omega)
  rw [hc0, hc1, hd0, hd1, strtok_digits dss hne hd]
  simp only [Bool.not_true, Bool.or_self, Bool.false_eq_true, if_false]
  rw [List.all_eq_true]
  intro ds h
  exact List.all_eq_true.mpr (hd ds h).2

theorem run_empty_literal (a n b : Nat) :
    is_valid_input_run (spaces a ++ '{' :: spaces n ++ '}' :: spaces b) = (true, ['{', '}']) := by
  rw [run_frame _ _ _ isspace_of_mem_spaces isspace_of_mem_spaces, check_tokens_spaces,
    filter_frame, filter_spaces, filter_spaces, filter_spaces]
  rfl

theorem run_element_literal (a b : Nat) (es : List (List Char)) (hne : es ≠ [])
    (he : ∀ e ∈ es, IsElement e) :
    is_valid_input_run (spaces a ++ '{' :: [','].intercalate es ++ '}' :: spaces b) =
      (true, '{' :: [','].intercalate (es.map (List.filter (· ≠ ' '))) ++ ['}']) := by
  rw [run_frame _ _ _ isspace_of_mem_spaces isspace_of_mem_spaces, strtok_elements es hne he,
    check_tokens_elements es he, filter_frame, filter_spaces, filter_spaces,
    filter_intercalate _ (by decide)]
  simp only [Bool.not_true, Bool.false_eq_true, if_false, List.nil_append]
  rw [check_stripped_digits _ (by simpa using hne)]
  intro ds h
  obtain ⟨e, hmem, rfl⟩ := List.mem_map.mp h
  exact element_filter (he e hmem)

/-! ## From a passed validation to the grammar -/

theorem cget_eq_getD (s : List Char) (k : Nat) : cget s (k : Int) = (s[k]?).getD NUL := by
  unfold cget
  rw [if_pos (by omega), Int.toNat_natCast, List.getD_eq_getElem?_getD]

theorem cget_substr (s : List Char) (i n k : Nat) (hk : k < n) :
    cget (substr s (i : Int) (n : Int)) (k : Int) = cget s ((i + k : Nat) : Int) := by
  rw [cget_eq_getD, cget_eq_getD]
  unfold substr
  rw [Int.toNat_natCast, Int.toNat_natCast, List.getElem?_take_of_lt hk, List.getElem?_drop]

theorem cget_mem (s : List Char) (k : Nat) (hk : k < s.length) : cget s (k : Int) ∈ s := by
  rw [cget_eq_getD, List.getElem?_eq_getElem hk]
  exact List.getElem_mem _

theorem cget_mem_left (X Y : List Char) (k : Nat) (hk : k < X.length) :
    cget (X ++ Y) (k : Int) ∈ X := by
  rw [cget_eq_getD, List.getElem?_append_left hk, ← cget_eq_getD]
  exact cget_mem X k hk

theorem cget_mem_right (X Y : List Char) (k : Nat) (h1 : X.length ≤ k)
    (h2 : k < X.length + Y.length) : cget (X ++ Y) (k : Int) ∈ Y := by
  rw [cget_eq_getD, List.getElem?_append_right h1, ← cget_eq_getD]
  exact cget_mem Y _ (by omega)

theorem cget_append_left (X Y : List Char) (k : Nat) (hk : k < X.length) :
    cget (X ++ Y) (k : Int) = cget X (k : Int) := by
  rw [cget_eq_getD, cget_eq_getD, List.getElem?_append_left hk]

theorem cget_cons_succ (c : Char) (X : List Char) (k : Nat) :
    cget (c :: X) ((1 + k : Nat) : Int) = cget X (k : Int) := by
  rw [cget_eq_getD, cget_eq_getD, Nat.add_comm, List.getElem?_cons_succ]

theorem not_digit_of_isspace {c : Char} (h : isspace c = true) : isdigit c ≠ true := by
  intro hd
  rw [isdigit_not_isspace hd] at h
  exact absurd h (by decide)

theorem stripped_shape (A B C : List Char) (hA : ∀ x ∈ A, isspace x = true)
    (hC : ∀ x ∈ C, isspace x = true)
    (h : check_stripped (A ++ '{' :: B ++ '}' :: C) = true) :
    A = [] ∧ C = [] ∧ (B = [] ∨
      (has_double_comma ('{' :: B ++ ['}']) = false ∧ isdigit (cget B 0) = true ∧
        isdigit (cget B ((B.length : Int) - 1)) = true ∧
        (strtok B).all (fun token => token.all isdigit) = true)) := by
  have hlen : (A ++ '{' :: B ++ '}' :: C).length = A.length + B.length + C.length + 2 := by
    simp; omega
  unfold check_stripped at h
  dsimp only at h
  by_cases hdc : has_double_comma (A ++ '{' :: B ++ '}' :: C) = true
  · rw [if_pos hdc] at h
    exact absurd h (by decide)
  · by_cases heq : A ++ '{' :: B ++ '}' :: C = ['{', '}']
    · have := congrArg List.length heq
      rw [hlen] at this
      simp only [List.length_cons, List.length_nil] at this
      exact ⟨List.length_eq_zero.mp (by omega), List.length_eq_zero.mp (by omega),
        Or.inl (List.length_eq_zero.mp (by omega))⟩
    · simp only [hdc, heq, Bool.false_eq_true, if_false] at h
      by_cases hchk : (!isdigit (cget (substr (A ++ '{' :: B ++ '}' :: C) 1
          (((A ++ '{' :: B ++ '}' :: C).length : Int) - 2)) 0) ||
          !isdigit (cget (substr (A ++ '{' :: B ++ '}' :: C) 1
          (((A ++ '{' :: B ++ '}' :: C).length : Int) - 2))
          (((A ++ '{' :: B ++ '}' :: C).length : Int) - 3))) = true
      · rw [if_pos hchk] at h
        exact absurd h (by decide)
      · rw [if_neg hchk] at h
        simp only [Bool.or_eq_true, Bool.not_eq_true', not_or, Bool.not_eq_false] at hchk
        obtain ⟨hd0, hd1⟩ := hchk
        rw [hlen] at hd0 hd1 h
        have hs3 : 1 ≤ A.length + B.length + C.length := by
          by_contra hlt
          have h0 : ((A.length + B.length + C.length + 2 : Nat) : Int) - 2 = 0 := by omega
          rw [h0] at hd0
          have : substr (A ++ '{' :: B ++ '}' :: C) 1 0 = [] := by simp [substr]
          rw [this] at hd0
          exact absurd hd0 (by decide)
        have hn : ((A.length + B.length + C.length + 2 : Nat) : Int) - 2 =
            ((A.length + B.length + C.length : Nat) : Int) := by omega
        have hk : ((A.length + B.length + C.length + 2 : Nat) : Int) - 3 =
            ((A.length + B.length + C.length - 1 : Nat) : Int) := by omega
        rw [hn] at hd0 hd1 h
        rw [hk] at hd1
        have c0 := cget_substr (A ++ '{' :: B ++ '}' :: C) 1 (A.length + B.length + C.length) 0
          (by omega)
        have c1 := cget_substr (A ++ '{' :: B ++ '}' :: C) 1 (A.length + B.length + C.length)
          (A.length + B.length + C.length - 1) (by omega)
        simp only [Nat.cast_one, Nat.cast_zero] at c0 c1
        rw [c0] at hd0
        rw [c1] at hd1
        have hA0 : A = [] := by
          by_contra hne
          have hl : 1 ≤ A.length := List.length_pos.mpr hne
          have e : A ++ '{' :: B ++ '}' :: C = (A ++ ['{']) ++ (B ++ '}' :: C) := by simp
          rw [e] at hd0
          have hm := cget_mem_left (A ++ ['{']) (B ++ '}' :: C) (1 + 0) (by simp; omega)
          rcases List.mem_append.mp hm with hm | hm
          · exact not_digit_of_isspace (hA _ hm) hd0
          · rw [List.mem_singleton.mp hm] at hd0
            exact absurd hd0 (by decide)
        have hC0 : C = [] := by
          by_contra hne
          have hl : 1 ≤ C.length := List.length_pos.mpr hne
          have e : A ++ '{' :: B ++ '}' :: C = (A ++ '{' :: B) ++ ('}' :: C) := by simp
          rw [e] at hd1
          have hm := cget_mem_right (A ++ '{' :: B) ('}' :: C)
            (1 + (A.length + B.length + C.length - 1)) (by simp; omega) (by simp; omega)
          rcases List.mem_cons.mp hm with hm | hm
          · rw [hm] at hd1
            exact absurd hd1 (by decide)
          · exact not_digit_of_isspace (hC _ hm) hd1
        subst hA0 hC0
        refine ⟨rfl, rfl, Or.inr ?_⟩
        simp only [List.nil_append, List.length_nil, Nat.add_zero, Nat.zero_add] at *
        have hsub : substr ('{' :: B ++ ['}']) 1 (B.length : Int) = B := by
          have e : '{' :: B ++ ['}'] = ['{'] ++ B ++ ['}'] := rfl
          rw [e]
          exact substr_mid _ _ _ _ _ (by simp) rfl
        rw [hsub] at h
        have hBl : 1 ≤ B.length := hs3
        have e0 : cget ('{' :: B ++ ['}']) ((1 + 0 : Nat) : Int) = cget B 0 := by
          have : (0 : Int) = ((0 : Nat) : Int) := rfl
          rw [this, List.cons_append, cget_cons_succ, cget_append_left _ _ _ (by omega)]
        have e1 : cget ('{' :: B ++ ['}']) ((1 + (B.length - 1) : Nat) : Int) =
            cget B ((B.length : Int) - 1) := by
          have : (B.length : Int) - 1 = ((B.length - 1 : Nat) : Int) := by omega
          rw [this, List.cons_append, cget_cons_succ, cget_append_left _ _ _ (by omega)]
        rw [e0] at hd0
        rw [e1] at hd1
        refine ⟨?_, hd0, hd1, h⟩
        simpa using hdc

theorem pieces_nonempty (R : List (List Char))
    (hdc : has_double_comma ('{' :: [','].intercalate R ++ ['}']) = false)
    (h0 : isdigit (cget ([','].intercalate R) 0) = true)
    (h1 : isdigit (cget ([','].intercalate R) ((([','].intercalate R).length : Int) - 1)) = true) :
    ∀ r ∈ R, r ≠ [] := by
  intro r hr hnil
  subst hnil
  obtain ⟨R1, R2, rfl⟩ := List.append_of_mem hr
  cases R1 with
  | nil =>
    cases R2 with
    | nil => exact absurd h0 (by decide)
    | cons y l =>
      rw [List.nil_append, intercalate_nil_cons, cget_zero_cons] at h0
      exact absurd h0 (by decide)
  | cons x R1 =>
    cases R2 with
    | nil =>
      rw [intercalate_append _ _ (List.cons_ne_nil _ _) (List.cons_ne_nil _ _),
        intercalate_single] at h1
      rw [cget_append_cons _ ',' [] _ (by simp)] at h1
      exact absurd h1 (by decide)
    | cons y l =>
      rw [intercalate_append _ _ (List.cons_ne_nil _ _) (List.cons_ne_nil _ _),
        intercalate_nil_cons] at hdc
      have e : '{' :: ([','].intercalate (x :: R1) ++ ',' :: ',' :: [','].intercalate (y :: l)) ++
          ['}'] = ('{' :: [','].intercalate (x :: R1)) ++
            (',' :: ',' :: ([','].intercalate (y :: l) ++ ['}'])) := by simp
      rw [e, hdc_append_right _ _ (hdc_comma_comma _)] at hdc
      exact absurd hdc (by decide)

theorem check_tokens_all : ∀ (Q : List (List Char)) (fl : Bool), check_tokens fl Q = true →
    ∀ q ∈ Q, (substr q (skip_leading q) (skip_trailing q - skip_leading q)).all isdigit = true
  | [], _, _ => by simp
  | t :: Q, fl, h => by
    unfold check_tokens at h
    dsimp only at h
    by_cases hfl : fl = true
    · rw [if_pos hfl] at h
      exact absurd h (by decide)
    · rw [if_neg hfl] at h
      by_cases hd : (substr t (skip_leading t) (skip_trailing t - skip_leading t)).all isdigit = true
      · rw [if_pos hd] at h
        intro q hq
        rcases List.mem_cons.mp hq with rfl | hq
        · exact hd
        · exact check_tokens_all Q _ h q hq
      · rw [if_neg hd] at h
        exact absurd h (by decide)

theorem space_of_isspace {q : List Char} (hchars : ∀ c ∈ q, c = ' ' ∨ isdigit c = true)
    {x : Char} (hx : x ∈ q) (hs : isspace x = true) : x = ' ' := by
  rcases hchars x hx with h | h
  · exact h
  · exact absurd h (not_digit_of_isspace hs)

theorem element_of_check (q : List Char) (hchars : ∀ c ∈ q, c = ' ' ∨ isdigit c = true)
    (hdig : ∃ c ∈ q, isdigit c = true)
    (hchk : (substr q (skip_leading q) (skip_trailing q - skip_leading q)).all isdigit = true) :
    IsElement q := by
  rcases lead_decomp isspace q with hall | ⟨w, c, rest, rfl, hw, hc⟩
  · obtain ⟨c, hc, hd⟩ := hdig
    exact absurd hd (not_digit_of_isspace (hall c hc))
  · rcases trail_decomp isspace (c :: rest) with hall | ⟨pre, d, w2, hsplit, hw2, hd⟩
    · have := hall c (List.mem_cons_self _ _)
      rw [hc] at this
      exact absurd this (by decide)
    · have hsl := skip_leading_eq w c rest hw hc
      rw [hsplit] at hchars hchk ⊢
      have e : w ++ (pre ++ d :: w2) = (w ++ pre) ++ d :: w2 := by simp
      have hst : skip_trailing (w ++ (pre ++ d :: w2)) = (w.length : Int) + pre.length := by
        rw [e, skip_trailing_eq _ d w2 hw2 hd]
        simp
      rw [hsplit] at hsl
      rw [hsl, hst] at hchk
      have e2 : w ++ (pre ++ d :: w2) = w ++ pre ++ (d :: w2) := by simp
      rw [e2, substr_mid _ _ _ _ _ rfl (by omega)] at hchk
      have hpre : ∀ x ∈ pre, isdigit x = true := List.all_eq_true.mp hchk
      have hdd : isdigit d = true := by
        rcases hchars d (by simp) with h | h
        · rw [h] at hd
          exact absurd hd (by decide)
        · exact h
      have hwsp : w = spaces w.length :=
        eq_spaces w (fun x hx => space_of_isspace hchars (by simp [hx]) (hw x hx))
      have hw2sp : w2 = spaces w2.length :=
        eq_spaces w2 (fun x hx => space_of_isspace hchars (by simp [hx]) (hw2 x hx))
      refine ⟨w.length, w2.length, pre ++ [d], by simp, ?_, ?_⟩
      · intro x hx
        rcases List.mem_append.mp hx with hx | hx
        · exact hpre x hx
        · rw [List.mem_singleton.mp hx]; exact hdd
      · rw [← hwsp, ← hw2sp]
        simp

theorem all_space_of_filter_nil (w : List Char) (h : w.filter (· ≠ ' ') = []) :
    ∀ x ∈ w, x = ' ' := by
  intro x hx
  have := List.filter_eq_nil_iff.mp h x hx
  simpa using this

/-- Every accepted string is a literal of the grammar between two runs of spaces. -/
theorem grammar_of_valid (lit : List Char) (h : is_valid_input lit = true) :
    ∃ a b : Nat,
      (∃ n : Nat, lit = spaces a ++ '{' :: spaces n ++ '}' :: spaces b) ∨
      (∃ es : List (List Char), es ≠ [] ∧ (∀ e ∈ es, IsElement e) ∧
        lit = spaces a ++ '{' :: [','].intercalate es ++ '}' :: spaces b) := by
  unfold is_valid_input at h
  have hbr : cget lit (skip_leading lit) = '{' ∧ cget lit (skip_trailing lit) = '}' := by
    by_contra hn
    have hor : cget lit (skip_leading lit) ≠ '{' ∨ cget lit (skip_trailing lit) ≠ '}' := by
      by_cases h1 : cget lit (skip_leading lit) = '{'
      · right; exact fun h2 => hn ⟨h1, h2⟩
      · left; exact h1
    unfold is_valid_input_run at h
    dsimp only at h
    rw [if_pos hor] at h
    exact Bool.false_ne_true h
  obtain ⟨w1, body, w2, rfl, hw1, hw2⟩ := frame_of_scan lit hbr.1 hbr.2
  rw [run_frame w1 body w2 hw1 hw2] at h
  by_cases hct : (!check_tokens false (strtok body)) = true
  · rw [if_pos hct] at h
    exact absurd h Bool.false_ne_true
  · rw [if_neg hct] at h
    simp only [Bool.not_eq_true', Bool.not_eq_false] at hct
    dsimp only at h
    rw [filter_frame] at h
    have hfs : ∀ (w : List Char), (∀ x ∈ w, isspace x = true) →
        ∀ x ∈ w.filter (· ≠ ' '), isspace x = true :=
      fun w hw x hx => hw x (List.mem_of_mem_filter hx)
    obtain ⟨hA, hC, hB⟩ := stripped_shape _ _ _ (hfs w1 hw1) (hfs w2 hw2) h
    have hw1s := eq_spaces w1 (all_space_of_filter_nil w1 hA)
    have hw2s := eq_spaces w2 (all_space_of_filter_nil w2 hC)
    refine ⟨w1.length, w2.length, ?_⟩
    rw [← hw1s, ← hw2s]
    rcases hB with hB | ⟨hdc, h0, h1, htok⟩
    · left
      exact ⟨body.length, by rw [← eq_spaces body (all_space_of_filter_nil body hB)]⟩
    · right
      obtain ⟨Q, hQne, hQc, rfl⟩ := pieces_exist body
      rw [filter_intercalate _ (by decide)] at hdc h0 h1 htok
      have hRc : ∀ r ∈ Q.map (List.filter (· ≠ ' ')), ',' ∉ r := by
        intro r hr hc
        obtain ⟨q, hq, rfl⟩ := List.mem_map.mp hr
        exact hQc q hq (List.mem_of_mem_filter hc)
      have hRne := pieces_nonempty _ hdc h0 h1
      rw [strtok_intercalate _ (by simpa using hQne) hRc] at htok
      have hRd : ∀ q ∈ Q, ∀ c ∈ q.filter (· ≠ ' '), isdigit c = true := by
        intro q hq c hc
        have hmem : q.filter (· ≠ ' ') ∈
            (Q.map (List.filter (· ≠ ' '))).filter (· ≠ []) := by
          rw [List.mem_filter]
          exact ⟨List.mem_map_of_mem _ hq, by simpa using hRne _ (List.mem_map_of_mem _ hq)⟩
        exact List.all_eq_true.mp (List.all_eq_true.mp htok _ hmem) c hc
      have hQn : ∀ q ∈ Q, q ≠ [] := by
        intro q hq hnil
        subst hnil
        exact hRne _ (List.mem_map_of_mem _ hq) rfl
      rw [strtok_intercalate Q hQne hQc] at hct
      have hfQ : Q.filter (· ≠ []) = Q := by
        rw [List.filter_eq_self]
        intro q hq
        simpa using hQn q hq
      rw [hfQ] at hct
      have hall := check_tokens_all Q false hct
      refine ⟨Q, hQne, ?_, rfl⟩
      intro q hq
      apply element_of_check q
      · intro c hc
        by_cases hsp : c = ' '
        · exact Or.inl hsp
        · exact Or.inr (hRd q hq c (List.mem_filter.mpr ⟨hc, by simpa using hsp⟩))
      · obtain ⟨c, rest, hcr⟩ := List.exists_cons_of_ne_nil (hRne _ (List.mem_map_of_mem _ hq))
        have hc : c ∈ q.filter (· ≠ ' ') := by rw [hcr]; exact List.mem_cons_self _ _
        exact ⟨c, List.mem_of_mem_filter hc, hRd q hq c hc⟩
      · exact hall q hq

/-! ## Trimming -/

theorem trim_framed (a b : Nat) (X : List Char) :
    trim_spaces (spaces a ++ '{' :: X ++ '}' :: spaces b) = '{' :: X ++ ['}'] := by
  unfold trim_spaces
  have hsp : ∀ n, ∀ x ∈ spaces n, decide (x = ' ') = true := by
    intro n x hx
    simp [mem_spaces hx]
  have e1 : spaces a ++ '{' :: X ++ '}' :: spaces b = spaces a ++ '{' :: (X ++ '}' :: spaces b) := by
    simp
  rw [e1, List.dropWhile_append_of_pos (hsp a), List.dropWhile_cons_of_neg (by decide)]
  have e2 : ('{' :: (X ++ '}' :: spaces b)).reverse =
      (spaces b).reverse ++ '}' :: (X.reverse ++ ['{']) := by simp
  have hsr : ∀ x ∈ (spaces b).reverse, decide (x = ' ') = true :=
    fun x hx => hsp b x (List.mem_reverse.mp hx)
  rw [e2, List.dropWhile_append_of_pos hsr, List.dropWhile_cons_of_neg (by decide)]
  simp

theorem trim_decomp (s : List Char) :
    ∃ a b : Nat, s = spaces a ++ trim_spaces s ++ spaces b := by
  unfold trim_spaces
  have h1 := List.takeWhile_append_dropWhile (fun c : Char => decide (c = ' ')) s
  have h2 := List.takeWhile_append_dropWhile (fun c : Char => decide (c = ' '))
    (s.dropWhile (fun c : Char => decide (c = ' '))).reverse
  have h3 := congrArg List.reverse h2
  rw [List.reverse_append, List.reverse_reverse] at h3
  have ha : ∀ x ∈ s.takeWhile (fun c : Char => decide (c = ' ')), x = ' ' := by
    intro x hx
    simpa using List.mem_takeWhile_imp hx
  have hb : ∀ x ∈ ((s.dropWhile (fun c : Char => decide (c = ' '))).reverse.takeWhile
      (fun c : Char => decide (c = ' '))).reverse, x = ' ' := by
    intro x hx
    simpa using List.mem_takeWhile_imp (List.mem_reverse.mp hx)
  refine ⟨(s.takeWhile (fun c : Char => decide (c = ' '))).length,
    (((s.dropWhile (fun c : Char => decide (c = ' '))).reverse.takeWhile
      (fun c : Char => decide (c = ' '))).reverse).length, ?_⟩
  rw [← eq_spaces _ ha, ← eq_spaces _ hb, List.append_assoc, h3, h1]

/-! ## The tokens of a literal of the grammar -/

theorem literal_tokens_empty (a n b : Nat) :
    literal_tokens (spaces a ++ '{' :: spaces n ++ '}' :: spaces b) = [] := by
  unfold literal_tokens
  rw [trim_framed]
  have e : (('{' :: spaces n ++ ['}']).drop 1).dropLast = spaces n := by simp
  rw [e]
  have h : (spaces n).splitOn ',' = [spaces n] := by
    have := List.splitOn_intercalate [spaces n] ','
      (by intro l hl; rw [List.mem_singleton.mp hl]; intro hc; exact absurd (mem_spaces hc) (by decide))
      (by simp)
    rwa [intercalate_single] at this
  rw [h]
  simp [filter_spaces]
  intro x hx
  exact mem_spaces hx

theorem literal_tokens_elements (a b : Nat) (es : List (List Char)) (hne : es ≠ [])
    (he : ∀ e ∈ es, IsElement e) :
    literal_tokens (spaces a ++ '{' :: [','].intercalate es ++ '}' :: spaces b) =
      es.map (List.filter (· ≠ ' ')) := by
  unfold literal_tokens
  rw [trim_framed]
  have e : (('{' :: [','].intercalate es ++ ['}']).drop 1).dropLast = [','].intercalate es := by
    simp
  rw [e, List.splitOn_intercalate es ',' (fun e he2 => element_no_comma (he e he2)) hne,
    List.filter_eq_self]
  intro ds h
  obtain ⟨e, hmem, rfl⟩ := List.mem_map.mp h
  simpa using (element_filter (he e hmem)).1

/-! ## Conversion of a digit token -/

theorem decimal_value_zeros (z t : List Char) (hz : ∀ c ∈ z, c = '0') :
    decimal_value (z ++ t) = decimal_value t := by
  induction z with
  | nil => rfl
  | cons c z ih =>
    have hc : c = '0' := hz c (List.mem_cons_self _ _)
    subst hc
    have := ih (fun c h => hz c (List.mem_cons_of_mem _ h))
    unfold decimal_value at this ⊢
    simpa using this

theorem strtol_digits (t : List Char) (ht : ∀ c ∈ t, isdigit c = true)
    (hv : decimal_value t ≤ 2147483647) : atoi t = (decimal_value t : Int) := by
  unfold atoi strtol
  have h1 : t.dropWhile isspace = t := by
    cases t with
    | nil => rfl
    | cons c t =>
      exact List.dropWhile_cons_of_neg (by
        rw [isdigit_not_isspace (ht c (List.mem_cons_self _ _))]; decide)
  have h2 : t.head? ≠ some '-' ∧ t.head? ≠ some '+' := by
    cases t with
    | nil => simp
    | cons c t =>
      have hc := ht c (List.mem_cons_self _ _)
      constructor
      · intro h
        simp only [List.head?_cons, Option.some.injEq] at h
        rw [h] at hc; exact absurd hc (by decide)
      · intro h
        simp only [List.head?_cons, Option.some.injEq] at h
        rw [h] at hc; exact absurd hc (by decide)
  have h3 : t.takeWhile isdigit = t := List.takeWhile_eq_self_iff.mpr ht
  simp only [h1, h2.1, h2.2, or_self, if_false, h3, decide_False, Bool.false_eq_true]
  unfold to_int32
  have : min ((decimal_value t : Nat) : Int) (2 ^ 63 - 1) = (decimal_value t : Int) := by
    apply min_eq_left
    have : ((decimal_value t : Nat) : Int) ≤ 2147483647 := by exact_mod_cast hv
    omega
  rw [this]
  have hv2 : ((decimal_value t : Nat) : Int) ≤ 2147483647 := by exact_mod_cast hv
  omega

theorem parse_token_digits (ds : List Char) (hd : ∀ c ∈ ds, isdigit c = true)
    (hv : decimal_value ds ≤ 2147483647) :
    parse_token atoi ds = (decimal_value ds : Int) := by
  obtain ⟨z, t, hds, htk, hdr⟩ : ∃ z t, ds = z ++ t ∧
      ds.takeWhile (fun c : Char => decide (c = '0')) = z ∧
      ds.dropWhile (fun c : Char => decide (c = '0')) = t :=
    ⟨_, _, (List.takeWhile_append_dropWhile _ ds).symm, rfl, rfl⟩
  have hz : ∀ c ∈ z, c = '0' := by
    intro c hc
    rw [← htk] at hc
    simpa using List.mem_takeWhile_imp hc
  unfold parse_token
  dsimp only
  rw [htk]
  subst hds
  have hval := decimal_value_zeros z t hz
  have htd : ∀ c ∈ t, isdigit c = true := fun c hc => hd c (List.mem_append_right _ hc)
  by_cases hall : z.length ≥ (z ++ t).length
  · rw [if_pos hall]
    have ht0 : t = [] := List.length_eq_zero.mp (by rw [List.length_append] at hall; omega)
    subst ht0
    have : ((z ++ [] ++ [NUL]).drop z.length).take 1 = [NUL] := by simp
    rw [this, hval]
    rfl
  · rw [if_neg hall]
    have e : (z ++ t ++ [NUL]).drop z.length = t ++ [NUL] := by
      rw [List.append_assoc, List.drop_left]
    have e2 : (z ++ t).length - z.length = t.length := by simp
    rw [e, e2, List.take_left]
    have e3 : cstr t = t := by
      unfold cstr
      rw [List.takeWhile_eq_self_iff]
      intro c hc
      simpa using isdigit_ne_nul (htd c hc)
    rw [e3, strtol_digits t htd (by rw [← hval]; exact hv), hval]

/-! ## The parser on a framed literal -/

theorem inv_nil : Inv ([], 0) := ⟨List.sorted_nil, rfl⟩

theorem get_data_step_eq {st : List Int × Int} (h : Inv st) (v : Int) :
    get_data_step st v = insert_if_absent st v := by
  obtain ⟨data, size⟩ := st
  obtain ⟨_, hsz⟩ := h
  simp only at hsz
  subst hsz
  unfold get_data_step
  by_cases h0 : (data.length : Int) = 0
  · have : data = [] := List.length_eq_zero.mp (by omega)
    subst this
    simp [insert_if_absent, num_exist, num_exist_loop, find_insert_pos, find_insert_pos_loop,
      insert_num, insert_num_loop, realloc, wr]
  · simp only [h0, if_false]

theorem foldl_get_data_step (vals : List Int) :
    ∀ st : List Int × Int, Inv st →
      vals.foldl get_data_step st = vals.foldl insert_if_absent st := by
  induction vals with
  | nil => intro st _; rfl
  | cons v vals ih =>
    intro st h
    rw [List.foldl_cons, List.foldl_cons, get_data_step_eq h]
    exact ih _ (insert_if_absent_spec h v).1

theorem get_data_frame (conv : List Char → Int) (w1 body w2 : List Char)
    (h1 : ∀ x ∈ w1, isspace x = true) (h2 : ∀ x ∈ w2, isspace x = true) :
    get_data_with conv (w1 ++ '{' :: body ++ '}' :: w2) =
      ((strtok (body.filter (· ≠ ' '))).map (parse_token conv)).foldl insert_if_absent ([], 0) := by
  obtain ⟨e1, e2, _, _, e5⟩ := frame_scan w1 body w2 h1 h2
  unfold get_data_with
  simp only [e1, e2, e5]
  rw [← foldl_get_data_step _ _ inv_nil, List.foldl_map]

theorem sorted_unique {L1 L2 : List Int} (h1 : L1.Sorted (· < ·)) (h2 : L2.Sorted (· < ·))
    (hm : ∀ x, x ∈ L1 ↔ x ∈ L2) : L1 = L2 :=
  List.eq_of_perm_of_sorted ((List.perm_ext_iff_of_nodup h1.nodup h2.nodup).mpr hm) h1 h2

theorem foldl_insert_sort (vals : List Int) :
    vals.foldl insert_if_absent ([], 0) =
      (vals.toFinset.sort (· ≤ ·), (vals.toFinset.card : Int)) := by
  obtain ⟨⟨hs, hsz⟩, hm, _⟩ := foldl_insert_if_absent_spec vals ([], 0) inv_nil
  have hnd : (vals.foldl insert_if_absent ([], 0)).1.Nodup := hs.nodup
  have hfs : (vals.foldl insert_if_absent ([], 0)).1.toFinset = vals.toFinset := by
    ext x
    simp only [List.mem_toFinset]
    rw [hm]
    simp
  have hle : (vals.foldl insert_if_absent ([], 0)).1.Sorted (· ≤ ·) :=
    List.Pairwise.imp le_of_lt hs
  have hsort := (List.toFinset_sort (· ≤ ·) hnd).mpr hle
  rw [hfs] at hsort
  apply Prod.ext
  · exact hsort.symm
  · simp only
    rw [hsz, ← hfs, List.toFinset_card_of_nodup hnd]

theorem foldl_insert_sorted_self (s : List Int) (hs : s.Sorted (· < ·)) :
    s.foldl insert_if_absent ([], 0) = (s, (s.length : Int)) := by
  obtain ⟨⟨h1, hsz⟩, hm, _⟩ := foldl_insert_if_absent_spec s ([], 0) inv_nil
  have : (s.foldl insert_if_absent ([], 0)).1 = s :=
    sorted_unique h1 hs (fun x => by rw [hm]; simp)
  apply Prod.ext
  · exact this
  · simp only
    rw [hsz, this]

theorem get_data_digits (w1 body w2 : List Char) (dss : List (List Char))
    (h1 : ∀ x ∈ w1, isspace x = true) (h2 : ∀ x ∈ w2, isspace x = true)
    (hne : dss ≠ []) (hd : ∀ ds ∈ dss, ds ≠ [] ∧ ∀ c ∈ ds, isdigit c = true)
    (hb : body.filter (· ≠ ' ') = [','].intercalate dss)
    (hr : ∀ ds ∈ dss, decimal_value ds ≤ 2147483647) :
    get_data (w1 ++ '{' :: body ++ '}' :: w2) =
      (dss.map (fun t => (decimal_value t : Int))).foldl insert_if_absent ([], 0) := by
  unfold get_data
  rw [get_data_frame atoi w1 body w2 h1 h2, hb, strtok_digits dss hne hd]
  congr 1
  apply List.map_congr_left
  intro ds h
  exact parse_token_digits ds (hd ds h).2 (hr ds h)

theorem get_data_empty (conv : List Char → Int) (w1 w2 : List Char) (n : Nat)
    (h1 : ∀ x ∈ w1, isspace x = true) (h2 : ∀ x ∈ w2, isspace x = true) :
    get_data_with conv (w1 ++ '{' :: spaces n ++ '}' :: w2) = ([], 0) := by
  rw [get_data_frame conv w1 _ w2 h1 h2, filter_spaces]
  rfl

/-- The parser on an accepted literal whose tokens fit in 31 bits, both when it is run
on the literal itself and on the buffer that the validator leaves behind. -/
theorem parse_valid (lit : List Char) (hv : is_valid_input lit = true)
    (hr : ∀ v ∈ literal_values lit, v ≤ 2147483647) :
    get_data lit = (literal_values lit).foldl insert_if_absent ([], 0) ∧
    intset_in lit = some ((literal_values lit).foldl insert_if_absent ([], 0)) := by
  obtain ⟨a, b, ⟨n, rfl⟩ | ⟨es, hne, he, rfl⟩⟩ := grammar_of_valid lit hv
  · unfold literal_values intset_in
    rw [literal_tokens_empty, run_empty_literal]
    refine ⟨get_data_empty atoi _ _ n isspace_of_mem_spaces isspace_of_mem_spaces, ?_⟩
    have := get_data_empty atoi [] [] 0 (by simp) (by simp)
    simp only [spaces, List.replicate_zero, List.nil_append] at this
    simp only [Bool.not_true, Bool.false_eq_true, if_false]
    exact congrArg some this
  · have hd : ∀ ds ∈ es.map (List.filter (· ≠ ' ')), ds ≠ [] ∧ ∀ c ∈ ds, isdigit c = true := by
      intro ds h
      obtain ⟨e, hmem, rfl⟩ := List.mem_map.mp h
      exact element_filter (he e hmem)
    have hne2 : es.map (List.filter (· ≠ ' ')) ≠ [] := by simpa using hne
    unfold literal_values at hr ⊢
    rw [literal_tokens_elements a b es hne he] at hr ⊢
    have hr2 : ∀ ds ∈ es.map (List.filter (· ≠ ' ')), decimal_value ds ≤ 2147483647 := by
      intro ds h
      have := hr _ (List.mem_map_of_mem (fun t => (decimal_value t : Int)) h)
      simp only at this
      exact_mod_cast this
    refine ⟨get_data_digits _ _ _ _ isspace_of_mem_spaces isspace_of_mem_spaces hne2 hd
      (filter_intercalate _ (by decide) es) hr2, ?_⟩
    unfold intset_in
    rw [run_element_literal a b es hne he]
    simp only [Bool.not_true, Bool.false_eq_true, if_false]
    have hb : ([','].intercalate (es.map (List.filter (· ≠ ' ')))).filter (· ≠ ' ') =
        [','].intercalate (es.map (List.filter (· ≠ ' '))) := by
      rw [List.filter_eq_self]
      intro c hc
      rcases mem_intercalate hc with rfl | ⟨ds, hds, hcd⟩
      · decide
      · simpa using isdigit_ne_space ((hd ds hds).2 c hcd)
    have := get_data_digits [] _ [] _ (by simp) (by simp) hne2 hd hb hr2
    rw [List.nil_append] at this
    exact congrArg some this

/-! ## Round trips -/

theorem element_of_digits (ds : List Char) (hne : ds ≠ []) (hd : ∀ c ∈ ds, isdigit c = true) :
    IsElement ds :=
  ⟨0, 0, ds, hne, hd, by simp [spaces]⟩

theorem sprintf_d_digits (v : Int) (hv : 0 ≤ v) :
    sprintf_d v ≠ [] ∧ ∀ c ∈ sprintf_d v, isdigit c = true := by
  rw [sprintf_d_nonneg v hv]
  exact ⟨decimal_ne_nil _, decimal_all_digits _⟩

theorem decimal_value_sprintf_d (v : Int) (hv : 0 ≤ v) :
    (decimal_value (sprintf_d v) : Int) = v := by
  rw [sprintf_d_nonneg v hv, decimal_value_decimal]
  omega

/-- Where `sprintf` appends, the formatter's output for a sequence of 31-bit values is
accepted by the validator and is parsed back to the same sequence. -/
theorem format_parse (sprintf : List Char → Int → List Char)
    (happ : ∀ str v, sprintf str v = sprintf_append str v)
    (s : List Int) (hs : s.Sorted (· < ·))
    (hr : ∀ v ∈ s, 0 ≤ v ∧ v ≤ 2147483647) :
    is_valid_input (to_string sprintf s s.length) = true ∧
    get_data (to_string sprintf s s.length) = (s, (s.length : Int)) ∧
    intset_in (to_string sprintf s s.length) = some (s, (s.length : Int)) := by
  rw [to_string_eq sprintf happ s (fun v h => (hr v h).1)]
  by_cases hnil : s = []
  · subst hnil
    decide
  · have hne : s.map sprintf_d ≠ [] := by simpa using hnil
    have hd : ∀ ds ∈ s.map sprintf_d, ds ≠ [] ∧ ∀ c ∈ ds, isdigit c = true := by
      intro ds h
      obtain ⟨v, hv, rfl⟩ := List.mem_map.mp h
      exact sprintf_d_digits v (hr v hv).1
    have he : ∀ e ∈ s.map sprintf_d, IsElement e :=
      fun e h => element_of_digits e (hd e h).1 (hd e h).2
    have hrun := run_element_literal 0 0 (s.map sprintf_d) hne he
    simp only [spaces, List.replicate_zero, List.nil_append] at hrun
    have hf : (s.map sprintf_d).map (List.filter (· ≠ ' ')) = s.map sprintf_d := by
      conv_rhs => rw [← List.map_id (s.map sprintf_d)]
      apply List.map_congr_left
      intro ds h
      exact filter_digits ds (hd ds h).2
    rw [hf] at hrun
    have hb : ([','].intercalate (s.map sprintf_d)).filter (· ≠ ' ') =
        [','].intercalate (s.map sprintf_d) := by
      rw [filter_intercalate _ (by decide), hf]
    have hr2 : ∀ ds ∈ s.map sprintf_d, decimal_value ds ≤ 2147483647 := by
      intro ds h
      obtain ⟨v, hv, rfl⟩ := List.mem_map.mp h
      have := decimal_value_sprintf_d v (hr v hv).1
      have := (hr v hv).2
      omega
    have hget := get_data_digits [] _ [] _ (by simp) (by simp) hne hd hb hr2
    rw [List.nil_append] at hget
    have hvals : (s.map sprintf_d).map (fun t => (decimal_value t : Int)) = s := by
      rw [List.map_map]
      conv_rhs => rw [← List.map_id s]
      apply List.map_congr_left
      intro v hv
      exact decimal_value_sprintf_d v (hr v hv).1
    rw [hvals, foldl_insert_sorted_self s hs] at hget
    refine ⟨?_, hget, ?_⟩
    · unfold is_valid_input
      rw [hrun]
    · unfold intset_in
      rw [hrun]
      simp only [Bool.not_true, Bool.false_eq_true, if_false]
      exact congrArg some hget

theorem parse_range (lit : List Char) (hv : is_valid_input lit = true)
    (hr : ∀ v ∈ literal_values lit, v ≤ 2147483647) :
    Inv (get_data lit) ∧ ∀ v ∈ (get_data lit).1, 0 ≤ v ∧ v ≤ 2147483647 := by
  rw [(parse_valid lit hv hr).1]
  obtain ⟨hinv, hm, _⟩ := foldl_insert_if_absent_spec (literal_values lit) ([], 0) inv_nil
  refine ⟨hinv, fun v h => ?_⟩
  rcases (hm v).mp h with h | h
  · simp at h
  · refine ⟨?_, hr v h⟩
    unfold literal_values at h
    obtain ⟨t, _, rfl⟩ := List.mem_map.mp h
    exact Int.natCast_nonneg _

/-! ## The specified properties -/

theorem strictlyAscending_of_inv {st : List Int × Int} (h : Inv st) :
    StrictlyAscending st.1 st.2 := by
  intro i h0 h1
  rw [h.2] at h1
  exact rd_lt_rd h.1 h0 (by omega) h1

theorem get_data_with_inv (conv : List Char → Int) (str : List Char) :
    Inv (get_data_with conv str) := by
  unfold get_data_with
  dsimp only
  rw [← List.foldl_map (parse_token conv) get_data_step, foldl_get_data_step _ _ inv_nil]
  exact (foldl_insert_if_absent_spec _ _ inv_nil).1

/-- C1: for every literal accepted by `is_valid_input` whose digit tokens all denote
values at most 2^31-1, `get_data` (run on the literal, or inside `intset_in` on the
buffer the validator leaves) returns the strictly ascending list of the distinct
token values, and the reported size is the number of distinct values. -/
theorem parse_returns_sorted_distinct_values (lit : List Char)
    (hv : is_valid_input lit = true)
    (hr : ∀ v ∈ literal_values lit, v ≤ 2147483647) :
    get_data lit = ((literal_values lit).toFinset.sort (· ≤ ·),
      ((literal_values lit).toFinset.card : Int)) ∧
    intset_in lit = some ((literal_values lit).toFinset.sort (· ≤ ·),
      ((literal_values lit).toFinset.card : Int)) ∧
    (get_data lit).1.Sorted (· < ·) := by
  obtain ⟨h1, h2⟩ := parse_valid lit hv hr
  refine ⟨?_, ?_, (get_data_with_inv atoi lit).1⟩
  · rw [h1, foldl_insert_sort]
  · rw [h2, foldl_insert_sort]

theorem parse_returns_sorted_distinct_values_witness :
    is_valid_input "\x7b1, 2, 3\x7d".toList = true ∧
    (∀ v ∈ literal_values "\x7b1, 2, 3\x7d".toList, v ≤ 2147483647) ∧
    get_data "\x7b1, 2, 3\x7d".toList =
      ((literal_values "\x7b1, 2, 3\x7d".toList).toFinset.sort (· ≤ ·),
        ((literal_values "\x7b1, 2, 3\x7d".toList).toFinset.card : Int)) :=
  ⟨by decide, by decide,
    (parse_returns_sorted_distinct_values "\x7b1, 2, 3\x7d".toList (by decide) (by decide)).1⟩

/-- The two parses named by the specification, evaluated. -/
theorem parse_examples :
    get_data "\x7b1, 2, 3\x7d".toList = ([1, 2, 3], 3) ∧
    get_data "\x7b3,3,5\x7d".toList = ([3, 5], 2) ∧
    intset_in "\x7b3,3,5\x7d".toList = some ([3, 5], 2) := by decide

/-- C2: `is_valid_input` accepts a string exactly when the string, without its leading
and trailing space characters, is a literal of the grammar: `{`, spaces, `}` or `{`,
elements separated by commas, `}`, an element being spaces, digits, spaces. -/
theorem validate_iff_grammar (lit : List Char) :
    is_valid_input lit = true ↔ IsSetLiteral (trim_spaces lit) := by
  constructor
  · intro h
    obtain ⟨a, b, ⟨n, rfl⟩ | ⟨es, hne, he, rfl⟩⟩ := grammar_of_valid lit h
    · rw [trim_framed]
      exact Or.inl ⟨n, rfl⟩
    · rw [trim_framed]
      exact Or.inr ⟨es, hne, he, rfl⟩
  · intro h
    obtain ⟨a, b, hlit⟩ := trim_decomp lit
    rw [hlit]
    unfold is_valid_input
    rcases h with ⟨n, hn⟩ | ⟨es, hne, he, hes⟩
    · rw [hn]
      have e : spaces a ++ ('{' :: spaces n ++ ['}']) ++ spaces b =
          spaces a ++ '{' :: spaces n ++ '}' :: spaces b := by simp
      rw [e, run_empty_literal]
    · rw [hes]
      have e : spaces a ++ ('{' :: [','].intercalate es ++ ['}']) ++ spaces b =
          spaces a ++ '{' :: [','].intercalate es ++ '}' :: spaces b := by simp
      rw [e, run_element_literal a b es hne he]

/-- The rejections named by the specification, evaluated: a sign, a letter, an empty
element, a space or a tab inside an element. -/
theorem validate_rejections :
    is_valid_input "\x7b-1\x7d".toList = false ∧
    is_valid_input "\x7b1,a\x7d".toList = false ∧
    is_valid_input "\x7b1,,2\x7d".toList = false ∧
    is_valid_input "\x7b1,2,\x7d".toList = false ∧
    is_valid_input "\x7b,1\x7d".toList = false ∧
    is_valid_input "\x7b1 2\x7d".toList = false ∧
    is_valid_input "\x7b1\t2\x7d".toList = false := by decide

/-- C3, as amended: on a C library whose `sprintf` appends when its destination is also
its `%s` argument, for every strictly ascending sequence without a negative element
`to_string` returns `{`, the decimal numerals of the elements in order joined by
commas, `}`; the text holds no white space, and the empty sequence gives `{}`. -/
theorem format_nonnegative (sprintf : List Char → Int → List Char)
    (happ : ∀ str v, sprintf str v = sprintf_append str v)
    (s : List Int) (hs : s.Sorted (· < ·)) (hn : ∀ v ∈ s, 0 ≤ v) :
    to_string sprintf s s.length = '{' :: [','].intercalate (s.map sprintf_d) ++ ['}'] ∧
    (∀ c ∈ to_string sprintf s s.length, isspace c = false) ∧
    to_string sprintf [] 0 = ['{', '}'] := by
  have _ := hs
  refine ⟨to_string_eq sprintf happ s hn, ?_, to_string_nil sprintf⟩
  rw [to_string_eq sprintf happ s hn]
  intro c hc
  simp only [List.cons_append, List.mem_cons, List.mem_append, List.mem_singleton,
    List.not_mem_nil, or_false] at hc
  rcases hc with rfl | hc | rfl
  · decide
  · rcases mem_intercalate hc with rfl | ⟨item, hi, hc⟩
    · decide
    · obtain ⟨v, hv, rfl⟩ := List.mem_map.mp hi
      exact isdigit_not_isspace ((sprintf_d_digits v (hn v hv)).2 c hc)
  · decide

theorem format_nonnegative_witness :
    List.Sorted (· < ·) [(1 : Int), 2, 3] ∧ (∀ v ∈ [(1 : Int), 2, 3], 0 ≤ v) ∧
    to_string sprintf_append [1, 2, 3] ([(1 : Int), 2, 3].length : Int) =
      '{' :: [','].intercalate ([(1 : Int), 2, 3].map sprintf_d) ++ ['}'] :=
  ⟨by decide, by decide,
    (format_nonnegative sprintf_append (fun _ _ => rfl) [1, 2, 3] (by decide) (by decide)).1⟩

/-- The formatter on the sequences named by the specification, evaluated on both C
libraries: they agree on the empty sequence only. -/
theorem format_examples :
    to_string sprintf_append [1, 2, 3] 3 = "\x7b1,2,3\x7d".toList ∧
    to_string sprintf_append [] 0 = "\x7b\x7d".toList ∧
    to_string sprintf_fortified [1, 2, 3] 3 = "3,".toList ∧
    to_string sprintf_fortified [7] 1 = "7,\x7d".toList ∧
    to_string sprintf_fortified [] 0 = "\x7b\x7d".toList := by decide

/-- C3 as stated fails.  The one-element sequence `[-1]` is strictly ascending, and
`to_string` returns `{-}` for it where `sprintf` appends and `-1}` where `sprintf`
empties its destination first, not `{-1}`: `get_num_length` counts no sign.  Where
`sprintf` empties its destination first, `to_string` returns `3,` for `[1, 2, 3]`, not
`{1,2,3}`. -/
theorem format_negative_counterexample :
    List.Sorted (· < ·) [(-1 : Int)] ∧
    '{' :: [','].intercalate ([(-1 : Int)].map sprintf_d) ++ ['}'] = ['{', '-', '1', '}'] ∧
    to_string sprintf_append [-1] 1 = ['{', '-', '}'] ∧
    to_string sprintf_fortified [-1] 1 = ['-', '1', '}'] ∧
    List.Sorted (· < ·) [(1 : Int), 2, 3] ∧
    '{' :: [','].intercalate ([(1 : Int), 2, 3].map sprintf_d) ++ ['}'] =
      "\x7b1,2,3\x7d".toList ∧
    to_string sprintf_fortified [1, 2, 3] 3 = ['3', ','] := by
  decide

/-- C4, as amended: on a C library whose `sprintf` appends when its destination is also
its `%s` argument, for every accepted literal whose tokens denote values at most 2^31-1
the text `to_string` gives for the parsed sequence is accepted again and is parsed to
the same sequence, the same elements and the same size. -/
theorem roundtrip_in_range (sprintf : List Char → Int → List Char)
    (happ : ∀ str v, sprintf str v = sprintf_append str v)
    (lit : List Char) (hv : is_valid_input lit = true)
    (hr : ∀ v ∈ literal_values lit, v ≤ 2147483647) :
    is_valid_input (to_string sprintf (get_data lit).1 (get_data lit).2) = true ∧
    get_data (to_string sprintf (get_data lit).1 (get_data lit).2) = get_data lit ∧
    (∀ r, intset_in lit = some r → intset_in (intset_out sprintf r) = some r) := by
  obtain ⟨⟨hs, hsz⟩, hrange⟩ := parse_range lit hv hr
  obtain ⟨f1, f2, f3⟩ := format_parse sprintf happ (get_data lit).1 hs hrange
  rw [← hsz] at f1 f2 f3
  refine ⟨f1, f2, ?_⟩
  intro r h
  obtain ⟨p1, p2⟩ := parse_valid lit hv hr
  rw [p2, ← p1] at h
  have hr2 : r = get_data lit := (Option.some.inj h).symm
  subst hr2
  exact f3

theorem roundtrip_in_range_witness :
    is_valid_input "\x7b 3, 1,3 ,2\x7d".toList = true ∧
    (∀ v ∈ literal_values "\x7b 3, 1,3 ,2\x7d".toList, v ≤ 2147483647) ∧
    get_data (to_string sprintf_append (get_data "\x7b 3, 1,3 ,2\x7d".toList).1
      (get_data "\x7b 3, 1,3 ,2\x7d".toList).2) = get_data "\x7b 3, 1,3 ,2\x7d".toList :=
  ⟨by decide, by decide,
    (roundtrip_in_range sprintf_append (fun _ _ => rfl) "\x7b 3, 1,3 ,2\x7d".toList
      (by decide) (by decide)).2.1⟩

/-- C4 as stated fails.  The literal `{2147483648}` is accepted, its token converts to
`-2147483648`, and the text `to_string` gives for the parsed sequence is rejected, on
a C library whose `sprintf` appends as on one whose `sprintf` empties its destination
first.  On the latter the literal `{1,2,3}` fails too: it is accepted and parsed to
`[1, 2, 3]`, for which `to_string` gives `3,`, which is rejected. -/
theorem roundtrip_overflow_counterexample :
    is_valid_input "\x7b2147483648\x7d".toList = true ∧
    get_data "\x7b2147483648\x7d".toList = ([-2147483648], 1) ∧
    to_string sprintf_append (get_data "\x7b2147483648\x7d".toList).1
      (get_data "\x7b2147483648\x7d".toList).2 = "\x7b-214748364\x7d".toList ∧
    is_valid_input (to_string sprintf_append (get_data "\x7b2147483648\x7d".toList).1
      (get_data "\x7b2147483648\x7d".toList).2) = false ∧
    to_string sprintf_fortified (get_data "\x7b2147483648\x7d".toList).1
      (get_data "\x7b2147483648\x7d".toList).2 = "-2147483648\x7d".toList ∧
    is_valid_input (to_string sprintf_fortified (get_data "\x7b2147483648\x7d".toList).1
      (get_data "\x7b2147483648\x7d".toList).2) = false ∧
    is_valid_input "\x7b1,2,3\x7d".toList = true ∧
    get_data "\x7b1,2,3\x7d".toList = ([1, 2, 3], 3) ∧
    is_valid_input (to_string sprintf_fortified (get_data "\x7b1,2,3\x7d".toList).1
      (get_data "\x7b1,2,3\x7d".toList).2) = false := by
  decide

/-- C5 fails in the code: `to_string` passes `str` to `sprintf` as destination and as
`%s` argument.  For the strictly ascending sequence `[1, 2, 3]`, with all elements
between 0 and 2^31-1, a C library whose `sprintf` empties its destination first leaves
`3,`, which `is_valid_input` rejects, so `intset_in` of the text `intset_out` gives ends
in the error exit; a C library whose `sprintf` appends gives `{1,2,3}`, which is parsed
back to the sequence. -/
theorem parse_format_self_overlap :
    List.Sorted (· < ·) [(1 : Int), 2, 3] ∧
    (∀ v ∈ [(1 : Int), 2, 3], 0 ≤ v ∧ v ≤ 2147483647) ∧
    to_string sprintf_fortified [1, 2, 3] 3 = "3,".toList ∧
    is_valid_input (to_string sprintf_fortified [1, 2, 3] 3) = false ∧
    intset_in (intset_out sprintf_fortified ([1, 2, 3], 3)) = none ∧
    to_string sprintf_append [1, 2, 3] 3 = "\x7b1,2,3\x7d".toList ∧
    intset_in (intset_out sprintf_append ([1, 2, 3], 3)) = some ([1, 2, 3], 3) := by
  decide

/-- C6: for every accepted literal and whatever integers the tokens convert to (the
conversion is a parameter), the array `get_data` returns is strictly ascending,
`data[i] < data[i+1]` for `0 <= i`, `i + 1 < size`, and `size` is the number of cells
written; so it is on the buffer the validator leaves to `intset_in`. -/
theorem parse_strictly_ascending (conv : List Char → Int) (lit : List Char)
    (hv : is_valid_input lit = true) :
    StrictlyAscending (get_data_with conv lit).1 (get_data_with conv lit).2 ∧
    (get_data_with conv lit).2 = ((get_data_with conv lit).1.length : Int) ∧
    (get_data_with conv lit).1.Sorted (· < ·) ∧
    Inv (get_data_with conv (is_valid_input_run lit).2) := by
  have _ := hv
  have h := get_data_with_inv conv lit
  exact ⟨strictlyAscending_of_inv h, h.2, h.1, get_data_with_inv conv _⟩

theorem parse_strictly_ascending_witness :
    is_valid_input "\x7b3,1,2\x7d".toList = true ∧
    StrictlyAscending (get_data_with atoi "\x7b3,1,2\x7d".toList).1
      (get_data_with atoi "\x7b3,1,2\x7d".toList).2 :=
  ⟨by decide, (parse_strictly_ascending atoi "\x7b3,1,2\x7d".toList (by decide)).1⟩

/-- C7: for strictly ascending `A` and `B`, each of `get_union`, `get_intersection`,
`get_difference` and `get_disjunction` returns a strictly ascending array (I1) whose
length is the returned `newSize` (I2). -/
theorem algebra_preserves_invariants (A B : List Int) (hA : A.Sorted (· < ·))
    (hB : B.Sorted (· < ·)) :
    Inv (get_union A A.length B B.length) ∧
    Inv (get_intersection A A.length B B.length) ∧
    Inv (get_difference A A.length B B.length) ∧
    Inv (get_disjunction A A.length B B.length) := by
  have hU := (get_union_spec A B hB).1
  have hUeq : get_union A A.length B B.length =
      ((get_union A A.length B B.length).1, ((get_union A A.length B B.length).1.length : Int)) :=
    Prod.ext rfl hU.2
  refine ⟨hU, ?_, ?_, ?_⟩
  · rw [get_intersection_eq]
    exact inv_filter _ hA
  · rw [get_difference_eq]
    exact inv_filter _ hA
  · rw [get_disjunction_eq A B _ _ hUeq (get_intersection_eq A B)]
    exact inv_filter _ hU.1

theorem algebra_preserves_invariants_witness :
    List.Sorted (· < ·) [(1 : Int), 2, 3] ∧ List.Sorted (· < ·) [(2 : Int), 3, 4] ∧
    Inv (get_disjunction [1, 2, 3] ([(1 : Int), 2, 3].length : Int) [2, 3, 4]
      ([(2 : Int), 3, 4].length : Int)) :=
  ⟨by decide, by decide,
    (algebra_preserves_invariants [1, 2, 3] [2, 3, 4] (by decide) (by decide)).2.2.2⟩

/-- C8: for every strictly ascending `A`, the empty one included, and every integer `x`,
`num_exist` returns true exactly when `x` occurs in `A`. -/
theorem contains_iff_mem (A : List Int) (hA : A.Sorted (· < ·)) (x : Int) :
    num_exist A x A.length = true ↔ x ∈ A :=
  num_exist_iff_mem hA x

theorem contains_iff_mem_witness :
    List.Sorted (· < ·) [(1 : Int), 3, 5] ∧
    (num_exist [1, 3, 5] 3 ([(1 : Int), 3, 5].length : Int) = true ↔ (3 : Int) ∈ [(1 : Int), 3, 5]) :=
  ⟨by decide, contains_iff_mem [1, 3, 5] (by decide) 3⟩

/-- C9: for strictly ascending `A` and `B`, an integer occurs in the array of
`get_union` exactly when it occurs in `A` or in `B`, and the returned size is at most
`|A| + |B|`. -/
theorem union_mem_iff (A B : List Int) (hA : A.Sorted (· < ·)) (hB : B.Sorted (· < ·)) :
    (∀ x, x ∈ (get_union A A.length B B.length).1 ↔ x ∈ A ∨ x ∈ B) ∧
    (get_union A A.length B B.length).2 ≤ (A.length : Int) + B.length := by
  have _ := hA
  obtain ⟨_, h2, h3⟩ := get_union_spec A B hB
  exact ⟨h2, h3⟩

theorem union_mem_iff_witness :
    List.Sorted (· < ·) [(1 : Int), 2] ∧ List.Sorted (· < ·) [(2 : Int), 3] ∧
    (get_union [1, 2] ([(1 : Int), 2].length : Int) [2, 3] ([(2 : Int), 3].length : Int)).2 ≤
      (([(1 : Int), 2].length : Int)) + ([(2 : Int), 3].length : Int) :=
  ⟨by decide, by decide, (union_mem_iff [1, 2] [2, 3] (by decide) (by decide)).2⟩

/-- C10: for strictly ascending `A` and `B`, `get_intersection` returns the elements
of `A` that occur in `B`, in the order of `A`, and their number as size. -/
theorem intersection_eq_filter (A B : List Int) (hA : A.Sorted (· < ·))
    (hB : B.Sorted (· < ·)) :
    get_intersection A A.length B B.length =
      (A.filter (fun v => decide (v ∈ B)), ((A.filter (fun v => decide (v ∈ B))).length : Int)) := by
  have _ := hA
  rw [get_intersection_eq, filter_num_exist_eq A hB]

theorem intersection_eq_filter_witness :
    List.Sorted (· < ·) [(1 : Int), 2, 3] ∧ List.Sorted (· < ·) [(2 : Int), 3, 4] ∧
    get_intersection [1, 2, 3] ([(1 : Int), 2, 3].length : Int) [2, 3, 4]
      ([(2 : Int), 3, 4].length : Int) =
      ([(1 : Int), 2, 3].filter (fun v => decide (v ∈ [(2 : Int), 3, 4])),
        (([(1 : Int), 2, 3].filter (fun v => decide (v ∈ [(2 : Int), 3, 4]))).length : Int)) :=
  ⟨by decide, by decide, intersection_eq_filter [1, 2, 3] [2, 3, 4] (by decide) (by decide)⟩

/-- The algebra operations on the sequences named by the specification, evaluated. -/
theorem algebra_examples :
    get_union [1, 2] 2 [2, 3] 2 = ([1, 2, 3], 3) ∧
    get_intersection [1, 2, 3] 3 [2, 3, 4] 3 = ([2, 3], 2) ∧
    get_difference [1, 2, 3] 3 [2] 1 = ([1, 3], 2) ∧
    get_disjunction [1, 2, 3] 3 [2, 3, 4] 3 = ([1, 4], 2) ∧
    num_exist [] 5 0 = false := by decide

/-! ## Set-algebra laws -/

theorem inv_ext {s t : List Int × Int} (hs : Inv s) (ht : Inv t)
    (hm : ∀ x, x ∈ s.1 ↔ x ∈ t.1) : s = t := by
  have h1 : s.1 = t.1 := sorted_unique hs.1 ht.1 hm
  exact Prod.ext h1 (by rw [hs.2, ht.2, h1])

theorem get_intersection_spec (A B : List Int) (hA : A.Sorted (· < ·))
    (hB : B.Sorted (· < ·)) :
    Inv (get_intersection A A.length B B.length) ∧
    ∀ x, x ∈ (get_intersection A A.length B B.length).1 ↔ x ∈ A ∧ x ∈ B := by
  rw [get_intersection_eq, filter_num_exist_eq A hB]
  refine ⟨inv_filter _ hA, fun x => ?_⟩
  simp [List.mem_filter]

theorem get_difference_spec (A B : List Int) (hA : A.Sorted (· < ·))
    (hB : B.Sorted (· < ·)) :
    Inv (get_difference A A.length B B.length) ∧
    ∀ x, x ∈ (get_difference A A.length B B.length).1 ↔ x ∈ A ∧ x ∉ B := by
  rw [get_difference_eq, filter_not_num_exist_eq A hB]
  refine ⟨inv_filter _ hA, fun x => ?_⟩
  simp [List.mem_filter]

theorem pair_eta_of_inv {s : List Int × Int} (h : Inv s) : s = (s.1, (s.1.length : Int)) :=
  Prod.ext rfl h.2

theorem get_disjunction_spec (A B : List Int) (hA : A.Sorted (· < ·))
    (hB : B.Sorted (· < ·)) :
    Inv (get_disjunction A A.length B B.length) ∧
    ∀ x, x ∈ (get_disjunction A A.length B B.length).1 ↔
      (x ∈ A ∧ x ∉ B) ∨ (x ∈ B ∧ x ∉ A) := by
  obtain ⟨hU, hUm, _⟩ := get_union_spec A B hB
  obtain ⟨hI, hIm⟩ := get_intersection_spec A B hA hB
  rw [get_disjunction_eq A B _ _ (pair_eta_of_inv hU) (pair_eta_of_inv hI),
    filter_not_num_exist_eq _ hI.1]
  refine ⟨inv_filter _ hU.1, fun x => ?_⟩
  simp only [List.mem_filter, decide_eq_true_eq, hUm, hIm]
  tauto

theorem get_union_inv_args (s t : List Int × Int) (hs : Inv s) (ht : Inv t) :
    Inv (get_union s.1 s.2 t.1 t.2) ∧
    ∀ x, x ∈ (get_union s.1 s.2 t.1 t.2).1 ↔ x ∈ s.1 ∨ x ∈ t.1 := by
  rw [hs.2, ht.2]
  obtain ⟨h1, h2, _⟩ := get_union_spec s.1 t.1 ht.1
  exact ⟨h1, h2⟩

theorem length_eq_card {L : List Int} (h : L.Sorted (· < ·)) : L.length = L.toFinset.card :=
  (List.toFinset_card_of_nodup h.nodup).symm

theorem union_inter_card (A B : List Int) (hA : A.Sorted (· < ·)) (hB : B.Sorted (· < ·)) :
    (get_union A A.length B B.length).2 + (get_intersection A A.length B B.length).2 =
      (A.length : Int) + B.length := by
  obtain ⟨hU, hUm, _⟩ := get_union_spec A B hB
  obtain ⟨hI, hIm⟩ := get_intersection_spec A B hA hB
  have eU : (get_union A A.length B B.length).1.toFinset = A.toFinset ∪ B.toFinset := by
    ext x; simp [hUm]
  have eI : (get_intersection A A.length B B.length).1.toFinset = A.toFinset ∩ B.toFinset := by
    ext x; simp [hIm]
  rw [hU.2, hI.2, length_eq_card hU.1, length_eq_card hI.1, eU, eI, length_eq_card hA,
    length_eq_card hB]
  exact_mod_cast Finset.card_union_add_card_inter A.toFinset B.toFinset

/-! ## Subset and equality tests -/

theorem is_subset_iff (A B : List Int) (hA : A.Sorted (· < ·)) :
    is_subset A A.length B B.length = true ↔ ∀ x ∈ B, x ∈ A := by
  unfold is_subset
  rw [Int.toNat_natCast, List.all_eq_true]
  constructor
  · intro h x hx
    obtain ⟨k, hk, rfl⟩ := List.getElem_of_mem hx
    have := h k (List.mem_range.mpr hk)
    rw [rd_natCast B k hk] at this
    exact (num_exist_iff_mem hA _).mp this
  · intro h i hi
    have hi2 : i < B.length := List.mem_range.mp hi
    exact (num_exist_iff_mem hA _).mpr (h _ (rd_mem B i (by omega) (by omega)))

theorem is_equal_iff (A B : List Int) :
    is_equal A A.length B B.length = true ↔ A = B := by
  unfold is_equal
  constructor
  · intro h
    by_cases hne : (A.length : Int) ≠ B.length
    · rw [if_pos hne] at h
      exact absurd h Bool.false_ne_true
    · rw [if_neg hne, Int.toNat_natCast, List.all_eq_true] at h
      have hlen : A.length = B.length := by omega
      apply List.ext_getElem hlen
      intro n h1 h2
      have := h n (List.mem_range.mpr h1)
      rw [rd_natCast A n h1, rd_natCast B n h2] at this
      simpa using this
  · rintro rfl
    simp

/-- C11: for strictly ascending `A` and `B`, `get_difference` (and the entry point
`difference`) returns the elements of `A` that do not occur in `B`, in the order of
`A`, and their number as size. -/
theorem difference_eq_filter (A B : List Int) (hA : A.Sorted (· < ·))
    (hB : B.Sorted (· < ·)) :
    get_difference A A.length B B.length =
      (A.filter (fun v => decide (v ∉ B)),
        ((A.filter (fun v => decide (v ∉ B))).length : Int)) ∧
    difference (A, (A.length : Int)) (B, (B.length : Int)) =
      (A.filter (fun v => decide (v ∉ B)),
        ((A.filter (fun v => decide (v ∉ B))).length : Int)) := by
  have _ := hA
  have h : get_difference A A.length B B.length =
      (A.filter (fun v => decide (v ∉ B)),
        ((A.filter (fun v => decide (v ∉ B))).length : Int)) := by
    rw [get_difference_eq, filter_not_num_exist_eq A hB]
  exact ⟨h, h⟩

theorem difference_eq_filter_witness :
    List.Sorted (· < ·) [(1 : Int), 2, 3] ∧ List.Sorted (· < ·) [(2 : Int)] ∧
    get_difference [1, 2, 3] ([(1 : Int), 2, 3].length : Int) [2] ([(2 : Int)].length : Int) =
      ([(1 : Int), 2, 3].filter (fun v => decide (v ∉ [(2 : Int)])),
        (([(1 : Int), 2, 3].filter (fun v => decide (v ∉ [(2 : Int)]))).length : Int)) :=
  ⟨by decide, by decide, (difference_eq_filter [1, 2, 3] [2] (by decide) (by decide)).1⟩

/-- C12: for strictly ascending `A` and `B`, the array and size of `get_disjunction`
(the union minus the intersection) are those of `get_union` applied to
`get_difference A B` and `get_difference B A`, and the array holds exactly the
integers that occur in exactly one of `A` and `B`. -/
theorem disjunction_eq_union_of_differences (A B : List Int) (hA : A.Sorted (· < ·))
    (hB : B.Sorted (· < ·)) :
    get_disjunction A A.length B B.length =
      get_union (get_difference A A.length B B.length).1
        (get_difference A A.length B B.length).2
        (get_difference B B.length A A.length).1
        (get_difference B B.length A A.length).2 ∧
    (∀ x, x ∈ (get_disjunction A A.length B B.length).1 ↔
      (x ∈ A ∧ x ∉ B) ∨ (x ∈ B ∧ x ∉ A)) := by
  obtain ⟨hD, hDm⟩ := get_disjunction_spec A B hA hB
  obtain ⟨h1, h1m⟩ := get_difference_spec A B hA hB
  obtain ⟨h2, h2m⟩ := get_difference_spec B A hB hA
  obtain ⟨hU, hUm⟩ := get_union_inv_args _ _ h1 h2
  refine ⟨inv_ext hD hU (fun x => ?_), hDm⟩
  rw [hDm, hUm, h1m, h2m]

theorem disjunction_eq_union_of_differences_witness :
    List.Sorted (· < ·) [(1 : Int), 2, 3] ∧ List.Sorted (· < ·) [(2 : Int), 3, 4] ∧
    (∀ x, x ∈ (get_disjunction [1, 2, 3] ([(1 : Int), 2, 3].length : Int) [2, 3, 4]
        ([(2 : Int), 3, 4].length : Int)).1 ↔
      (x ∈ [(1 : Int), 2, 3] ∧ x ∉ [(2 : Int), 3, 4]) ∨
        (x ∈ [(2 : Int), 3, 4] ∧ x ∉ [(1 : Int), 2, 3])) :=
  ⟨by decide, by decide,
    (disjunction_eq_union_of_differences [1, 2, 3] [2, 3, 4] (by decide) (by decide)).2⟩

/-- C13: for strictly ascending `A` and `B`, `get_union A B` and `get_union B A` are
the same array with the same size, although the helper copies its second operand
and inserts the first; so are the results of the entry point `union_set`. -/
theorem get_union_comm (A B : List Int) (hA : A.Sorted (· < ·)) (hB : B.Sorted (· < ·)) :
    get_union A A.length B B.length = get_union B B.length A A.length ∧
    union_set (A, (A.length : Int)) (B, (B.length : Int)) =
      union_set (B, (B.length : Int)) (A, (A.length : Int)) := by
  obtain ⟨h1, h1m, _⟩ := get_union_spec A B hB
  obtain ⟨h2, h2m, _⟩ := get_union_spec B A hA
  have h : get_union A A.length B B.length = get_union B B.length A A.length :=
    inv_ext h1 h2 (fun x => by rw [h1m, h2m]; exact Or.comm)
  exact ⟨h, h⟩

theorem get_union_comm_witness :
    List.Sorted (· < ·) [(1 : Int), 2] ∧ List.Sorted (· < ·) [(2 : Int), 3] ∧
    get_union [1, 2] ([(1 : Int), 2].length : Int) [2, 3] ([(2 : Int), 3].length : Int) =
      get_union [2, 3] ([(2 : Int), 3].length : Int) [1, 2] ([(1 : Int), 2].length : Int) :=
  ⟨by decide, by decide, (get_union_comm [1, 2] [2, 3] (by decide) (by decide)).1⟩

/-- C14: for strictly ascending `A` and `B`, `get_intersection A B` and
`get_intersection B A` are the same array with the same size, so the entry point
`intersection`, which calls the helper on `B`, `A`, returns what the call on `A`, `B`
returns. -/
theorem get_intersection_comm (A B : List Int) (hA : A.Sorted (· < ·)) (hB : B.Sorted (· < ·)) :
    get_intersection A A.length B B.length = get_intersection B B.length A A.length ∧
    intersection (A, (A.length : Int)) (B, (B.length : Int)) =
      get_intersection A A.length B B.length := by
  obtain ⟨h1, h1m⟩ := get_intersection_spec A B hA hB
  obtain ⟨h2, h2m⟩ := get_intersection_spec B A hB hA
  have h : get_intersection A A.length B B.length = get_intersection B B.length A A.length :=
    inv_ext h1 h2 (fun x => by rw [h1m, h2m]; exact And.comm)
  exact ⟨h, h.symm⟩

theorem get_intersection_comm_witness :
    List.Sorted (· < ·) [(1 : Int), 2, 3] ∧ List.Sorted (· < ·) [(2 : Int), 3, 4] ∧
    get_intersection [1, 2, 3] ([(1 : Int), 2, 3].length : Int) [2, 3, 4]
        ([(2 : Int), 3, 4].length : Int) =
      get_intersection [2, 3, 4] ([(2 : Int), 3, 4].length : Int) [1, 2, 3]
        ([(1 : Int), 2, 3].length : Int) :=
  ⟨by decide, by decide, (get_intersection_comm [1, 2, 3] [2, 3, 4] (by decide) (by decide)).1⟩

/-- C15: for strictly ascending `A` and `B`, the `newSize` of `get_union` plus the
`newSize` of `get_intersection` is `|A| + |B|`; so it is for the cardinalities of
the sets the entry points return. -/
theorem union_intersection_cardinality (A B : List Int) (hA : A.Sorted (· < ·))
    (hB : B.Sorted (· < ·)) :
    (get_union A A.length B B.length).2 + (get_intersection A A.length B B.length).2 =
      (A.length : Int) + B.length ∧
    get_cardinality (union_set (A, (A.length : Int)) (B, (B.length : Int))) +
      get_cardinality (intersection (A, (A.length : Int)) (B, (B.length : Int))) =
      get_cardinality (A, (A.length : Int)) + get_cardinality (B, (B.length : Int)) := by
  have h := union_inter_card A B hA hB
  refine ⟨h, ?_⟩
  have hc : get_intersection B B.length A A.length = get_intersection A A.length B B.length :=
    inv_ext (get_intersection_spec B A hB hA).1 (get_intersection_spec A B hA hB).1
      (fun x => by
        rw [(get_intersection_spec B A hB hA).2, (get_intersection_spec A B hA hB).2]
        exact And.comm)
  unfold get_cardinality union_set intersection
  simp only
  rw [hc]
  exact h

theorem union_intersection_cardinality_witness :
    List.Sorted (· < ·) [(1 : Int), 2, 3] ∧ List.Sorted (· < ·) [(2 : Int), 3, 4] ∧
    (get_union [1, 2, 3] ([(1 : Int), 2, 3].length : Int) [2, 3, 4]
        ([(2 : Int), 3, 4].length : Int)).2 +
      (get_intersection [1, 2, 3] ([(1 : Int), 2, 3].length : Int) [2, 3, 4]
        ([(2 : Int), 3, 4].length : Int)).2 =
      ([(1 : Int), 2, 3].length : Int) + ([(2 : Int), 3, 4].length : Int) :=
  ⟨by decide, by decide,
    (union_intersection_cardinality [1, 2, 3] [2, 3, 4] (by decide) (by decide)).1⟩

/-- C16: for strictly ascending `A` and `B`, `is_subset A B` returns true exactly when
every element of `B` occurs in `A`; hence `contains_all A B` holds exactly when `B` is
a subset of `A`, `contains_only A B` is `contains_all B A`, and `is_subset` of `A` and
the intersection of `A` and `B` is true. -/
theorem subset_iff_all_mem (A B : List Int) (hA : A.Sorted (· < ·)) (hB : B.Sorted (· < ·)) :
    (is_subset A A.length B B.length = true ↔ ∀ x ∈ B, x ∈ A) ∧
    (contains_all (A, (A.length : Int)) (B, (B.length : Int)) = true ↔ ∀ x ∈ B, x ∈ A) ∧
    contains_only (A, (A.length : Int)) (B, (B.length : Int)) =
      contains_all (B, (B.length : Int)) (A, (A.length : Int)) ∧
    is_subset A A.length (get_intersection A A.length B B.length).1
      (get_intersection A A.length B B.length).2 = true := by
  refine ⟨is_subset_iff A B hA, is_subset_iff A B hA, rfl, ?_⟩
  obtain ⟨hI, hIm⟩ := get_intersection_spec A B hA hB
  rw [hI.2, is_subset_iff A _ hA]
  intro x hx
  exact ((hIm x).mp hx).1

theorem subset_iff_all_mem_witness :
    List.Sorted (· < ·) [(1 : Int), 2, 3] ∧ List.Sorted (· < ·) [(1 : Int), 3] ∧
    (is_subset [1, 2, 3] ([(1 : Int), 2, 3].length : Int) [1, 3] ([(1 : Int), 3].length : Int)
      = true ↔ ∀ x ∈ [(1 : Int), 3], x ∈ [(1 : Int), 2, 3]) :=
  ⟨by decide, by decide, (subset_iff_all_mem [1, 2, 3] [1, 3] (by decide) (by decide)).1⟩

/-- C17: for strictly ascending `A` and `B`, `is_equal A B` (equal sizes and equal
cells at every index) returns true exactly when `is_subset A B` and `is_subset B A`
both return true, that is when `A` and `B` hold the same integers. -/
theorem equal_iff_mutual_subset (A B : List Int) (hA : A.Sorted (· < ·))
    (hB : B.Sorted (· < ·)) :
    (is_equal A A.length B B.length = true ↔
      is_subset A A.length B B.length = true ∧ is_subset B B.length A A.length = true) ∧
    (is_equal A A.length B B.length = true ↔ ∀ x, x ∈ A ↔ x ∈ B) ∧
    (equal (A, (A.length : Int)) (B, (B.length : Int)) = true ↔ ∀ x, x ∈ A ↔ x ∈ B) := by
  have hmem : is_equal A A.length B B.length = true ↔ ∀ x, x ∈ A ↔ x ∈ B := by
    rw [is_equal_iff]
    constructor
    · rintro rfl x; exact Iff.rfl
    · exact sorted_unique hA hB
  refine ⟨?_, hmem, ?_⟩
  · rw [hmem, is_subset_iff A B hA, is_subset_iff B A hB]
    constructor
    · intro h
      exact ⟨fun x hx => (h x).mpr hx, fun x hx => (h x).mp hx⟩
    · rintro ⟨h1, h2⟩ x
      exact ⟨h2 x, h1 x⟩
  · unfold equal
    simp only
    rw [is_equal_iff]
    constructor
    · rintro h x; rw [h]
    · intro h; exact (sorted_unique hA hB h).symm

theorem equal_iff_mutual_subset_witness :
    List.Sorted (· < ·) [(1 : Int), 2] ∧ List.Sorted (· < ·) [(1 : Int), 2] ∧
    (is_equal [1, 2] ([(1 : Int), 2].length : Int) [1, 2] ([(1 : Int), 2].length : Int) = true ↔
      is_subset [1, 2] ([(1 : Int), 2].length : Int) [1, 2] ([(1 : Int), 2].length : Int)
        = true ∧
      is_subset [1, 2] ([(1 : Int), 2].length : Int) [1, 2] ([(1 : Int), 2].length : Int)
        = true) :=
  ⟨by decide, by decide, (equal_iff_mutual_subset [1, 2] [1, 2] (by decide) (by decide)).1⟩

/-- The subset and equality tests on small sequences, evaluated. -/
theorem subset_equal_examples :
    is_subset [1, 2, 3] 3 [1, 3] 2 = true ∧
    is_subset [1, 3] 2 [1, 2, 3] 3 = false ∧
    is_equal [1, 2] 2 [1, 2] 2 = true ∧
    is_equal [1, 2] 2 [1, 3] 2 = false ∧
    is_equal [1, 2] 2 [1, 2, 3] 3 = false ∧
    is_subset [1, 2, 3] 3 [] 0 = true := by decide
/-! ## Tokens with the same value -/

theorem char_of_digit (d : Char) (h : isdigit d = true) : Char.ofNat (48 + (d.toNat - 48)) = d := by
  unfold isdigit at h
  simp only [Bool.and_eq_true, decide_eq_true_eq] at h
  have : 48 + (d.toNat - 48) = d.toNat := by omega
  rw [this, Char.ofNat_toNat]

theorem digit_pos_of_ne_zero (d : Char) (h : isdigit d = true) (h0 : d ≠ '0') :
    0 < d.toNat - 48 ∧ d.toNat - 48 < 10 := by
  unfold isdigit at h
  simp only [Bool.and_eq_true, decide_eq_true_eq] at h
  have hne : d.toNat ≠ 48 := by
    intro h48
    apply h0
    have := congrArg Char.ofNat h48
    rwa [Char.ofNat_toNat] at this
  omega

theorem numeral_of_no_leading_zero : ∀ (t : List Char), t ≠ [] →
    (∀ c ∈ t, isdigit c = true) → t.head? ≠ some '0' →
    t = decimal (decimal_value t) ∧ 0 < decimal_value t := by
  intro t
  induction t using List.reverseRecOn with
  | nil => intro h; exact absurd rfl h
  | append_singleton m d ih =>
    intro _ hd hh
    have hdd : isdigit d = true := hd d (by simp)
    have hlt : d.toNat - 48 < 10 := by
      unfold isdigit at hdd
      simp only [Bool.and_eq_true, decide_eq_true_eq] at hdd
      omega
    rw [decimal_value_append]
    by_cases hm : m = []
    · subst hm
      have h0 : d ≠ '0' := by
        intro h; apply hh; rw [h]; rfl
      obtain ⟨hp, _⟩ := digit_pos_of_ne_zero d hdd h0
      have hv : decimal_value [] = 0 := rfl
      rw [hv]
      simp only [Nat.mul_zero, Nat.zero_add, List.nil_append]
      exact ⟨by rw [decimal_lt_ten _ hlt, char_of_digit d hdd], hp⟩
    · have hmh : m.head? ≠ some '0' := by
        intro h
        apply hh
        obtain ⟨c, m2, rfl⟩ := List.exists_cons_of_ne_nil hm
        simpa using h
      obtain ⟨e, hpos⟩ := ih hm (fun c hc => hd c (by simp [hc])) hmh
      have hge : ¬ 10 * decimal_value m + (d.toNat - 48) < 10 := by omega
      have hdiv : (10 * decimal_value m + (d.toNat - 48)) / 10 = decimal_value m := by omega
      have hmod : (10 * decimal_value m + (d.toNat - 48)) % 10 = d.toNat - 48 := by omega
      refine ⟨?_, by omega⟩
      rw [decimal_ge_ten _ hge, hdiv, hmod, ← e, char_of_digit d hdd]

theorem strip_zeros_eq (ds : List Char) (hd : ∀ c ∈ ds, isdigit c = true) :
    ds.dropWhile (fun c : Char => decide (c = '0')) =
      if decimal_value ds = 0 then [] else decimal (decimal_value ds) := by
  have hsplit := List.takeWhile_append_dropWhile (fun c : Char => decide (c = '0')) ds
  have hz : ∀ c ∈ ds.takeWhile (fun c : Char => decide (c = '0')), c = '0' := by
    intro c hc
    simpa using List.mem_takeWhile_imp hc
  have hval := decimal_value_zeros _ (ds.dropWhile (fun c : Char => decide (c = '0'))) hz
  rw [hsplit] at hval
  by_cases hnil : ds.dropWhile (fun c : Char => decide (c = '0')) = []
  · rw [hval, hnil]
    rfl
  · have hh : (ds.dropWhile (fun c : Char => decide (c = '0'))).head? ≠ some '0' := by
      intro h
      have := List.head?_dropWhile_not (fun c : Char => decide (c = '0')) ds
      rw [h] at this
      simp at this
    obtain ⟨e, hpos⟩ := numeral_of_no_leading_zero _ hnil
      (fun c hc => hd c (List.dropWhile_subset _ hc)) hh
    rw [hval, if_neg (by omega)]
    exact e

theorem parse_token_eq_strip (conv : List Char → Int) (ds : List Char)
    (hd : ∀ c ∈ ds, isdigit c = true) :
    parse_token conv ds = conv (ds.dropWhile (fun c : Char => decide (c = '0'))) := by
  obtain ⟨z, t, hds, htk, hdr⟩ : ∃ z t, ds = z ++ t ∧
      ds.takeWhile (fun c : Char => decide (c = '0')) = z ∧
      ds.dropWhile (fun c : Char => decide (c = '0')) = t :=
    ⟨_, _, (List.takeWhile_append_dropWhile _ ds).symm, rfl, rfl⟩
  unfold parse_token
  dsimp only
  rw [htk, hdr]
  subst hds
  have htd : ∀ c ∈ t, isdigit c = true := fun c hc => hd c (List.mem_append_right _ hc)
  by_cases hall : z.length ≥ (z ++ t).length
  · rw [if_pos hall]
    have ht0 : t = [] := List.length_eq_zero.mp (by rw [List.length_append] at hall; omega)
    subst ht0
    have : ((z ++ [] ++ [NUL]).drop z.length).take 1 = [NUL] := by simp
    rw [this]
    rfl
  · rw [if_neg hall]
    have e : (z ++ t ++ [NUL]).drop z.length = t ++ [NUL] := by
      rw [List.append_assoc, List.drop_left]
    have e2 : (z ++ t).length - z.length = t.length := by simp
    rw [e, e2, List.take_left]
    have e3 : cstr t = t := by
      unfold cstr
      rw [List.takeWhile_eq_self_iff]
      intro c hc
      simpa using isdigit_ne_nul (htd c hc)
    rw [e3]

/-- The integer that the token loop of `get_data` gives for a digit token depends on
the value of the token only. -/
theorem parse_token_of_value (conv : List Char → Int) (ds : List Char)
    (hd : ∀ c ∈ ds, isdigit c = true) :
    parse_token conv ds =
      conv (if decimal_value ds = 0 then [] else decimal (decimal_value ds)) := by
  rw [parse_token_eq_strip conv ds hd, strip_zeros_eq ds hd]

theorem get_data_with_digits (conv : List Char → Int) (w1 body w2 : List Char)
    (dss : List (List Char))
    (h1 : ∀ x ∈ w1, isspace x = true) (h2 : ∀ x ∈ w2, isspace x = true)
    (hne : dss ≠ []) (hd : ∀ ds ∈ dss, ds ≠ [] ∧ ∀ c ∈ ds, isdigit c = true)
    (hb : body.filter (· ≠ ' ') = [','].intercalate dss) :
    get_data_with conv (w1 ++ '{' :: body ++ '}' :: w2) =
      (dss.map (fun t => conv (if decimal_value t = 0 then []
        else decimal (decimal_value t)))).foldl insert_if_absent ([], 0) := by
  rw [get_data_frame conv w1 body w2 h1 h2, hb, strtok_digits dss hne hd]
  congr 1
  apply List.map_congr_left
  intro ds h
  exact parse_token_of_value conv ds (hd ds h).2

/-- The parser with an arbitrary conversion on an accepted literal, run on the literal
and on the buffer that the validator leaves behind. -/
theorem parse_valid_conv (conv : List Char → Int) (lit : List Char)
    (hv : is_valid_input lit = true) :
    get_data_with conv lit =
      ((literal_values lit).map (fun v => conv (if v.toNat = 0 then []
        else decimal v.toNat))).foldl insert_if_absent ([], 0) ∧
    get_data_with conv (is_valid_input_run lit).2 =
      ((literal_values lit).map (fun v => conv (if v.toNat = 0 then []
        else decimal v.toNat))).foldl insert_if_absent ([], 0) := by
  obtain ⟨a, b, ⟨n, rfl⟩ | ⟨es, hne, he, rfl⟩⟩ := grammar_of_valid lit hv
  · unfold literal_values
    rw [literal_tokens_empty, run_empty_literal]
    refine ⟨get_data_empty conv _ _ n isspace_of_mem_spaces isspace_of_mem_spaces, ?_⟩
    have := get_data_empty conv [] [] 0 (by simp) (by simp)
    simpa [spaces] using this
  · have hd : ∀ ds ∈ es.map (List.filter (· ≠ ' ')), ds ≠ [] ∧ ∀ c ∈ ds, isdigit c = true := by
      intro ds h
      obtain ⟨e, hmem, rfl⟩ := List.mem_map.mp h
      exact element_filter (he e hmem)
    have hne2 : es.map (List.filter (· ≠ ' ')) ≠ [] := by simpa using hne
    unfold literal_values
    rw [literal_tokens_elements a b es hne he, run_element_literal a b es hne he]
    have hmm : ((es.map (List.filter (· ≠ ' '))).map (fun t => (decimal_value t : Int))).map
        (fun v => conv (if v.toNat = 0 then [] else decimal v.toNat)) =
        (es.map (List.filter (· ≠ ' '))).map (fun t => conv (if decimal_value t = 0 then []
          else decimal (decimal_value t))) := by
      rw [List.map_map]
      apply List.map_congr_left
      intro t _
      simp
    rw [hmm]
    refine ⟨get_data_with_digits conv _ _ _ _ isspace_of_mem_spaces isspace_of_mem_spaces hne2 hd
      (filter_intercalate _ (by decide) es), ?_⟩
    have hb : ([','].intercalate (es.map (List.filter (· ≠ ' ')))).filter (· ≠ ' ') =
        [','].intercalate (es.map (List.filter (· ≠ ' '))) := by
      rw [List.filter_eq_self]
      intro c hc
      rcases mem_intercalate hc with rfl | ⟨ds, hds, hcd⟩
      · decide
      · simpa using isdigit_ne_space ((hd ds hds).2 c hcd)
    have := get_data_with_digits conv [] _ [] _ (by simp) (by simp) hne2 hd hb
    rw [List.nil_append] at this
    exact this

theorem foldl_insert_congr (L1 L2 : List Int) (h : ∀ x, x ∈ L1 ↔ x ∈ L2) :
    L1.foldl insert_if_absent ([], 0) = L2.foldl insert_if_absent ([], 0) := by
  obtain ⟨i1, m1, _⟩ := foldl_insert_if_absent_spec L1 ([], 0) inv_nil
  obtain ⟨i2, m2, _⟩ := foldl_insert_if_absent_spec L2 ([], 0) inv_nil
  apply inv_ext i1 i2
  intro x
  rw [m1, m2]
  simp [h]

theorem intset_in_eq (lit : List Char) (hv : is_valid_input lit = true) :
    intset_in lit = some (get_data (is_valid_input_run lit).2) := by
  unfold intset_in
  unfold is_valid_input at hv
  rw [hv]
  rfl
/-- C18: two accepted literals whose tokens denote the same set of values are parsed to
the same array and size, whatever the order and the repetitions of the tokens and
whatever integer the conversion gives for a value (the conversion is a parameter);
so they are by `get_data` itself and through `intset_in`. -/
theorem parse_same_values (conv : List Char → Int) (lit1 lit2 : List Char)
    (h1 : is_valid_input lit1 = true) (h2 : is_valid_input lit2 = true)
    (hs : ∀ v, v ∈ literal_values lit1 ↔ v ∈ literal_values lit2) :
    get_data_with conv lit1 = get_data_with conv lit2 ∧
    get_data lit1 = get_data lit2 ∧
    intset_in lit1 = intset_in lit2 := by
  have key : ∀ cv : List Char → Int,
      ((literal_values lit1).map (fun v => cv (if v.toNat = 0 then []
        else decimal v.toNat))).foldl insert_if_absent ([], 0) =
      ((literal_values lit2).map (fun v => cv (if v.toNat = 0 then []
        else decimal v.toNat))).foldl insert_if_absent ([], 0) := by
    intro cv
    apply foldl_insert_congr
    intro x
    simp only [List.mem_map]
    constructor
    · rintro ⟨v, hv, rfl⟩
      exact ⟨v, (hs v).mp hv, rfl⟩
    · rintro ⟨v, hv, rfl⟩
      exact ⟨v, (hs v).mpr hv, rfl⟩
  refine ⟨?_, ?_, ?_⟩
  · rw [(parse_valid_conv conv lit1 h1).1, (parse_valid_conv conv lit2 h2).1]
    exact key conv
  · unfold get_data
    rw [(parse_valid_conv atoi lit1 h1).1, (parse_valid_conv atoi lit2 h2).1]
    exact key atoi
  · rw [intset_in_eq lit1 h1, intset_in_eq lit2 h2]
    unfold get_data
    rw [(parse_valid_conv atoi lit1 h1).2, (parse_valid_conv atoi lit2 h2).2]
    exact congrArg some (key atoi)

theorem parse_same_values_witness :
    is_valid_input "\x7b3,1,3,2\x7d".toList = true ∧
    is_valid_input "\x7b1,2,3\x7d".toList = true ∧
    get_data "\x7b3,1,3,2\x7d".toList = get_data "\x7b1,2,3\x7d".toList :=
  ⟨by decide, by decide,
    (parse_same_values atoi "\x7b3,1,3,2\x7d".toList "\x7b1,2,3\x7d".toList (by decide)
      (by decide) (by
        have e1 : literal_values "\x7b3,1,3,2\x7d".toList = [3, 1, 3, 2] := by decide
        have e2 : literal_values "\x7b1,2,3\x7d".toList = [1, 2, 3] := by decide
        intro v
        rw [e1, e2]
        simp only [List.mem_cons, List.mem_singleton, List.not_mem_nil, or_false]
        tauto)).2.1⟩

/-- The parses named by the specification for reordered and repeated tokens, evaluated. -/
theorem parse_reorder_examples :
    get_data "\x7b3,1,3,2\x7d".toList = ([1, 2, 3], 3) ∧
    get_data "\x7b1,2,3\x7d".toList = ([1, 2, 3], 3) := by decide

/-! ## Misplaced commas -/

theorem head?_filter_of_head? (p : Char → Bool) (l : List Char) (c : Char)
    (h : l.head? = some c) (hp : p c = true) : (l.filter p).head? = some c := by
  cases l with
  | nil => simp at h
  | cons a l =>
    simp only [List.head?_cons, Option.some.injEq] at h
    subst h
    rw [List.filter_cons_of_pos hp]
    rfl

theorem getLast?_filter_of_getLast? (p : Char → Bool) (l : List Char) (c : Char)
    (h : l.getLast? = some c) (hp : p c = true) : (l.filter p).getLast? = some c := by
  obtain ⟨m, rfl⟩ := List.getLast?_eq_some_iff.mp h
  rw [List.filter_append, List.filter_cons_of_pos hp, List.filter_nil]
  simp

theorem literal_body_framed (a b : Nat) (X : List Char) :
    literal_body (spaces a ++ '{' :: X ++ '}' :: spaces b) = X := by
  unfold literal_body
  rw [trim_framed]
  simp

/-- The commas of an accepted literal: never two in a row once the spaces are removed,
none at either end of the body. -/
theorem valid_comma_shape (lit : List Char) (hv : is_valid_input lit = true) :
    has_double_comma (lit.filter (· ≠ ' ')) = false ∧
    ((literal_body lit).filter (· ≠ ' ')).head? ≠ some ',' ∧
    ((literal_body lit).filter (· ≠ ' ')).getLast? ≠ some ',' := by
  obtain ⟨a, b, ⟨n, rfl⟩ | ⟨es, hne, he, rfl⟩⟩ := grammar_of_valid lit hv
  · rw [literal_body_framed, filter_frame, filter_spaces, filter_spaces, filter_spaces]
    exact ⟨by decide, by simp, by simp⟩
  · have hd : ∀ ds ∈ es.map (List.filter (· ≠ ' ')), ds ≠ [] ∧ ∀ c ∈ ds, isdigit c = true := by
      intro ds h
      obtain ⟨e, hmem, rfl⟩ := List.mem_map.mp h
      exact element_filter (he e hmem)
    have hne2 : es.map (List.filter (· ≠ ' ')) ≠ [] := by simpa using hne
    have hclean : ∀ ds ∈ es.map (List.filter (· ≠ ' ')), ds ≠ [] ∧ ',' ∉ ds :=
      fun ds h => ⟨(hd ds h).1, comma_not_mem_digits ds (hd ds h).2⟩
    obtain ⟨d0, X0, hd0, hX0⟩ := intercalate_head_digit _ hne2 hd
    obtain ⟨X1, d1, hd1, hX1⟩ := intercalate_last_digit _ hne2 hd
    rw [literal_body_framed, filter_frame, filter_spaces, filter_spaces,
      filter_intercalate _ (by decide)]
    refine ⟨?_, ?_, ?_⟩
    · rw [List.nil_append, List.cons_append, hdc_cons_ne _ _ (by decide)]
      exact hdc_intercalate_digits _ hne2 hclean
    · rw [hX0]
      intro h
      simp only [List.head?_cons, Option.some.injEq] at h
      exact isdigit_ne_comma hd0 h
    · rw [hX1]
      intro h
      have hl : (X1 ++ [d1]).getLast? = some d1 := List.getLast?_eq_some_iff.mpr ⟨X1, rfl⟩
      rw [hl] at h
      exact isdigit_ne_comma hd1 (Option.some.inj h)

/-- C19: a literal that holds two consecutive commas once its space characters are
removed, or whose body between the outer braces begins or ends with a comma (with
or without the spaces of the body counted), is rejected by `is_valid_input`. -/
theorem validate_rejects_misplaced_commas (lit : List Char)
    (h : (∃ x y : List Char, lit.filter (· ≠ ' ') = x ++ ',' :: ',' :: y) ∨
      (literal_body lit).head? = some ',' ∨
      (literal_body lit).getLast? = some ',' ∨
      ((literal_body lit).filter (· ≠ ' ')).head? = some ',' ∨
      ((literal_body lit).filter (· ≠ ' ')).getLast? = some ',') :
    is_valid_input lit = false := by
  rw [← Bool.not_eq_true]
  intro hv
  obtain ⟨s1, s2, s3⟩ := valid_comma_shape lit hv
  rcases h with ⟨x, y, h⟩ | h | h | h | h
  · rw [h, hdc_append_right x _ (hdc_comma_comma y)] at s1
    exact Bool.false_ne_true s1.symm
  · exact s2 (head?_filter_of_head? _ _ _ h (by decide))
  · exact s3 (getLast?_filter_of_getLast? _ _ _ h (by decide))
  · exact s2 h
  · exact s3 h

theorem validate_rejects_misplaced_commas_witness :
    ((∃ x y : List Char,
        "\x7b1, ,2\x7d".toList.filter (· ≠ ' ') = x ++ ',' :: ',' :: y) ∨
      (literal_body "\x7b1, ,2\x7d".toList).head? = some ',' ∨
      (literal_body "\x7b1, ,2\x7d".toList).getLast? = some ',' ∨
      ((literal_body "\x7b1, ,2\x7d".toList).filter (· ≠ ' ')).head? = some ',' ∨
      ((literal_body "\x7b1, ,2\x7d".toList).filter (· ≠ ' ')).getLast? = some ',') ∧
    is_valid_input "\x7b1, ,2\x7d".toList = false :=
  ⟨Or.inl ⟨['{', '1'], ['2', '}'], by decide⟩,
    validate_rejects_misplaced_commas "\x7b1, ,2\x7d".toList
      (Or.inl ⟨['{', '1'], ['2', '}'], by decide⟩)⟩

/-- The rejections named by the specification for misplaced commas, evaluated. -/
theorem misplaced_comma_examples :
    is_valid_input "\x7b1,,2\x7d".toList = false ∧
    is_valid_input "\x7b1,2,\x7d".toList = false ∧
    is_valid_input "\x7b ,1\x7d".toList = false ∧
    is_valid_input "\x7b1, \x7d".toList = false := by decide

/-- C20: every literal made of spaces, `{`, spaces, `}`, spaces (each run possibly
empty) is accepted by `is_valid_input` and parsed to the empty array with size 0,
by `get_data` itself and through `intset_in`; `to_string` of that sequence is `{}`,
whatever the C library does in the `sprintf` call, which is not reached at size 0. -/
theorem empty_literal (sprintf : List Char → Int → List Char) (a n b : Nat) :
    is_valid_input (spaces a ++ '{' :: spaces n ++ '}' :: spaces b) = true ∧
    get_data (spaces a ++ '{' :: spaces n ++ '}' :: spaces b) = ([], 0) ∧
    intset_in (spaces a ++ '{' :: spaces n ++ '}' :: spaces b) = some ([], 0) ∧
    to_string sprintf (get_data (spaces a ++ '{' :: spaces n ++ '}' :: spaces b)).1
      (get_data (spaces a ++ '{' :: spaces n ++ '}' :: spaces b)).2 = ['{', '}'] := by
  have hg : get_data (spaces a ++ '{' :: spaces n ++ '}' :: spaces b) = ([], 0) :=
    get_data_empty atoi _ _ n isspace_of_mem_spaces isspace_of_mem_spaces
  have hv : is_valid_input (spaces a ++ '{' :: spaces n ++ '}' :: spaces b) = true := by
    unfold is_valid_input
    rw [run_empty_literal]
  refine ⟨hv, hg, ?_, ?_⟩
  · rw [intset_in_eq _ hv, run_empty_literal]
    exact congrArg some (by decide)
  · rw [hg]
    exact to_string_nil sprintf

/-- The empty literal of the specification, evaluated. -/
theorem empty_literal_examples :
    get_data "\x7b\x7d".toList = ([], 0) ∧
    intset_in "  \x7b   \x7d ".toList = some ([], 0) ∧
    to_string sprintf_append [] 0 = "\x7b\x7d".toList ∧
    to_string sprintf_fortified [] 0 = "\x7b\x7d".toList := by decide

/-! ## The insertion point -/

theorem sorted_le_insert_at {data : List Int} (hs : data.Sorted (· < ·)) (v : Int) (p : Nat)
    (hlo : ∀ k : Int, 0 ≤ k → k < p → rd data k < v)
    (hhi : ∀ k : Int, (p : Int) ≤ k → k < data.length → v ≤ rd data k) :
    (data.take p ++ v :: data.drop p).Sorted (· ≤ ·) := by
  have hlt : ∀ a ∈ data.take p, a ≤ v := by
    intro a ha
    obtain ⟨i, hi, rfl⟩ := List.mem_take_iff_getElem.mp ha
    have hi2 : i < p ∧ i < data.length := by simpa using hi
    rw [← rd_natCast data i hi2.2]
    exact le_of_lt (hlo i (by omega) (by omega))
  have hgt : ∀ b ∈ data.drop p, v ≤ b := by
    intro b hb
    obtain ⟨i, hi, rfl⟩ := List.mem_drop_iff_getElem.mp hb
    have h1 := hhi ((p + i : Nat) : Int) (by omega) (by omega)
    rwa [rd_natCast data (p + i) (by omega)] at h1
  have hle : data.Sorted (· ≤ ·) := List.Pairwise.imp le_of_lt hs
  have hsplit : (data.take p ++ data.drop p).Sorted (· ≤ ·) := by
    rw [List.take_append_drop]; exact hle
  obtain ⟨h1, h2, h3⟩ := List.pairwise_append.mp hsplit
  refine List.pairwise_append.mpr ⟨h1, List.pairwise_cons.mpr ⟨hgt, h2⟩, ?_⟩
  intro a ha b hb
  rcases List.mem_cons.mp hb with rfl | hb
  · exact hlt a ha
  · exact h3 a ha b hb

theorem insert_below_breaks_order {data : List Int} (v : Int) (q : Nat) (hq : q < data.length)
    (hlt : data[q] < v) : ¬ (data.take q ++ v :: data.drop q).Sorted (· ≤ ·) := by
  intro h
  obtain ⟨_, h2, _⟩ := List.pairwise_append.mp h
  have h3 := (List.pairwise_cons.mp h2).1
  have hmem : data[q] ∈ data.drop q := by
    rw [List.drop_eq_getElem_cons hq]
    exact List.mem_cons_self _ _
  have := h3 _ hmem
  omega

/-- C23: for every strictly ascending array and every target, `find_insert_pos` returns
the lower bound `p`: `0 <= p <= size`, every cell below `p` is smaller than the target,
every cell from `p` on is at least the target; inserting the target at `p` keeps the
array ascending, and no smaller index does. -/
theorem insertion_point_is_lower_bound (data : List Int) (hs : data.Sorted (· < ·))
    (target : Int) :
    0 ≤ find_insert_pos data target data.length ∧
    find_insert_pos data target data.length ≤ data.length ∧
    (∀ k : Int, 0 ≤ k → k < find_insert_pos data target data.length → rd data k < target) ∧
    (∀ k : Int, find_insert_pos data target data.length ≤ k → k < data.length →
      target ≤ rd data k) ∧
    (data.take (find_insert_pos data target data.length).toNat ++
      target :: data.drop (find_insert_pos data target data.length).toNat).Sorted (· ≤ ·) ∧
    (∀ q : Nat, q ≤ data.length → (data.take q ++ target :: data.drop q).Sorted (· ≤ ·) →
      find_insert_pos data target data.length ≤ q) := by
  obtain ⟨h0, h1, h2, h3⟩ := find_insert_pos_spec hs target
  refine ⟨h0, h1, h2, h3, ?_, ?_⟩
  · apply sorted_le_insert_at hs
    · intro k hk0 hk
      exact h2 k hk0 (by omega)
    · intro k hk hk1
      exact h3 k (by omega) hk1
  · intro q hq hsorted
    by_contra hlt
    have hq2 : q < data.length := by omega
    have := h2 q (by omega) (by omega)
    rw [rd_natCast data q hq2] at this
    exact insert_below_breaks_order target q hq2 this hsorted

theorem insertion_point_is_lower_bound_witness :
    List.Sorted (· < ·) [(1 : Int), 3, 5, 7] ∧
    find_insert_pos [1, 3, 5, 7] 4 ([(1 : Int), 3, 5, 7].length : Int) ≤
      ([(1 : Int), 3, 5, 7].length : Int) :=
  ⟨by decide, (insertion_point_is_lower_bound [1, 3, 5, 7] (by decide) 4).2.1⟩

/-- The insertion point on small arrays, evaluated: before, between, at and after the
cells, and on the empty array. -/
theorem insertion_point_examples :
    find_insert_pos [1, 3, 5, 7] 0 4 = 0 ∧
    find_insert_pos [1, 3, 5, 7] 4 4 = 2 ∧
    find_insert_pos [1, 3, 5, 7] 5 4 = 2 ∧
    find_insert_pos [1, 3, 5, 7] 9 4 = 4 ∧
    find_insert_pos [] 9 0 = 0 := by decide

/-- C24: for every array of length `n`, value `v` and index `0 <= pos <= n`,
`insert_num` called with the new size `n + 1` returns the `n + 1` cells
`data[0..pos)`, `v`, `data[pos..n)`; when the array is strictly ascending, `v` is
absent and `pos` is the insertion point of `v`, the result is strictly ascending and
holds the elements of the array and `v`, nothing else. -/
theorem insert_at_spec (data : List Int) (v : Int) (pos : Int) (h0 : 0 ≤ pos)
    (h1 : pos ≤ data.length) :
    insert_num data (data.length + 1) v pos =
      data.take pos.toNat ++ v :: data.drop pos.toNat ∧
    ((insert_num data (data.length + 1) v pos).length : Int) = data.length + 1 ∧
    (data.Sorted (· < ·) → v ∉ data → pos = find_insert_pos data v data.length →
      (insert_num data (data.length + 1) v pos).Sorted (· < ·) ∧
      ∀ x, x ∈ insert_num data (data.length + 1) v pos ↔ x ∈ data ∨ x = v) := by
  have he := insert_num_eq data v pos h0 h1
  refine ⟨he, ?_, ?_⟩
  · rw [he]
    simp only [List.length_append, List.length_cons, List.length_take, List.length_drop,
      Nat.cast_add, Nat.cast_one]
    omega
  · intro hs hv hp
    rw [he]
    obtain ⟨p, hpp⟩ : ∃ p : Nat, pos = p := ⟨pos.toNat, by omega⟩
    obtain ⟨_, _, f2, f3⟩ := find_insert_pos_spec hs v
    rw [← hp, hpp] at f2 f3
    rw [hpp, Int.toNat_natCast]
    exact ⟨sorted_insert_at hs v p f2 f3 hv, fun x => mem_insert_at data v x p⟩

theorem insert_at_spec_witness :
    (0 : Int) ≤ 1 ∧ (1 : Int) ≤ ([(1 : Int), 5].length : Int) ∧
    insert_num [1, 5] (([(1 : Int), 5].length : Int) + 1) 3 1 =
      [(1 : Int), 5].take (1 : Int).toNat ++ 3 :: [(1 : Int), 5].drop (1 : Int).toNat :=
  ⟨by decide, by decide, (insert_at_spec [1, 5] 3 1 (by decide) (by decide)).1⟩

/-- The ordered insertion on small arrays, evaluated: at the front, inside, at the end,
and into the empty array. -/
theorem insert_at_examples :
    insert_num [1, 5] 3 0 0 = [0, 1, 5] ∧
    insert_num [1, 5] 3 3 1 = [1, 3, 5] ∧
    insert_num [1, 5] 3 9 2 = [1, 5, 9] ∧
    insert_num [] 1 4 0 = [4] := by decide
/-! ## Reads of the search loops -/

theorem num_exist_trace_spec (data : List Int) (target : Int) :
    ∀ (fuel : Nat) (l r : Int), r - l + 1 ≤ fuel →
      ∃ t, num_exist_trace data target fuel l r =
          some (num_exist_loop data target fuel l r, t) ∧
        ∀ m ∈ t, l ≤ m ∧ m ≤ r := by
  intro fuel
  induction fuel with
  | zero =>
    intro l r hf
    have hlr : ¬ l ≤ r := by omega
    exact ⟨[], by simp [num_exist_trace, num_exist_loop, hlr], by simp⟩
  | succ fuel ih =>
    intro l r hf
    unfold num_exist_trace num_exist_loop
    by_cases hlr : l ≤ r
    · simp only [hlr, if_true]
      by_cases heq : rd data (l + (r - l) / 2) = target
      · simp only [heq, if_true]
        exact ⟨[l + (r - l) / 2], rfl, by
          intro m hm
          rw [List.mem_singleton.mp hm]
          omega⟩
      · simp only [heq, if_false]
        by_cases hlt : rd data (l + (r - l) / 2) < target
        · simp only [hlt, if_true]
          obtain ⟨t, ht, hm⟩ := ih (l + (r - l) / 2 + 1) r (by omega)
          refine ⟨(l + (r - l) / 2) :: t, by rw [ht]; rfl, ?_⟩
          intro m hmem
          rcases List.mem_cons.mp hmem with rfl | h
          · omega
          · have := hm m h
            omega
        · simp only [hlt, if_false]
          obtain ⟨t, ht, hm⟩ := ih l (l + (r - l) / 2 - 1) (by omega)
          refine ⟨(l + (r - l) / 2) :: t, by rw [ht]; rfl, ?_⟩
          intro m hmem
          rcases List.mem_cons.mp hmem with rfl | h
          · omega
          · have := hm m h
            omega
    · simp only [hlr, if_false]
      exact ⟨[], rfl, by simp⟩

theorem find_insert_pos_trace_spec (data : List Int) (target : Int) :
    ∀ (fuel : Nat) (l r : Int), r - l + 1 ≤ fuel →
      ∃ t, find_insert_pos_trace data target fuel l r =
          some (find_insert_pos_loop data target fuel l r, t) ∧
        ∀ m ∈ t, l ≤ m ∧ m ≤ r := by
  intro fuel
  induction fuel with
  | zero =>
    intro l r hf
    have hlr : ¬ l ≤ r := by omega
    exact ⟨[], by simp [find_insert_pos_trace, find_insert_pos_loop, hlr], by simp⟩
  | succ fuel ih =>
    intro l r hf
    unfold find_insert_pos_trace find_insert_pos_loop
    by_cases hlr : l ≤ r
    · simp only [hlr, if_true]
      by_cases hlt : rd data (l + (r - l) / 2) < target
      · simp only [hlt, if_true]
        obtain ⟨t, ht, hm⟩ := ih (l + (r - l) / 2 + 1) r (by omega)
        refine ⟨(l + (r - l) / 2) :: t, by rw [ht]; rfl, ?_⟩
        intro m hmem
        rcases List.mem_cons.mp hmem with rfl | h
        · omega
        · have := hm m h
          omega
      · simp only [hlt, if_false]
        obtain ⟨t, ht, hm⟩ := ih l (l + (r - l) / 2 - 1) (by omega)
        refine ⟨(l + (r - l) / 2) :: t, by rw [ht]; rfl, ?_⟩
        intro m hmem
        rcases List.mem_cons.mp hmem with rfl | h
        · omega
        · have := hm m h
          omega
    · simp only [hlr, if_false]
      exact ⟨[], rfl, by simp⟩

/-- C26: for every array, target and size, sorted or not, the loops of `num_exist` and
`find_insert_pos` exit within the `size + 1` rounds given to them, with the result of
the function, and every index `m` they read satisfies `0 <= m < size`; for `size = 0`
nothing is read. -/
theorem search_reads_in_range (data : List Int) (target : Int) (size : Int) :
    (∃ t, num_exist_trace data target (size.toNat + 1) 0 (size - 1) =
        some (num_exist data target size, t) ∧ ∀ m ∈ t, 0 ≤ m ∧ m < size) ∧
    (∃ t, find_insert_pos_trace data target (size.toNat + 1) 0 (size - 1) =
        some (find_insert_pos data target size, t) ∧ ∀ m ∈ t, 0 ≤ m ∧ m < size) ∧
    num_exist_trace data target ((0 : Int).toNat + 1) 0 (0 - 1) = some (false, []) ∧
    find_insert_pos_trace data target ((0 : Int).toNat + 1) 0 (0 - 1) = some (0, []) := by
  refine ⟨?_, ?_, rfl, rfl⟩
  · obtain ⟨t, ht, hm⟩ := num_exist_trace_spec data target (size.toNat + 1) 0 (size - 1)
      (by omega)
    refine ⟨t, ht, fun m h => ?_⟩
    have := hm m h
    omega
  · obtain ⟨t, ht, hm⟩ := find_insert_pos_trace_spec data target (size.toNat + 1) 0 (size - 1)
      (by omega)
    refine ⟨t, ht, fun m h => ?_⟩
    have := hm m h
    omega

/-- The reads of the two searches on an array that is not sorted, evaluated. -/
theorem search_reads_examples :
    num_exist_trace [9, 2, 7, 1, 8] 1 6 0 4 = some (false, [2, 0]) ∧
    find_insert_pos_trace [9, 2, 7, 1, 8] 8 6 0 4 = some (4, [2, 3, 4]) ∧
    num_exist_trace [] 1 1 0 (-1) = some (false, []) := by decide

/-! ## The caller's buffer after validation -/

theorem run_buffer (str : List Char) :
    (is_valid_input_run str).2 = str ∨
      (is_valid_input_run str).2 = str.filter (· ≠ ' ') := by
  unfold is_valid_input_run
  dsimp only
  split
  · exact Or.inl rfl
  · split
    · exact Or.inl rfl
    · exact Or.inr rfl

theorem run_buffer_of_valid (str : List Char) (h : is_valid_input str = true) :
    (is_valid_input_run str).2 = str.filter (· ≠ ' ') := by
  unfold is_valid_input at h
  unfold is_valid_input_run at h ⊢
  dsimp only at h ⊢
  split
  · rename_i hc
    rw [if_pos hc] at h
    exact absurd h Bool.false_ne_true
  · rename_i hc
    rw [if_neg hc] at h
    split
    · rename_i hc2
      rw [if_pos hc2] at h
      exact absurd h Bool.false_ne_true
    · rfl

/-- C22 fails on the code: `is_valid_input` removes the space characters of its
argument in place. After the call on `{1, 2}` (accepted) the caller's buffer reads
`{1,2}`, and after the call on `{1, a}` (rejected) it reads `{1,a}`, the text that
`intset_in` then puts into its error message. -/
theorem validate_strips_caller_buffer :
    is_valid_input_run "\x7b1, 2\x7d".toList = (true, "\x7b1,2\x7d".toList) ∧
    is_valid_input_run "\x7b1, a\x7d".toList = (false, "\x7b1,a\x7d".toList) ∧
    (is_valid_input_run "\x7b1, a\x7d".toList).2 ≠ "\x7b1, a\x7d".toList ∧
    (∀ str, is_valid_input str = true →
      (is_valid_input_run str).2 = str.filter (· ≠ ' ')) := by
  refine ⟨by decide, by decide, by decide, run_buffer_of_valid⟩
/-! ## Leading zeros -/

theorem zeros_digits (k : Nat) : ∀ c ∈ List.replicate k '0', isdigit c = true := by
  intro c hc
  rw [(List.mem_replicate.mp hc).2]
  decide

theorem token_text_element (t : PaddedToken)
    (h : t.digits ≠ [] ∧ ∀ c ∈ t.digits, isdigit c = true) : IsElement (token_text t) :=
  ⟨t.lead, t.trail, t.digits, h.1, h.2, rfl⟩

theorem padded_text_element (t : PaddedToken)
    (h : t.digits ≠ [] ∧ ∀ c ∈ t.digits, isdigit c = true) : IsElement (padded_text t) := by
  refine ⟨t.lead, t.trail, List.replicate t.zeros '0' ++ t.digits, by simp [h.1], ?_, rfl⟩
  intro c hc
  rcases List.mem_append.mp hc with hc | hc
  · exact zeros_digits _ c hc
  · exact h.2 c hc

theorem filter_token_text (t : PaddedToken) (h : ∀ c ∈ t.digits, isdigit c = true) :
    (token_text t).filter (· ≠ ' ') = t.digits := by
  unfold token_text
  rw [List.filter_append, List.filter_append, filter_spaces, filter_spaces,
    filter_digits _ h]
  simp

theorem filter_padded_text (t : PaddedToken) (h : ∀ c ∈ t.digits, isdigit c = true) :
    (padded_text t).filter (· ≠ ' ') = List.replicate t.zeros '0' ++ t.digits := by
  unfold padded_text
  rw [List.filter_append, List.filter_append, filter_spaces, filter_spaces,
    List.filter_append, filter_digits _ h, filter_digits _ (zeros_digits _)]
  simp

theorem literal_values_padded (a b : Nat) (toks : List PaddedToken) (hne : toks ≠ [])
    (hd : ∀ t ∈ toks, t.digits ≠ [] ∧ ∀ c ∈ t.digits, isdigit c = true) :
    literal_values (literal_of a b (toks.map padded_text)) =
      literal_values (literal_of a b (toks.map token_text)) := by
  unfold literal_values literal_of
  rw [literal_tokens_elements a b _ (by simpa using hne)
      (fun e he => by
        obtain ⟨t, ht, rfl⟩ := List.mem_map.mp he
        exact padded_text_element t (hd t ht)),
    literal_tokens_elements a b _ (by simpa using hne)
      (fun e he => by
        obtain ⟨t, ht, rfl⟩ := List.mem_map.mp he
        exact token_text_element t (hd t ht))]
  simp only [List.map_map]
  apply List.map_congr_left
  intro t ht
  simp only [Function.comp]
  rw [filter_padded_text t (hd t ht).2, filter_token_text t (hd t ht).2,
    decimal_value_zeros _ _ (fun c hc => (List.mem_replicate.mp hc).2)]

theorem decimal_value_all_zeros (k : Nat) : decimal_value (List.replicate k '0') = 0 := by
  have := decimal_value_zeros (List.replicate k '0') []
    (fun c hc => (List.mem_replicate.mp hc).2)
  simpa using this

theorem valid_literal_of (a b : Nat) (es : List (List Char)) (hne : es ≠ [])
    (he : ∀ e ∈ es, IsElement e) : is_valid_input (literal_of a b es) = true := by
  unfold is_valid_input literal_of
  rw [run_element_literal a b es hne he]

/-- C21: in a literal of the grammar, putting any number of `'0'` characters before
the digits of any tokens gives an accepted literal that is parsed to the same array
and size, whatever the conversion does (it is a parameter); a token of `'0'`
characters only is converted to 0 and the literal made of it is parsed to `[0]`. -/
theorem leading_zeros_ignored (conv : List Char → Int) (a b : Nat) (toks : List PaddedToken)
    (hne : toks ≠ [])
    (hd : ∀ t ∈ toks, t.digits ≠ [] ∧ ∀ c ∈ t.digits, isdigit c = true) (k : Nat) :
    is_valid_input (literal_of a b (toks.map token_text)) = true ∧
    is_valid_input (literal_of a b (toks.map padded_text)) = true ∧
    get_data_with conv (literal_of a b (toks.map padded_text)) =
      get_data_with conv (literal_of a b (toks.map token_text)) ∧
    get_data (literal_of a b (toks.map padded_text)) =
      get_data (literal_of a b (toks.map token_text)) ∧
    intset_in (literal_of a b (toks.map padded_text)) =
      intset_in (literal_of a b (toks.map token_text)) ∧
    parse_token atoi (List.replicate (k + 1) '0') = 0 ∧
    get_data (literal_of a b [List.replicate (k + 1) '0']) = ([0], 1) := by
  have hv1 : is_valid_input (literal_of a b (toks.map token_text)) = true :=
    valid_literal_of a b _ (by simpa using hne) (fun e he => by
      obtain ⟨t, ht, rfl⟩ := List.mem_map.mp he
      exact token_text_element t (hd t ht))
  have hv2 : is_valid_input (literal_of a b (toks.map padded_text)) = true :=
    valid_literal_of a b _ (by simpa using hne) (fun e he => by
      obtain ⟨t, ht, rfl⟩ := List.mem_map.mp he
      exact padded_text_element t (hd t ht))
  have hval := literal_values_padded a b toks hne hd
  have key : ∀ cv : List Char → Int,
      get_data_with cv (literal_of a b (toks.map padded_text)) =
        get_data_with cv (literal_of a b (toks.map token_text)) := by
    intro cv
    rw [(parse_valid_conv cv _ hv2).1, (parse_valid_conv cv _ hv1).1, hval]
  have hz : parse_token atoi (List.replicate (k + 1) '0') = 0 := by
    rw [parse_token_of_value atoi _ (zeros_digits _), decimal_value_all_zeros]
    rfl
  refine ⟨hv1, hv2, key conv, key atoi, ?_, hz, ?_⟩
  · rw [intset_in_eq _ hv1, intset_in_eq _ hv2]
    unfold get_data
    rw [(parse_valid_conv atoi _ hv2).2, (parse_valid_conv atoi _ hv1).2, hval]
  · unfold get_data literal_of
    rw [get_data_frame atoi _ _ _ isspace_of_mem_spaces isspace_of_mem_spaces,
      intercalate_single, filter_digits _ (zeros_digits _)]
    have hs : strtok (List.replicate (k + 1) '0') = [List.replicate (k + 1) '0'] := by
      have := strtok_digits [List.replicate (k + 1) '0'] (by simp)
        (fun ds h => by
          rw [List.mem_singleton.mp h]
          exact ⟨by simp, zeros_digits _⟩)
      rwa [intercalate_single] at this
    rw [hs]
    simp only [List.map_cons, List.map_nil, hz]
    decide

theorem leading_zeros_ignored_witness :
    ([⟨0, 2, ['7'], 0⟩, ⟨1, 1, ['1', '2'], 0⟩] : List PaddedToken) ≠ [] ∧
    (∀ t ∈ ([⟨0, 2, ['7'], 0⟩, ⟨1, 1, ['1', '2'], 0⟩] : List PaddedToken),
      t.digits ≠ [] ∧ ∀ c ∈ t.digits, isdigit c = true) ∧
    get_data (literal_of 0 0
        (([⟨0, 2, ['7'], 0⟩, ⟨1, 1, ['1', '2'], 0⟩] : List PaddedToken).map padded_text)) =
      get_data (literal_of 0 0
        (([⟨0, 2, ['7'], 0⟩, ⟨1, 1, ['1', '2'], 0⟩] : List PaddedToken).map token_text)) :=
  ⟨by simp, by decide,
    (leading_zeros_ignored atoi 0 0 [⟨0, 2, ['7'], 0⟩, ⟨1, 1, ['1', '2'], 0⟩] (by simp)
      (by decide) 0).2.2.2.1⟩

/-- The parses named by the specification for leading zeros, evaluated. -/
theorem leading_zeros_examples :
    literal_of 0 0 (([⟨0, 2, ['7'], 0⟩] : List PaddedToken).map padded_text) =
      "\x7b007\x7d".toList ∧
    get_data "\x7b007\x7d".toList = ([7], 1) ∧
    get_data "\x7b000\x7d".toList = ([0], 1) ∧
    get_data "\x7b007, 7,0, 00\x7d".toList = ([0, 7], 2) := by decide
/-! ## Added white space -/

theorem valid_iff_literal (lit : List Char) :
    is_valid_input lit = true ↔ IsSetLiteral (trim_spaces lit) := by
  constructor
  · intro h
    obtain ⟨a, b, ⟨n, rfl⟩ | ⟨es, hne, he, rfl⟩⟩ := grammar_of_valid lit h
    · rw [trim_framed]
      exact Or.inl ⟨n, rfl⟩
    · rw [trim_framed]
      exact Or.inr ⟨es, hne, he, rfl⟩
  · intro h
    obtain ⟨a, b, hlit⟩ := trim_decomp lit
    rw [hlit]
    unfold is_valid_input
    rcases h with ⟨n, hn⟩ | ⟨es, hne, he, hes⟩
    · rw [hn]
      have e : spaces a ++ ('{' :: spaces n ++ ['}']) ++ spaces b =
          spaces a ++ '{' :: spaces n ++ '}' :: spaces b := by simp
      rw [e, run_empty_literal]
    · rw [hes]
      have e : spaces a ++ ('{' :: [','].intercalate es ++ ['}']) ++ spaces b =
          spaces a ++ '{' :: [','].intercalate es ++ '}' :: spaces b := by simp
      rw [e, run_element_literal a b es hne he]

theorem spaces_all (n : Nat) : ∀ c ∈ spaces n, decide (c = ' ') = true := by
  intro c hc
  simp [mem_spaces hc]

theorem trim_spaces_left (n : Nat) (y : List Char) :
    trim_spaces (spaces n ++ y) = trim_spaces y := by
  unfold trim_spaces
  rw [List.dropWhile_append_of_pos (spaces_all n)]

theorem trim_spaces_right (x : List Char) (n : Nat) :
    trim_spaces (x ++ spaces n) = trim_spaces x := by
  unfold trim_spaces
  have hr : ∀ c ∈ (spaces n).reverse, decide (c = ' ') = true :=
    fun c hc => spaces_all n c (List.mem_reverse.mp hc)
  rw [List.dropWhile_append]
  by_cases hx : (x.dropWhile (fun c : Char => decide (c = ' '))).isEmpty = true
  · rw [if_pos hx]
    have h1 : x.dropWhile (fun c : Char => decide (c = ' ')) = [] := List.isEmpty_iff.mp hx
    have h2 : (spaces n).dropWhile (fun c : Char => decide (c = ' ')) = [] :=
      List.dropWhile_eq_nil_iff.mpr (spaces_all n)
    rw [h1, h2]
  · rw [if_neg hx, List.reverse_append, List.dropWhile_append_of_pos hr]

theorem append_cons_split (P B S x y : List Char) (c : Char) (hP : c ∉ P) (hS : c ∉ S)
    (h : P ++ (B ++ S) = x ++ c :: y) :
    ∃ X Y, B = X ++ c :: Y ∧ x = P ++ X ∧ y = Y ++ S := by
  rcases List.append_eq_append_iff.mp h with ⟨a1, hx, hb⟩ | ⟨c1, hp, _⟩
  · rcases List.append_eq_append_iff.mp hb with ⟨d, ha1, hs⟩ | ⟨d, hB, hcy⟩
    · exact absurd (hs ▸ (by simp : c ∈ d ++ c :: y)) hS
    · cases d with
      | nil =>
        rw [List.nil_append] at hcy
        exact absurd (hcy ▸ List.mem_cons_self c y) hS
      | cons c2 d =>
        rw [List.cons_append] at hcy
        obtain ⟨h1, h2⟩ := List.cons.inj hcy
        subst h1
        exact ⟨a1, d, hB, hx, h2⟩
  · cases c1 with
    | nil =>
      rw [List.append_nil] at hp
      subst hp
      have h2 : B ++ S = c :: y := List.append_cancel_left h
      cases B with
      | nil =>
        rw [List.nil_append] at h2
        exact absurd (h2 ▸ List.mem_cons_self c y) hS
      | cons b0 B =>
        rw [List.cons_append] at h2
        obtain ⟨h3, h4⟩ := List.cons.inj h2
        subst h3
        exact ⟨[], B, rfl, by simp, h4.symm⟩
    | cons c2 c1 =>
      have hmem : c ∈ P := by
        rw [hp] at h
        have h4 : x ++ ((c2 :: c1) ++ (B ++ S)) = x ++ (c :: y) := by
          rw [← List.append_assoc]
          exact h
        have h3 : (c2 :: c1) ++ (B ++ S) = c :: y := List.append_cancel_left h4
        rw [List.cons_append] at h3
        rw [hp, ← (List.cons.inj h3).1]
        simp
      exact absurd hmem hP

theorem intercalate_comma_split (es : List (List Char)) (hne : es ≠ [])
    (hc : ∀ e ∈ es, ',' ∉ e) (X Y : List Char)
    (h : [','].intercalate es = X ++ ',' :: Y) :
    ∃ es1 es2, es1 ≠ [] ∧ es2 ≠ [] ∧ es = es1 ++ es2 ∧
      X = [','].intercalate es1 ∧ Y = [','].intercalate es2 := by
  obtain ⟨Q1, h1ne, h1c, rfl⟩ := pieces_exist X
  obtain ⟨Q2, h2ne, h2c, rfl⟩ := pieces_exist Y
  rw [← intercalate_append Q1 Q2 h1ne h2ne] at h
  have hs := congrArg (List.splitOn ',') h
  rw [List.splitOn_intercalate es ',' hc hne,
    List.splitOn_intercalate (Q1 ++ Q2) ','
      (fun l hl => by
        rcases List.mem_append.mp hl with hl | hl
        · exact h1c l hl
        · exact h2c l hl)
      (by simp [h1ne])] at hs
  exact ⟨Q1, Q2, h1ne, h2ne, hs, rfl, rfl⟩

theorem intercalate_snoc_append (init : List (List Char)) (e s : List Char) :
    [','].intercalate (init ++ [e]) ++ s = [','].intercalate (init ++ [e ++ s]) := by
  by_cases hi : init = []
  · subst hi
    simp [intercalate_single]
  · rw [intercalate_append init [e] hi (by simp), intercalate_append init [e ++ s] hi (by simp),
      intercalate_single, intercalate_single]
    simp

theorem intercalate_cons_prepend (s e : List Char) (rest : List (List Char)) :
    s ++ [','].intercalate (e :: rest) = [','].intercalate ((s ++ e) :: rest) := by
  cases rest with
  | nil => simp [intercalate_single]
  | cons e2 rest =>
    rw [intercalate_cons_cons, intercalate_cons_cons]
    simp

theorem element_append_spaces {e : List Char} (h : IsElement e) (n : Nat) :
    IsElement (e ++ spaces n) := by
  obtain ⟨a, b, ds, hne, hd, rfl⟩ := h
  refine ⟨a, b + n, ds, hne, hd, ?_⟩
  unfold spaces
  rw [List.replicate_add]
  simp

theorem element_prepend_spaces {e : List Char} (h : IsElement e) (n : Nat) :
    IsElement (spaces n ++ e) := by
  obtain ⟨a, b, ds, hne, hd, rfl⟩ := h
  refine ⟨n + a, b, ds, hne, hd, ?_⟩
  unfold spaces
  rw [List.replicate_add]
  simp only [List.append_assoc]

theorem comma_not_in_empty_literal (a n b : Nat) :
    ',' ∉ spaces a ++ '{' :: spaces n ++ '}' :: spaces b := by
  intro h
  simp only [List.mem_append, List.mem_cons] at h
  rcases h with (h | h | h) | h | h
  · exact absurd (mem_spaces h) (by decide)
  · exact absurd h (by decide)
  · exact absurd (mem_spaces h) (by decide)
  · exact absurd h (by decide)
  · exact absurd (mem_spaces h) (by decide)

/-- An accepted literal split at one of its commas: what stands before the comma and
what stands after it. -/
theorem valid_comma_split (x y : List Char) (hv : is_valid_input (x ++ ',' :: y) = true) :
    ∃ (a b : Nat) (es1 es2 : List (List Char)), es1 ≠ [] ∧ es2 ≠ [] ∧
      (∀ e ∈ es1, IsElement e) ∧ (∀ e ∈ es2, IsElement e) ∧
      x = spaces a ++ '{' :: [','].intercalate es1 ∧
      y = [','].intercalate es2 ++ '}' :: spaces b := by
  obtain ⟨a, b, ⟨n, hn⟩ | ⟨es, hne, he, hes⟩⟩ := grammar_of_valid _ hv
  · have hmem : ',' ∈ x ++ ',' :: y := by simp
    rw [hn] at hmem
    exact absurd hmem (comma_not_in_empty_literal a n b)
  · have hP : ',' ∉ spaces a ++ ['{'] := by
      intro h
      rcases List.mem_append.mp h with h | h
      · exact absurd (mem_spaces h) (by decide)
      · exact absurd (List.mem_singleton.mp h) (by decide)
    have hS : ',' ∉ '}' :: spaces b := by
      intro h
      rcases List.mem_cons.mp h with h | h
      · exact absurd h (by decide)
      · exact absurd (mem_spaces h) (by decide)
    have e : (spaces a ++ ['{']) ++ ([','].intercalate es ++ '}' :: spaces b) =
        x ++ ',' :: y := by
      rw [hes]; simp
    obtain ⟨X, Y, hB, hx, hy⟩ := append_cons_split _ _ _ _ _ ',' hP hS e
    obtain ⟨es1, es2, h1, h2, hsplit, hX, hY⟩ :=
      intercalate_comma_split es hne (fun e he2 => element_no_comma (he e he2)) X Y hB
    refine ⟨a, b, es1, es2, h1, h2, ?_, ?_, ?_, ?_⟩
    · intro e he2; exact he e (by rw [hsplit]; exact List.mem_append_left _ he2)
    · intro e he2; exact he e (by rw [hsplit]; exact List.mem_append_right _ he2)
    · rw [hx, hX]; simp
    · rw [hy, hY]

theorem valid_of_two_parts (a b : Nat) (es1 es2 : List (List Char)) (h1 : es1 ≠ [])
    (h2 : es2 ≠ []) (he1 : ∀ e ∈ es1, IsElement e) (he2 : ∀ e ∈ es2, IsElement e) :
    is_valid_input (spaces a ++ '{' :: [','].intercalate es1 ++
      ',' :: ([','].intercalate es2 ++ '}' :: spaces b)) = true := by
  have e : spaces a ++ '{' :: [','].intercalate es1 ++
      ',' :: ([','].intercalate es2 ++ '}' :: spaces b) =
      spaces a ++ '{' :: [','].intercalate (es1 ++ es2) ++ '}' :: spaces b := by
    rw [intercalate_append es1 es2 h1 h2]
    simp
  rw [e]
  unfold is_valid_input
  rw [run_element_literal a b (es1 ++ es2) (by simp [h1])
    (fun e he => by
      rcases List.mem_append.mp he with he | he
      · exact he1 e he
      · exact he2 e he)]
theorem valid_chars (lit : List Char) (hv : is_valid_input lit = true) :
    ∀ c ∈ lit, c = ' ' ∨ c = '{' ∨ c = '}' ∨ c = ',' ∨ isdigit c = true := by
  obtain ⟨a, b, ⟨n, rfl⟩ | ⟨es, hne, he, rfl⟩⟩ := grammar_of_valid lit hv
  · intro c hc
    simp only [List.mem_append, List.mem_cons] at hc
    rcases hc with (h | h | h) | h | h
    · exact Or.inl (mem_spaces h)
    · exact Or.inr (Or.inl h)
    · exact Or.inl (mem_spaces h)
    · exact Or.inr (Or.inr (Or.inl h))
    · exact Or.inl (mem_spaces h)
  · intro c hc
    simp only [List.mem_append, List.mem_cons] at hc
    rcases hc with (h | h | h) | h | h
    · exact Or.inl (mem_spaces h)
    · exact Or.inr (Or.inl h)
    · rcases mem_intercalate h with h | ⟨e, hmem, hce⟩
      · exact Or.inr (Or.inr (Or.inr (Or.inl h)))
      · obtain ⟨a2, b2, ds, _, hd, rfl⟩ := he e hmem
        simp only [List.mem_append] at hce
        rcases hce with (h | h) | h
        · exact Or.inl (mem_spaces h)
        · exact Or.inr (Or.inr (Or.inr (Or.inr (hd c h))))
        · exact Or.inl (mem_spaces h)
    · exact Or.inr (Or.inr (Or.inl h))
    · exact Or.inl (mem_spaces h)

/-- A string that holds a white-space character other than the space, a tab or a
newline for instance, is rejected wherever the character stands. -/
theorem validate_rejects_other_white_space (lit : List Char) (c : Char) (hc : c ∈ lit)
    (hs : isspace c = true) (hne : c ≠ ' ') : is_valid_input lit = false := by
  rw [← Bool.not_eq_true]
  intro hv
  rcases valid_chars lit hv c hc with h | h | h | h | h
  · exact hne h
  · rw [h] at hs; exact absurd hs (by decide)
  · rw [h] at hs; exact absurd hs (by decide)
  · rw [h] at hs; exact absurd hs (by decide)
  · exact not_digit_of_isspace hs h

/-- C25, as amended: for every accepted literal, the literal obtained by adding space
characters before the opening brace (`x` holds spaces only), after the closing brace
(`y` holds spaces only) or next to a comma (`y` begins with a comma or `x` ends with
one) is accepted as well. -/
theorem validate_accepts_added_spaces (x y : List Char) (n : Nat)
    (hv : is_valid_input (x ++ y) = true)
    (hpos : (∀ c ∈ x, c = ' ') ∨ (∀ c ∈ y, c = ' ') ∨
      y.head? = some ',' ∨ x.getLast? = some ',') :
    is_valid_input (x ++ spaces n ++ y) = true := by
  rcases hpos with hx | hy | hy | hx
  · rw [valid_iff_literal] at hv ⊢
    rw [eq_spaces x hx] at hv ⊢
    rw [List.append_assoc, trim_spaces_left, trim_spaces_left]
    rwa [trim_spaces_left] at hv
  · rw [valid_iff_literal] at hv ⊢
    rw [eq_spaces y hy] at hv ⊢
    rw [trim_spaces_right, trim_spaces_right]
    rwa [trim_spaces_right] at hv
  · obtain ⟨y2, rfl⟩ : ∃ y2, y = ',' :: y2 := by
      cases y with
      | nil => simp at hy
      | cons c y2 =>
        simp only [List.head?_cons, Option.some.injEq] at hy
        exact ⟨y2, by rw [hy]⟩
    obtain ⟨a, b, es1, es2, h1, h2, he1, he2, rfl, rfl⟩ := valid_comma_split x y2 hv
    obtain ⟨init, e, rfl⟩ : ∃ init e, es1 = init ++ [e] :=
      ⟨es1.dropLast, es1.getLast h1, (List.dropLast_append_getLast h1).symm⟩
    have e1 : spaces a ++ '{' :: [','].intercalate (init ++ [e]) ++ spaces n ++
        ',' :: ([','].intercalate es2 ++ '}' :: spaces b) =
        spaces a ++ '{' :: [','].intercalate (init ++ [e ++ spaces n]) ++
        ',' :: ([','].intercalate es2 ++ '}' :: spaces b) := by
      rw [← intercalate_snoc_append init e (spaces n)]
      simp
    rw [e1]
    apply valid_of_two_parts a b _ es2 (by simp) h2 _ he2
    intro e2 hmem
    rcases List.mem_append.mp hmem with h | h
    · exact he1 e2 (List.mem_append_left _ h)
    · rw [List.mem_singleton.mp h]
      exact element_append_spaces (he1 e (by simp)) n
  · obtain ⟨x2, rfl⟩ := List.getLast?_eq_some_iff.mp hx
    have hv2 : is_valid_input (x2 ++ ',' :: y) = true := by
      rw [List.append_assoc] at hv
      exact hv
    obtain ⟨a, b, es1, es2, h1, h2, he1, he2, rfl, rfl⟩ := valid_comma_split x2 y hv2
    obtain ⟨e, rest, rfl⟩ := List.exists_cons_of_ne_nil h2
    have e1 : spaces a ++ '{' :: [','].intercalate es1 ++ [','] ++ spaces n ++
        ([','].intercalate (e :: rest) ++ '}' :: spaces b) =
        spaces a ++ '{' :: [','].intercalate es1 ++
        ',' :: ([','].intercalate ((spaces n ++ e) :: rest) ++ '}' :: spaces b) := by
      rw [← intercalate_cons_prepend (spaces n) e rest]
      simp
    rw [e1]
    apply valid_of_two_parts a b es1 _ h1 (by simp) he1
    intro e2 hmem
    rcases List.mem_cons.mp hmem with h | h
    · rw [h]
      exact element_prepend_spaces (he2 e (List.mem_cons_self _ _)) n
    · exact he2 e2 (List.mem_cons_of_mem _ h)

theorem validate_accepts_added_spaces_witness :
    is_valid_input ("\x7b1".toList ++ ",2\x7d".toList) = true ∧
    ((∀ c ∈ "\x7b1".toList, c = ' ') ∨ (∀ c ∈ ",2\x7d".toList, c = ' ') ∨
      ",2\x7d".toList.head? = some ',' ∨ "\x7b1".toList.getLast? = some ',') ∧
    is_valid_input ("\x7b1".toList ++ spaces 3 ++ ",2\x7d".toList) = true :=
  ⟨by decide, Or.inr (Or.inr (Or.inl (by decide))),
    validate_accepts_added_spaces "\x7b1".toList ",2\x7d".toList 3 (by decide)
      (Or.inr (Or.inr (Or.inl (by decide))))⟩

/-- C25 as stated fails: `{1,2}` is accepted, and the literals obtained by adding a tab
before the opening brace, a newline after the closing brace, or a tab next to the
comma are rejected. -/
theorem validate_rejects_added_tab_counterexample :
    is_valid_input "\x7b1,2\x7d".toList = true ∧
    is_valid_input "\t\x7b1,2\x7d".toList = false ∧
    is_valid_input "\x7b1,2\x7d\n".toList = false ∧
    is_valid_input "\x7b1,\t2\x7d".toList = false ∧
    is_valid_input "\x7b1\n,2\x7d".toList = false := by decide

end IntSet
